import Mathlib

/-!
# Threshold estimation by the break-even point (utility_threshold_estimation.hpp)

A shallow embedding of `do_threshold_estimation` and `estimate_Th`.

* `unsigned int` values are natural numbers below `2 ^ 32`; the arithmetic on
  them (`+`, `-`, `++`) is written with an explicit reduction modulo `2 ^ 32`.
* `double` values (dot products, thresholds, precision, recall) are rational
  numbers. `do_threshold_estimation` and `estimate_Th` compute with them
  exactly; `do_threshold_estimation_double` and `estimate_Th_double` round
  every floating-point operation of the source to the nearest `double`.
* `class_d_list`, a `std::map` keyed by the dot product, is the list of its
  (key, entry) pairs in ascending key order; the reverse iterators of the
  source walk the reversed list.
-/

namespace TcRocchio

/-! ## Machine integers -/

/-- The number of values of an `unsigned int`. -/
def UINT_RANGE : Nat := 2 ^ 32

/-- Addition of two `unsigned int` values. -/
def uint_add (x y : Nat) : Nat := (x + y) % UINT_RANGE

/-- Subtraction of two `unsigned int` values (wraps below zero). -/
def uint_sub (x y : Nat) : Nat := (x + UINT_RANGE - y % UINT_RANGE) % UINT_RANGE

/-! ## Data model -/

/-- The `pair<unsigned int, unsigned int>` of a dot product value: `first` is
the number of documents in the category (bit 1), `second` the number of
documents outside of it (bit 0). -/
structure class_d_list_entry where
  first : Nat
  second : Nat
deriving DecidableEq, Repr

/-- The `map<double, class_d_list_entry>`: its pairs in ascending key order. -/
abbrev class_d_list := List (ℚ × class_d_list_entry)

/-- The representation invariant of the map: keys strictly ascending. -/
def map_ordered (d : class_d_list) : Prop :=
  List.Pairwise (fun x y => x.1 < y.1) d

/-- Every counter of the map is an `unsigned int`. -/
def counters_in_range (d : class_d_list) : Prop :=
  ∀ x ∈ d, x.2.first < UINT_RANGE ∧ x.2.second < UINT_RANGE

/-- Sum of the `first` counters (documents in the category). -/
def sum_first (d : class_d_list) : Nat := (d.map (fun x => x.2.first)).sum

/-- Sum of the `second` counters (documents outside the category). -/
def sum_second (d : class_d_list) : Nat := (d.map (fun x => x.2.second)).sum

/-! ## Precision and recall -/

/-- Modelled from the spec: `get_precision` of utility_doc_cat_list.hpp, which
is not part of the sources at hand: `precision(a, b) = a / (a + b)`, and `1`
if `a + b == 0`. -/
def get_precision (a b : Nat) : ℚ :=
  if a + b = 0 then 1 else (a : ℚ) / ((a : ℚ) + (b : ℚ))

/-- Modelled from the spec: `get_recall` of utility_doc_cat_list.hpp, which
is not part of the sources at hand: `recall(a, c) = a / (a + c)`, and `1`
if `a + c == 0`. -/
def get_recall (a c : Nat) : ℚ :=
  if a + c = 0 then 1 else (a : ℚ) / ((a : ℚ) + (c : ℚ))

/-! ## The walk of `do_threshold_estimation` -/

/-- The local variables of `do_threshold_estimation` at the start of a loop
iteration; `prev_bit = none` is the past-the-end iterator `rend()`. -/
structure walk_state where
  b : Nat
  c : Nat
  prev_bit : Option (ℚ × class_d_list_entry)
  threshold : ℚ
deriving DecidableEq, Repr

/-- How control left the `for` loop. -/
inductive loop_exit where
  | crossover_curr
  | crossover_prev
  | equality
  | exhausted
deriving DecidableEq, Repr

/-- The variables read after the loop, and the way the loop was left. -/
structure walk_result where
  threshold : ℚ
  b : Nat
  c : Nat
  stop : loop_exit
deriving DecidableEq, Repr

/-- What one execution of the loop body does. -/
inductive loop_outcome where
  | next (s : walk_state)
  | leave (r : walk_result)
  | undefined
deriving DecidableEq, Repr

/-- The body of the `for` loop, at the bucket `bit`. -/
def loop_body (cat_doc_count : Nat) (s : walk_state)
    (bit : ℚ × class_d_list_entry) : loop_outcome :=
  let next_c := uint_sub s.c bit.2.first
  let next_b := uint_add s.b bit.2.second
  if next_b > next_c then
    let prev_diff := get_precision (uint_sub cat_doc_count s.c) s.b
      - get_recall (uint_sub cat_doc_count s.c) s.c
    let curr_diff := get_recall (uint_sub cat_doc_count next_c) next_c
      - get_precision (uint_sub cat_doc_count next_c) next_b
    if prev_diff > curr_diff then
      .leave { threshold := bit.1, b := next_b, c := next_c, stop := .crossover_curr }
    else
      match s.prev_bit with
      | none => .undefined
      | some p => .leave { threshold := p.1, b := s.b, c := s.c, stop := .crossover_prev }
  else if next_b = next_c then
    .leave { threshold := bit.1, b := next_b, c := next_c, stop := .equality }
  else
    .next { b := uint_add s.b bit.2.second, c := uint_sub s.c bit.2.first,
            prev_bit := some bit, threshold := s.threshold }

/-- The value of the local `prev_diff` at the state `s`. -/
def prev_diff (cat_doc_count : Nat) (s : walk_state) : ℚ :=
  get_precision (uint_sub cat_doc_count s.c) s.b
    - get_recall (uint_sub cat_doc_count s.c) s.c

/-- The value of the local `curr_diff` at the state `s` and the bucket `bit`. -/
def curr_diff (cat_doc_count : Nat) (s : walk_state)
    (bit : ℚ × class_d_list_entry) : ℚ :=
  get_recall (uint_sub cat_doc_count (uint_sub s.c bit.2.first))
      (uint_sub s.c bit.2.first)
    - get_precision (uint_sub cat_doc_count (uint_sub s.c bit.2.first))
      (uint_add s.b bit.2.second)

/-- The `for` loop over the buckets still to visit (highest score first). -/
def walk (cat_doc_count : Nat) :
    List (ℚ × class_d_list_entry) → walk_state → Option walk_result
  | [], s => some { threshold := s.threshold, b := s.b, c := s.c, stop := .exhausted }
  | bit :: rest, s =>
    match loop_body cat_doc_count s bit with
    | .next s1 => walk cat_doc_count rest s1
    | .leave r => some r
    | .undefined => none

/-- The state at the start of the iteration that follows the given buckets,
when the loop gets there: every one of them was committed (`none` when the
loop is left at one of them). -/
def state_after (cat_doc_count : Nat) :
    List (ℚ × class_d_list_entry) → walk_state → Option walk_state
  | [], s => some s
  | bit :: rest, s =>
    match loop_body cat_doc_count s bit with
    | .next s1 => state_after cat_doc_count rest s1
    | _ => none

/-- The state in which the loop is entered. -/
def initial_state (cat_doc_count : Nat) (threshold : ℚ) : walk_state :=
  { b := 0, c := cat_doc_count, prev_bit := none, threshold := threshold }

/-- The interpolated BEP computed after the loop. -/
def interpolated_BEP (cat_doc_count : Nat) (r : walk_result) : ℚ :=
  0.5 * (get_precision (uint_sub cat_doc_count r.c) r.b
    + get_recall (uint_sub cat_doc_count r.c) r.c)

/-- The function `do_threshold_estimation`: the value of `threshold` when it
returns, and the value it returns; `none` when it dereferences `rend()`. -/
def do_threshold_estimation (cat_doc_count : Nat) (bit_string : class_d_list)
    (threshold : ℚ) : Option (ℚ × ℚ) :=
  match bit_string.reverse with
  | [] => some (0, 1)
  | rbegin :: rest =>
    if cat_doc_count = 0 then
      some (1.5 * rbegin.1, 1)
    else
      match walk cat_doc_count (rbegin :: rest) (initial_state cat_doc_count threshold) with
      | none => none
      | some r => some (r.threshold, interpolated_BEP cat_doc_count r)

/-! ## The aggregation loop of `estimate_Th` -/

/-- The increment `x++` of an `unsigned int`. -/
def uint_incr (x : Nat) : Nat := (x + 1) % UINT_RANGE

/-- The expression `d_list[k]` followed by the change `f` made through the
reference it returns: the entry of `k` is created as `(0, 0)` when absent. -/
def d_list_update (f : class_d_list_entry → class_d_list_entry) (k : ℚ) :
    class_d_list → class_d_list
  | [] => [(k, f ⟨0, 0⟩)]
  | x :: rest =>
    if k < x.1 then (k, f ⟨0, 0⟩) :: x :: rest
    else if k = x.1 then (x.1, f x.2) :: rest
    else x :: d_list_update f k rest

/-- The flag `bit_belongs_to_target_cat`: the gold standard of the document is
not `NULL` (`none`) and contains the name of the target category. -/
def bit_belongs_to_target_cat (target_cat_name : String)
    (doc_GS : Option (List String)) : Bool :=
  match doc_GS with
  | none => false
  | some cats => decide (target_cat_name ∈ cats)

/-- The classifier record: its threshold (`first.threshold`) and its profile
vector (`second`). -/
structure class_classifier (V : Type) where
  threshold : ℚ
  second : V

/-- One iteration of the loop that constructs the bits, on the pair of
`d_list` and `cat_doc_count`. The dot product of sparse vectors is the
parameter `dot_product_sparse_vector`. -/
def construct_bits_step {V : Type} (dot_product_sparse_vector : V → V → ℚ)
    (W : V) (target_cat_name : String) (acc : class_d_list × Nat)
    (doc : V × Option (List String)) : class_d_list × Nat :=
  let dot_prod := dot_product_sparse_vector doc.1 W
  if bit_belongs_to_target_cat target_cat_name doc.2 then
    (d_list_update (fun e => { e with first := uint_incr e.first }) dot_prod acc.1,
      uint_incr acc.2)
  else
    (d_list_update (fun e => { e with second := uint_incr e.second }) dot_prod acc.1,
      acc.2)

/-- The loop that constructs the bits: `d_list` and `cat_doc_count`. -/
def construct_bits {V : Type} (dot_product_sparse_vector : V → V → ℚ)
    (W : V) (target_cat_name : String)
    (unique_docs : List (V × Option (List String))) : class_d_list × Nat :=
  unique_docs.foldl
    (construct_bits_step dot_product_sparse_vector W target_cat_name) ([], 0)

/-- The function `estimate_Th`: the classifier record when it returns, and the
value it returns. Of `unique_docs_in_target_cat` only emptiness is read. -/
def estimate_Th {V : Type} (dot_product_sparse_vector : V → V → ℚ)
    (unique_docs : List (V × Option (List String)))
    (unique_docs_in_target_cat : List V) (target_cat_name : String)
    (target_cat_classifier : class_classifier V) :
    Option (class_classifier V × ℚ) :=
  if unique_docs_in_target_cat.isEmpty then
    let max_dot_product := unique_docs.foldl
      (fun m doc =>
        let result := dot_product_sparse_vector doc.1 target_cat_classifier.second
        if result > m then result else m) 0
    some ({ target_cat_classifier with threshold := 1.5 * max_dot_product }, 1)
  else
    let bits := construct_bits dot_product_sparse_vector
      target_cat_classifier.second target_cat_name unique_docs
    match do_threshold_estimation bits.2 bits.1 target_cat_classifier.threshold with
    | none => none
    | some res => some ({ target_cat_classifier with threshold := res.1 }, res.2)

/-! ## The rule that the threshold stands for -/

/-- Documents in the category that the rule `score >= Th` puts in it. -/
def true_positives (bit_string : class_d_list) (Th : ℚ) : Nat :=
  sum_first (bit_string.filter (fun x => decide (Th ≤ x.1)))

/-- Documents outside the category that the rule `score >= Th` puts in it. -/
def false_positives (bit_string : class_d_list) (Th : ℚ) : Nat :=
  sum_second (bit_string.filter (fun x => decide (Th ≤ x.1)))

/-- Documents in the category that the rule `score >= Th` leaves out. -/
def false_negatives (bit_string : class_d_list) (Th : ℚ) : Nat :=
  sum_first (bit_string.filter (fun x => decide (x.1 < Th)))

/-! ## Counting the documents -/

/-- The documents whose gold standard is present and contains the target
category. -/
def docs_in_cat {V : Type} (target_cat_name : String)
    (unique_docs : List (V × Option (List String))) : Nat :=
  unique_docs.countP (fun doc => bit_belongs_to_target_cat target_cat_name doc.2)

/-- The other documents: gold standard absent, or without the target
category. -/
def docs_not_in_cat {V : Type} (target_cat_name : String)
    (unique_docs : List (V × Option (List String))) : Nat :=
  unique_docs.countP (fun doc => !bit_belongs_to_target_cat target_cat_name doc.2)

/-- The documents with the score `s` that are in the target category. -/
def docs_in_cat_at {V : Type} (dot_product_sparse_vector : V → V → ℚ) (W : V)
    (target_cat_name : String) (unique_docs : List (V × Option (List String)))
    (s : ℚ) : Nat :=
  unique_docs.countP (fun doc => decide (dot_product_sparse_vector doc.1 W = s)
    && bit_belongs_to_target_cat target_cat_name doc.2)

/-- The documents with the score `s` that are not in the target category. -/
def docs_not_in_cat_at {V : Type} (dot_product_sparse_vector : V → V → ℚ) (W : V)
    (target_cat_name : String) (unique_docs : List (V × Option (List String)))
    (s : ℚ) : Nat :=
  unique_docs.countP (fun doc => decide (dot_product_sparse_vector doc.1 W = s)
    && !bit_belongs_to_target_cat target_cat_name doc.2)

/-! ## How far a threshold is from the break-even point -/

/-- The value `|precision - recall|` of the rule `score >= t` on the
documents of the buckets. -/
def rule_deviation (bit_string : class_d_list) (t : ℚ) : ℚ :=
  |get_precision (true_positives bit_string t) (false_positives bit_string t)
    - get_recall (true_positives bit_string t) (false_negatives bit_string t)|

/-! ## Double-precision arithmetic

The definitions above compute with exact rational numbers. The definitions
of this section and the next round every floating-point operation of the
source to a `double` (IEEE 754 binary64, round to nearest, ties to even).
Scores and the prior threshold are finite doubles; a product that overflows
is an infinity. -/

/-- The integer nearest to `x`; of two nearest integers, the even one. -/
def round_half_even (x : ℚ) : ℤ :=
  if Int.fract x < 1 / 2 then ⌊x⌋
  else if 1 / 2 < Int.fract x then ⌊x⌋ + 1
  else if ⌊x⌋ % 2 = 0 then ⌊x⌋ else ⌊x⌋ + 1

/-- The exponent `e` of the binade `2 ^ e <= |x| < 2 ^ (e + 1)` of `x`, or
-1022, the exponent of the subnormal doubles, when that is greater. -/
def double_exponent (x : ℚ) : ℤ := max (Int.log 2 |x|) (-1022)

/-- The number `x` rounded to 53 significant bits (to the nearest multiple of
`2 ^ (double_exponent x - 52)`, ties to even), the exponent not bounded
above. -/
def round_double (x : ℚ) : ℚ :=
  (round_half_even (x / 2 ^ (double_exponent x - 52)) : ℚ) * 2 ^ (double_exponent x - 52)

/-- The largest finite `double`, `(2 ^ 53 - 1) * 2 ^ 971`. -/
def DBL_MAX : ℚ := (2 ^ 53 - 1) * 2 ^ 971

/-- The finite numbers that are values of the type `double`. -/
def is_double (x : ℚ) : Prop := round_double x = x ∧ |x| ≤ DBL_MAX

/-- A result of floating-point arithmetic: a finite number or an infinity. -/
inductive double_value where
  | finite (x : ℚ)
  | pos_inf
  | neg_inf
deriving DecidableEq, Repr

/-- The `double` that an arithmetic operation with the exact result `x`
returns. -/
def double_of_real (x : ℚ) : double_value :=
  if DBL_MAX < round_double x then .pos_inf
  else if round_double x < -DBL_MAX then .neg_inf
  else .finite (round_double x)

/-- Modelled from the spec: `get_precision` of utility_doc_cat_list.hpp, which
is not part of the sources at hand, returning a `double`: the quotient
`a / (a + b)` of the spec rounded once, and `1` if `a + b == 0`. -/
def get_precision_double (a b : Nat) : ℚ := round_double (get_precision a b)

/-- Modelled from the spec: `get_recall` of utility_doc_cat_list.hpp, which
is not part of the sources at hand, returning a `double`: the quotient
`a / (a + c)` of the spec rounded once, and `1` if `a + c == 0`. -/
def get_recall_double (a c : Nat) : ℚ := round_double (get_recall a c)

/-! ## The walk of `do_threshold_estimation` in double precision -/

/-- The body of the `for` loop, at the bucket `bit`, with `prev_diff` and
`curr_diff` computed in double precision. -/
def loop_body_double (cat_doc_count : Nat) (s : walk_state)
    (bit : ℚ × class_d_list_entry) : loop_outcome :=
  let next_c := uint_sub s.c bit.2.first
  let next_b := uint_add s.b bit.2.second
  if next_b > next_c then
    let prev_diff := round_double (get_precision_double (uint_sub cat_doc_count s.c) s.b
      - get_recall_double (uint_sub cat_doc_count s.c) s.c)
    let curr_diff := round_double (get_recall_double (uint_sub cat_doc_count next_c) next_c
      - get_precision_double (uint_sub cat_doc_count next_c) next_b)
    if prev_diff > curr_diff then
      .leave { threshold := bit.1, b := next_b, c := next_c, stop := .crossover_curr }
    else
      match s.prev_bit with
      | none => .undefined
      | some p => .leave { threshold := p.1, b := s.b, c := s.c, stop := .crossover_prev }
  else if next_b = next_c then
    .leave { threshold := bit.1, b := next_b, c := next_c, stop := .equality }
  else
    .next { b := uint_add s.b bit.2.second, c := uint_sub s.c bit.2.first,
            prev_bit := some bit, threshold := s.threshold }

/-- The value of the local `prev_diff` at the state `s`, as a `double`. -/
def prev_diff_double (cat_doc_count : Nat) (s : walk_state) : ℚ :=
  round_double (get_precision_double (uint_sub cat_doc_count s.c) s.b
    - get_recall_double (uint_sub cat_doc_count s.c) s.c)

/-- The value of the local `curr_diff` at the state `s` and the bucket `bit`,
as a `double`. -/
def curr_diff_double (cat_doc_count : Nat) (s : walk_state)
    (bit : ℚ × class_d_list_entry) : ℚ :=
  round_double (get_recall_double (uint_sub cat_doc_count (uint_sub s.c bit.2.first))
      (uint_sub s.c bit.2.first)
    - get_precision_double (uint_sub cat_doc_count (uint_sub s.c bit.2.first))
      (uint_add s.b bit.2.second))

/-- The `for` loop over the buckets still to visit, in double precision. -/
def walk_double (cat_doc_count : Nat) :
    List (ℚ × class_d_list_entry) → walk_state → Option walk_result
  | [], s => some { threshold := s.threshold, b := s.b, c := s.c, stop := .exhausted }
  | bit :: rest, s =>
    match loop_body_double cat_doc_count s bit with
    | .next s1 => walk_double cat_doc_count rest s1
    | .leave r => some r
    | .undefined => none

/-- The interpolated BEP computed after the loop, in double precision. -/
def interpolated_BEP_double (cat_doc_count : Nat) (r : walk_result) : ℚ :=
  round_double (0.5 * round_double
    (get_precision_double (uint_sub cat_doc_count r.c) r.b
      + get_recall_double (uint_sub cat_doc_count r.c) r.c))

/-- The function `do_threshold_estimation` in double precision: the value of
`threshold` when it returns, and the value it returns; `none` when it
dereferences `rend()`. -/
def do_threshold_estimation_double (cat_doc_count : Nat) (bit_string : class_d_list)
    (threshold : ℚ) : Option (double_value × ℚ) :=
  match bit_string.reverse with
  | [] => some (.finite 0, 1)
  | rbegin :: rest =>
    if cat_doc_count = 0 then
      some (double_of_real (1.5 * rbegin.1), 1)
    else
      match walk_double cat_doc_count (rbegin :: rest)
          (initial_state cat_doc_count threshold) with
      | none => none
      | some r => some (.finite r.threshold, interpolated_BEP_double cat_doc_count r)

/-- The function `estimate_Th` in double precision: the threshold written
into the classifier record, and the value returned. -/
def estimate_Th_double {V : Type} (dot_product_sparse_vector : V → V → ℚ)
    (unique_docs : List (V × Option (List String)))
    (unique_docs_in_target_cat : List V) (target_cat_name : String)
    (target_cat_classifier : class_classifier V) : Option (double_value × ℚ) :=
  if unique_docs_in_target_cat.isEmpty then
    let max_dot_product := unique_docs.foldl
      (fun m doc =>
        let result := dot_product_sparse_vector doc.1 target_cat_classifier.second
        if result > m then result else m) 0
    some (double_of_real (1.5 * max_dot_product), 1)
  else
    let bits := construct_bits dot_product_sparse_vector
      target_cat_classifier.second target_cat_name unique_docs
    do_threshold_estimation_double bits.2 bits.1 target_cat_classifier.threshold

/-! ## Arithmetic of the machine integers -/

theorem uint_sub_of_le {x y : Nat} (hy : y ≤ x) (hx : x < UINT_RANGE) :
    uint_sub x y = x - y := by
  unfold uint_sub
  have hy2 : y % UINT_RANGE = y := Nat.mod_eq_of_lt (lt_of_le_of_lt hy hx)
  rw [hy2]
  have h1 : x + UINT_RANGE - y = (x - y) + UINT_RANGE := by omega
  rw [h1, Nat.add_mod_right]
  exact Nat.mod_eq_of_lt (by omega)

theorem uint_add_lt (x y : Nat) : uint_add x y < UINT_RANGE := by
  unfold uint_add
  exact Nat.mod_lt _ (by unfold UINT_RANGE; norm_num)

theorem uint_add_of_lt {x y : Nat} (h : x + y < UINT_RANGE) : uint_add x y = x + y := by
  unfold uint_add
  exact Nat.mod_eq_of_lt h

/-! ## Precision and recall lie between 0 and 1 -/

theorem get_precision_nonneg (a b : Nat) : 0 ≤ get_precision a b := by
  unfold get_precision
  split
  · norm_num
  · positivity

theorem get_precision_le_one (a b : Nat) : get_precision a b ≤ 1 := by
  unfold get_precision
  split
  · norm_num
  · rename_i h
    have hpos : (0 : ℚ) < (a : ℚ) + (b : ℚ) := by
      have : 0 < a + b := Nat.pos_of_ne_zero h
      exact_mod_cast this
    rw [div_le_one hpos]
    have : (0 : ℚ) ≤ (b : ℚ) := by positivity
    linarith

theorem get_recall_eq_precision (a c : Nat) : get_recall a c = get_precision a c := rfl

theorem get_recall_nonneg (a c : Nat) : 0 ≤ get_recall a c :=
  get_precision_nonneg a c

theorem get_recall_le_one (a c : Nat) : get_recall a c ≤ 1 :=
  get_precision_le_one a c

theorem interpolated_BEP_bounds (cat_doc_count : Nat) (r : walk_result) :
    0 ≤ interpolated_BEP cat_doc_count r ∧ interpolated_BEP cat_doc_count r ≤ 1 := by
  unfold interpolated_BEP
  have h1 := get_precision_nonneg (uint_sub cat_doc_count r.c) r.b
  have h2 := get_precision_le_one (uint_sub cat_doc_count r.c) r.b
  have h3 := get_recall_nonneg (uint_sub cat_doc_count r.c) r.c
  have h4 := get_recall_le_one (uint_sub cat_doc_count r.c) r.c
  constructor
  · norm_num; linarith
  · norm_num; linarith

/-- With fewer false positives the precision is not lower. -/
theorem get_precision_antitone (a : Nat) {b c : Nat} (h : b ≤ c) (hc : 0 < a + c) :
    get_precision a c ≤ get_precision a b := by
  unfold get_precision
  rw [if_neg (by omega)]
  split
  · rename_i h0
    have hpos : (0 : ℚ) < (a : ℚ) + (c : ℚ) := by exact_mod_cast hc
    rw [div_le_one hpos]
    have : (0 : ℚ) ≤ (c : ℚ) := by positivity
    linarith
  · rename_i h0
    have hpos : (0 : ℚ) < (a : ℚ) + (b : ℚ) := by
      have : 0 < a + b := Nat.pos_of_ne_zero h0
      exact_mod_cast this
    have hbc : (b : ℚ) ≤ (c : ℚ) := by exact_mod_cast h
    apply div_le_div_of_nonneg_left (by positivity) hpos
    linarith

/-! ## Sums of counters -/

@[simp] theorem sum_first_nil : sum_first [] = 0 := rfl

@[simp] theorem sum_second_nil : sum_second [] = 0 := rfl

@[simp] theorem sum_first_cons (x : ℚ × class_d_list_entry) (d : class_d_list) :
    sum_first (x :: d) = x.2.first + sum_first d := by
  simp [sum_first]

@[simp] theorem sum_second_cons (x : ℚ × class_d_list_entry) (d : class_d_list) :
    sum_second (x :: d) = x.2.second + sum_second d := by
  simp [sum_second]

@[simp] theorem sum_first_append (d e : class_d_list) :
    sum_first (d ++ e) = sum_first d + sum_first e := by
  simp [sum_first]

@[simp] theorem sum_second_append (d e : class_d_list) :
    sum_second (d ++ e) = sum_second d + sum_second e := by
  simp [sum_second]

@[simp] theorem sum_first_reverse (d : class_d_list) :
    sum_first d.reverse = sum_first d := by
  simp [sum_first, List.sum_reverse]

@[simp] theorem sum_second_reverse (d : class_d_list) :
    sum_second d.reverse = sum_second d := by
  simp [sum_second, List.sum_reverse]

/-! ## The loop body, case by case -/

theorem loop_body_next {cat_doc_count : Nat} {s s1 : walk_state}
    {bit : ℚ × class_d_list_entry} (h : loop_body cat_doc_count s bit = .next s1) :
    uint_add s.b bit.2.second < uint_sub s.c bit.2.first ∧
    s1 = { b := uint_add s.b bit.2.second, c := uint_sub s.c bit.2.first,
           prev_bit := some bit, threshold := s.threshold } := by
  unfold loop_body at h
  simp only at h
  split_ifs at h with h1 h2 h3
  · cases hp : s.prev_bit <;> simp [hp] at h
  · simp at h
    exact ⟨by omega, h.symm⟩

theorem loop_body_of_lt {cat_doc_count : Nat} {s : walk_state}
    {bit : ℚ × class_d_list_entry}
    (h : uint_add s.b bit.2.second < uint_sub s.c bit.2.first) :
    loop_body cat_doc_count s bit =
      .next { b := uint_add s.b bit.2.second, c := uint_sub s.c bit.2.first,
              prev_bit := some bit, threshold := s.threshold } := by
  unfold loop_body
  simp only
  rw [if_neg (by omega), if_neg (by omega)]

theorem loop_body_of_eq {cat_doc_count : Nat} {s : walk_state}
    {bit : ℚ × class_d_list_entry}
    (h : uint_add s.b bit.2.second = uint_sub s.c bit.2.first) :
    loop_body cat_doc_count s bit =
      .leave { threshold := bit.1, b := uint_add s.b bit.2.second,
               c := uint_sub s.c bit.2.first, stop := .equality } := by
  unfold loop_body
  simp only
  rw [if_neg (by omega), if_pos h]

/-! ## Cutting the walk at a bucket -/

theorem state_after_append (cat_doc_count : Nat) (p q : List (ℚ × class_d_list_entry))
    (s : walk_state) :
    state_after cat_doc_count (p ++ q) s =
      (state_after cat_doc_count p s).bind (state_after cat_doc_count q) := by
  induction p generalizing s with
  | nil => simp [state_after]
  | cons x p ih =>
    simp only [List.cons_append, state_after]
    cases hx : loop_body cat_doc_count s x with
    | next s1 => simp [ih]
    | leave r => simp
    | undefined => simp

theorem walk_append {cat_doc_count : Nat} {p : List (ℚ × class_d_list_entry)}
    {s s1 : walk_state} (h : state_after cat_doc_count p s = some s1)
    (q : List (ℚ × class_d_list_entry)) :
    walk cat_doc_count (p ++ q) s = walk cat_doc_count q s1 := by
  induction p generalizing s with
  | nil =>
    simp [state_after] at h
    simp [h]
  | cons x p ih =>
    simp only [state_after] at h
    simp only [List.cons_append, walk]
    cases hx : loop_body cat_doc_count s x with
    | next s2 =>
      rw [hx] at h
      simpa using ih h
    | leave r => rw [hx] at h; simp at h
    | undefined => rw [hx] at h; simp at h

/-- The walk either visits every bucket or leaves the loop at one of them. -/
theorem walk_cut (cat_doc_count : Nat) (ds : List (ℚ × class_d_list_entry))
    (s : walk_state) :
    (∃ s1, state_after cat_doc_count ds s = some s1) ∨
    (∃ pre bit post s1, ds = pre ++ bit :: post ∧
      state_after cat_doc_count pre s = some s1 ∧
      ∀ s2, loop_body cat_doc_count s1 bit ≠ .next s2) := by
  induction ds generalizing s with
  | nil => left; exact ⟨s, rfl⟩
  | cons x ds ih =>
    cases hx : loop_body cat_doc_count s x with
    | next s2 =>
      rcases ih s2 with ⟨s1, h1⟩ | ⟨pre, bit, post, s1, h1, h2, h3⟩
      · left
        exact ⟨s1, by simp [state_after, hx, h1]⟩
      · right
        refine ⟨x :: pre, bit, post, s1, by simp [h1], by simp [state_after, hx, h2], h3⟩
    | leave r =>
      right
      refine ⟨[], x, ds, s, by simp, by simp [state_after], ?_⟩
      intro s2 h; rw [hx] at h; cases h
    | undefined =>
      right
      refine ⟨[], x, ds, s, by simp, by simp [state_after], ?_⟩
      intro s2 h; rw [hx] at h; cases h

theorem loop_body_leave {cat_doc_count : Nat} {s : walk_state}
    {bit : ℚ × class_d_list_entry} {r : walk_result}
    (h : loop_body cat_doc_count s bit = .leave r) :
    (uint_add s.b bit.2.second = uint_sub s.c bit.2.first ∧
      r = { threshold := bit.1, b := uint_add s.b bit.2.second,
            c := uint_sub s.c bit.2.first, stop := .equality }) ∨
    (uint_sub s.c bit.2.first < uint_add s.b bit.2.second ∧
      curr_diff cat_doc_count s bit < prev_diff cat_doc_count s ∧
      r = { threshold := bit.1, b := uint_add s.b bit.2.second,
            c := uint_sub s.c bit.2.first, stop := .crossover_curr }) ∨
    (uint_sub s.c bit.2.first < uint_add s.b bit.2.second ∧
      ¬ curr_diff cat_doc_count s bit < prev_diff cat_doc_count s ∧
      ∃ p, s.prev_bit = some p ∧
        r = { threshold := p.1, b := s.b, c := s.c, stop := .crossover_prev }) := by
  unfold loop_body at h
  simp only at h
  split_ifs at h with h1 h2 h3
  · right; left
    simp at h
    exact ⟨h1, h2, h.symm⟩
  · right; right
    refine ⟨h1, h2, ?_⟩
    cases hp : s.prev_bit with
    | none => simp [hp] at h
    | some p =>
      simp [hp] at h
      exact ⟨p, rfl, h.symm⟩
  · left
    simp at h
    exact ⟨h3, h.symm⟩

theorem loop_body_undefined {cat_doc_count : Nat} {s : walk_state}
    {bit : ℚ × class_d_list_entry}
    (h : loop_body cat_doc_count s bit = .undefined) :
    s.prev_bit = none ∧ uint_sub s.c bit.2.first < uint_add s.b bit.2.second ∧
      ¬ curr_diff cat_doc_count s bit < prev_diff cat_doc_count s := by
  unfold loop_body at h
  simp only at h
  split_ifs at h with h1 h2 h3
  refine ⟨?_, h1, h2⟩
  cases hp : s.prev_bit with
  | none => rfl
  | some p => simp [hp] at h

theorem loop_body_crossover {cat_doc_count : Nat} {s : walk_state}
    {bit p : ℚ × class_d_list_entry}
    (h : uint_sub s.c bit.2.first < uint_add s.b bit.2.second)
    (hp : s.prev_bit = some p) :
    loop_body cat_doc_count s bit =
      if curr_diff cat_doc_count s bit < prev_diff cat_doc_count s then
        .leave { threshold := bit.1, b := uint_add s.b bit.2.second,
                 c := uint_sub s.c bit.2.first, stop := .crossover_curr }
      else .leave { threshold := p.1, b := s.b, c := s.c, stop := .crossover_prev } := by
  unfold loop_body
  simp only
  rw [if_pos h]
  unfold curr_diff prev_diff
  split_ifs with h2
  · rfl
  · simp [hp]

theorem loop_body_crossover_curr {cat_doc_count : Nat} {s : walk_state}
    {bit : ℚ × class_d_list_entry}
    (h : uint_sub s.c bit.2.first < uint_add s.b bit.2.second)
    (hd : curr_diff cat_doc_count s bit < prev_diff cat_doc_count s) :
    loop_body cat_doc_count s bit =
      .leave { threshold := bit.1, b := uint_add s.b bit.2.second,
               c := uint_sub s.c bit.2.first, stop := .crossover_curr } := by
  unfold loop_body
  simp only
  rw [if_pos h]
  unfold curr_diff prev_diff at hd
  rw [if_pos hd]

/-- The state reached after the last bucket of a list was committed by it. -/
theorem state_after_concat {cat_doc_count : Nat} {p : List (ℚ × class_d_list_entry)}
    {x : ℚ × class_d_list_entry} {s0 s : walk_state}
    (h : state_after cat_doc_count (p ++ [x]) s0 = some s) :
    ∃ s1, state_after cat_doc_count p s0 = some s1 ∧
      loop_body cat_doc_count s1 x = .next s := by
  rw [state_after_append] at h
  cases hp : state_after cat_doc_count p s0 with
  | none => simp [hp] at h
  | some s1 =>
    refine ⟨s1, rfl, ?_⟩
    simp only [hp, Option.some_bind, state_after] at h
    cases hx : loop_body cat_doc_count s1 x with
    | next s2 => rw [hx] at h; simp at h; rw [h]
    | leave r => rw [hx] at h; simp at h
    | undefined => rw [hx] at h; simp at h

/-- The counters after the buckets `pre` were committed, from a state whose
`c` covers the documents in the category that `pre` holds. -/
theorem state_after_counters {cat_doc_count : Nat} :
    ∀ (pre : List (ℚ × class_d_list_entry)) (s0 s : walk_state),
      state_after cat_doc_count pre s0 = some s →
      sum_first pre ≤ s0.c → s0.c < UINT_RANGE → s0.b < UINT_RANGE →
      s.c = s0.c - sum_first pre ∧ s.b = (s0.b + sum_second pre) % UINT_RANGE ∧
        s.threshold = s0.threshold := by
  intro pre
  induction pre with
  | nil =>
    intro s0 s h _ _ hb
    simp [state_after] at h
    subst h
    simp [Nat.mod_eq_of_lt hb]
  | cons x pre ih =>
    intro s0 s h hc hr hb
    simp only [state_after] at h
    cases hx : loop_body cat_doc_count s0 x with
    | next s1 =>
      rw [hx] at h
      simp only at h
      obtain ⟨_, hs1⟩ := loop_body_next hx
      simp only [sum_first_cons] at hc
      have hc1 : s1.c = s0.c - x.2.first := by
        rw [hs1]; exact uint_sub_of_le (by omega) hr
      have hb1 : s1.b = (s0.b + x.2.second) % UINT_RANGE := by rw [hs1]; rfl
      have ht1 : s1.threshold = s0.threshold := by rw [hs1]
      have := ih s1 s h (by omega) (by omega) (by rw [hb1]; exact uint_add_lt _ _)
      obtain ⟨h1, h2, h3⟩ := this
      refine ⟨?_, ?_, ?_⟩
      · rw [h1, hc1, sum_first_cons]; omega
      · rw [h2, hb1, sum_second_cons, Nat.mod_add_mod, Nat.add_assoc]
      · rw [h3, ht1]
    | leave r => rw [hx] at h; simp at h
    | undefined => rw [hx] at h; simp at h

/-- After at least one committed bucket, `prev_bit` is the last of them and
`b < c`. -/
theorem state_after_prev {cat_doc_count : Nat} {pre : List (ℚ × class_d_list_entry)}
    {s0 s : walk_state} (h : state_after cat_doc_count pre s0 = some s)
    (hne : pre ≠ []) :
    s.prev_bit = pre.getLast? ∧ s.b < s.c := by
  rcases List.eq_nil_or_concat pre with h0 | ⟨p, x, hpx⟩
  · exact absurd h0 hne
  · subst hpx
    rw [List.concat_eq_append] at h
    obtain ⟨s1, _, h2⟩ := state_after_concat h
    obtain ⟨hlt, hs⟩ := loop_body_next h2
    rw [List.concat_eq_append]
    subst hs
    simp [hlt]

/-! ## The walk under the count invariant -/

theorem prev_diff_initial {cat_doc_count : Nat} (threshold : ℚ)
    (hpos : 0 < cat_doc_count) (hr : cat_doc_count < UINT_RANGE) :
    prev_diff cat_doc_count (initial_state cat_doc_count threshold) = 1 := by
  unfold prev_diff initial_state
  simp only
  rw [uint_sub_of_le (le_refl _) hr]
  unfold get_precision get_recall
  simp
  omega

theorem curr_diff_initial_lt_one {cat_doc_count : Nat} (threshold : ℚ)
    (bit : ℚ × class_d_list_entry)
    (hpos : 0 < cat_doc_count) (hr : cat_doc_count < UINT_RANGE)
    (hb : bit.2.first ≤ cat_doc_count) :
    curr_diff cat_doc_count (initial_state cat_doc_count threshold) bit < 1 := by
  unfold curr_diff initial_state
  simp only
  rw [uint_sub_of_le hb hr, uint_sub_of_le (Nat.sub_le _ _) hr]
  have ha : cat_doc_count - (cat_doc_count - bit.2.first) = bit.2.first := by omega
  rw [ha]
  have h1 := get_recall_le_one bit.2.first (cat_doc_count - bit.2.first)
  have h2 := get_precision_nonneg bit.2.first (uint_add 0 bit.2.second)
  rcases Nat.eq_zero_or_pos bit.2.first with h0 | h0
  · have : get_recall bit.2.first (cat_doc_count - bit.2.first) = 0 := by
      unfold get_recall
      rw [h0, if_neg (by omega)]
      simp
    rw [this]
    linarith
  · have : 0 < get_precision bit.2.first (uint_add 0 bit.2.second) := by
      unfold get_precision
      rw [if_neg (by omega)]
      have : (0 : ℚ) < (bit.2.first : ℚ) := by exact_mod_cast h0
      positivity
    linarith

/-- Under the count invariant the loop is left at some bucket `bit`, by a
`break`, in a state whose counters are those of the buckets before `bit`. -/
theorem walk_leaves {cat_doc_count : Nat} {ds : List (ℚ × class_d_list_entry)}
    (threshold : ℚ) (hpos : 0 < cat_doc_count) (hr : cat_doc_count < UINT_RANGE)
    (hsum : sum_first ds = cat_doc_count) :
    ∃ pre bit post s r, ds = pre ++ bit :: post ∧
      state_after cat_doc_count pre (initial_state cat_doc_count threshold) = some s ∧
      s.c = cat_doc_count - sum_first pre ∧
      s.b = sum_second pre % UINT_RANGE ∧
      loop_body cat_doc_count s bit = .leave r ∧
      walk cat_doc_count ds (initial_state cat_doc_count threshold) = some r := by
  have hcount : ∀ (pre : List (ℚ × class_d_list_entry)) (s : walk_state),
      sum_first pre ≤ cat_doc_count →
      state_after cat_doc_count pre (initial_state cat_doc_count threshold) = some s →
      s.c = cat_doc_count - sum_first pre ∧ s.b = sum_second pre % UINT_RANGE := by
    intro pre s hle hs
    have := state_after_counters pre _ s hs (by simpa [initial_state] using hle)
      (by simpa [initial_state] using hr)
      (by simp [initial_state, UINT_RANGE])
    simpa [initial_state] using And.intro this.1 this.2.1
  rcases walk_cut cat_doc_count ds (initial_state cat_doc_count threshold) with
    ⟨s1, h1⟩ | ⟨pre, bit, post, s1, hds, hs1, hnot⟩
  · -- the loop cannot visit every bucket: the last one ends with `next_c = 0`
    exfalso
    rcases List.eq_nil_or_concat ds with h0 | ⟨p, x, hpx⟩
    · subst h0
      simp at hsum
      omega
    · rw [List.concat_eq_append] at hpx
      subst hpx
      obtain ⟨s2, hs2, hx⟩ := state_after_concat h1
      simp only [sum_first_append, sum_first_cons, sum_first_nil] at hsum
      obtain ⟨hc2, _⟩ := hcount p s2 (by omega) hs2
      obtain ⟨hlt, _⟩ := loop_body_next hx
      rw [uint_sub_of_le (by omega) (by omega)] at hlt
      omega
  · subst hds
    simp only [sum_first_append, sum_first_cons] at hsum
    obtain ⟨hc1, hb1⟩ := hcount pre s1 (by omega) hs1
    cases hx : loop_body cat_doc_count s1 bit with
    | next s2 => exact absurd hx (hnot s2)
    | leave r =>
      refine ⟨pre, bit, post, s1, r, rfl, hs1, hc1, hb1, hx, ?_⟩
      rw [walk_append hs1]
      simp [walk, hx]
    | undefined =>
      exfalso
      obtain ⟨hnone, _, hdiff⟩ := loop_body_undefined hx
      have hpre : pre = [] := by
        by_contra hne
        have := (state_after_prev hs1 hne).1
        rw [hnone] at this
        cases hl : pre.getLast? with
        | none => exact hne (List.getLast?_eq_none_iff.mp hl)
        | some y => rw [hl] at this; cases this
      subst hpre
      simp [state_after] at hs1
      subst hs1
      apply hdiff
      rw [prev_diff_initial threshold hpos hr]
      exact curr_diff_initial_lt_one threshold bit hpos hr (by simp at hsum; omega)

/-! ## `do_threshold_estimation` in its three cases -/

theorem do_threshold_estimation_nil (cat_doc_count : Nat) (threshold : ℚ) :
    do_threshold_estimation cat_doc_count [] threshold = some (0, 1) := by
  simp [do_threshold_estimation]

theorem do_threshold_estimation_walk {cat_doc_count : Nat} {bit_string : class_d_list}
    (threshold : ℚ) (hpos : 0 < cat_doc_count) (hne : bit_string ≠ []) :
    do_threshold_estimation cat_doc_count bit_string threshold =
      (walk cat_doc_count bit_string.reverse
        (initial_state cat_doc_count threshold)).map
        (fun r => (r.threshold, interpolated_BEP cat_doc_count r)) := by
  unfold do_threshold_estimation
  cases hrev : bit_string.reverse with
  | nil => exact absurd (List.reverse_eq_nil_iff.mp hrev) hne
  | cons x rest =>
    simp only
    rw [if_neg (by omega)]
    cases walk cat_doc_count (x :: rest) (initial_state cat_doc_count threshold) <;> rfl

/-- Under the count invariant `do_threshold_estimation` returns, with the
result of a walk that left the loop by a `break`. -/
theorem do_threshold_estimation_leaves {cat_doc_count : Nat} {bit_string : class_d_list}
    (threshold : ℚ) (hpos : 0 < cat_doc_count) (hr : cat_doc_count < UINT_RANGE)
    (hsum : sum_first bit_string = cat_doc_count) :
    ∃ pre bit post s r, bit_string.reverse = pre ++ bit :: post ∧
      state_after cat_doc_count pre (initial_state cat_doc_count threshold) = some s ∧
      s.c = cat_doc_count - sum_first pre ∧
      s.b = sum_second pre % UINT_RANGE ∧
      loop_body cat_doc_count s bit = .leave r ∧
      walk cat_doc_count bit_string.reverse (initial_state cat_doc_count threshold) = some r ∧
      do_threshold_estimation cat_doc_count bit_string threshold =
        some (r.threshold, interpolated_BEP cat_doc_count r) := by
  have hne : bit_string ≠ [] := by
    rintro rfl
    simp at hsum
    omega
  obtain ⟨pre, bit, post, s, r, h1, h2, h3, h4, h5, h6⟩ :=
    @walk_leaves cat_doc_count bit_string.reverse threshold hpos hr (by simpa using hsum)
  refine ⟨pre, bit, post, s, r, h1, h2, h3, h4, h5, h6, ?_⟩
  rw [do_threshold_estimation_walk threshold hpos hne, h6]
  rfl

/-- The threshold of a result of the loop body is the score of the bucket or
of the previous bucket. -/
theorem leave_threshold_mem {cat_doc_count : Nat} {pre : List (ℚ × class_d_list_entry)}
    (post : List (ℚ × class_d_list_entry))
    {bit : ℚ × class_d_list_entry} {s0 s : walk_state} {r : walk_result}
    (hs : state_after cat_doc_count pre s0 = some s) (hnone : s0.prev_bit = none)
    (hx : loop_body cat_doc_count s bit = .leave r) :
    (r.stop = .equality ∨ r.stop = .crossover_curr ∨ r.stop = .crossover_prev) ∧
    ∃ x ∈ pre ++ bit :: post, r.threshold = x.1 := by
  rcases loop_body_leave hx with ⟨_, hr⟩ | ⟨_, _, hr⟩ | ⟨_, _, p, hp, hr⟩
  · subst hr
    exact ⟨Or.inl rfl, bit, by simp, rfl⟩
  · subst hr
    exact ⟨Or.inr (Or.inl rfl), bit, by simp, rfl⟩
  · subst hr
    refine ⟨Or.inr (Or.inr rfl), p, ?_, rfl⟩
    have hne : pre ≠ [] := by
      rintro rfl
      simp [state_after] at hs
      subst hs
      rw [hnone] at hp
      cases hp
    have h1 := (state_after_prev hs hne).1
    rw [hp] at h1
    have : p ∈ pre := List.mem_of_getLast?_eq_some h1.symm
    simp [this]


theorem one_lt_UINT_RANGE : 1 < UINT_RANGE := by unfold UINT_RANGE; norm_num

theorem uint_incr_of_lt {x : Nat} (h : x + 1 < UINT_RANGE) : uint_incr x = x + 1 := by
  unfold uint_incr
  exact Nat.mod_eq_of_lt h

theorem get_precision_pos_zero {a : Nat} (ha : 0 < a) : get_precision a 0 = 1 := by
  unfold get_precision
  rw [if_neg (by omega)]
  have : (a : ℚ) ≠ 0 := by exact_mod_cast (Nat.pos_iff_ne_zero.mp ha)
  simp [this]

/-! ## The claims -/

/-- C4: on an empty bucket list `do_threshold_estimation` sets the threshold
to 0 and returns 1, for every `cat_doc_count` and every prior threshold; and
`estimate_Th` on an empty document collection writes the threshold 0 into the
classifier record and returns 1. -/
theorem C4_empty_input (cat_doc_count : Nat) (threshold : ℚ) (V : Type)
    (dot_product_sparse_vector : V → V → ℚ) (unique_docs_in_target_cat : List V)
    (target_cat_name : String) (target_cat_classifier : class_classifier V) :
    do_threshold_estimation cat_doc_count [] threshold = some (0, 1) ∧
    estimate_Th dot_product_sparse_vector [] unique_docs_in_target_cat
      target_cat_name target_cat_classifier =
      some ({ target_cat_classifier with threshold := 0 }, 1) := by
  refine ⟨do_threshold_estimation_nil _ _, ?_⟩
  unfold estimate_Th
  split_ifs with h
  · simp
  · simp [construct_bits, do_threshold_estimation_nil]

/-- C6: a single document with score `s` that belongs to the target category
(one bucket `(s, 1, 0)`, `cat_doc_count = 1`) gets the threshold `s` and the
BEP 1, from `do_threshold_estimation` and from `estimate_Th`. -/
theorem C6_single_document (s threshold : ℚ) (V : Type)
    (dot_product_sparse_vector : V → V → ℚ) (w : V) (cats : List String)
    (unique_docs_in_target_cat : List V) (target_cat_name : String)
    (target_cat_classifier : class_classifier V)
    (hin : target_cat_name ∈ cats) (hne : unique_docs_in_target_cat ≠ [])
    (hs : dot_product_sparse_vector w target_cat_classifier.second = s) :
    do_threshold_estimation 1 [(s, ⟨1, 0⟩)] threshold = some (s, 1) ∧
    construct_bits dot_product_sparse_vector target_cat_classifier.second
      target_cat_name [(w, some cats)] = ([(s, ⟨1, 0⟩)], 1) ∧
    estimate_Th dot_product_sparse_vector [(w, some cats)] unique_docs_in_target_cat
      target_cat_name target_cat_classifier =
      some ({ target_cat_classifier with threshold := s }, 1) := by
  have hrange := one_lt_UINT_RANGE
  have h1 : ∀ t : ℚ, do_threshold_estimation 1 [(s, ⟨1, 0⟩)] t = some (s, 1) := by
    intro t
    have hs1 : uint_sub 1 1 = 0 := uint_sub_of_le (le_refl 1) hrange
    have hs0 : uint_sub 1 0 = 1 := uint_sub_of_le (by omega) hrange
    have ha0 : uint_add 0 0 = 0 := uint_add_of_lt (by omega)
    have hb : loop_body 1 (initial_state 1 t) (s, ⟨1, 0⟩) =
        .leave { threshold := s, b := 0, c := 0, stop := .equality } := by
      rw [loop_body_of_eq]
      · simp only [initial_state, hs1, ha0]
      · simp only [initial_state, hs1, ha0]
    have hw : walk 1 [(s, ⟨1, 0⟩)] (initial_state 1 t) =
        some { threshold := s, b := 0, c := 0, stop := .equality } := by
      rw [walk, hb]
    rw [do_threshold_estimation_walk t (by omega) (by simp), List.reverse_singleton, hw]
    simp only [Option.map_some', interpolated_BEP, hs0, get_recall_eq_precision,
      get_precision_pos_zero Nat.one_pos]
    norm_num
  have h2 : construct_bits dot_product_sparse_vector target_cat_classifier.second
      target_cat_name [(w, some cats)] = ([(s, ⟨1, 0⟩)], 1) := by
    have hi : uint_incr 0 = 1 := uint_incr_of_lt hrange
    simp only [construct_bits, List.foldl, construct_bits_step, bit_belongs_to_target_cat,
      hin, decide_True, if_true, d_list_update, hi, hs]
  refine ⟨h1 threshold, h2, ?_⟩
  unfold estimate_Th
  rw [if_neg (by simpa using hne)]
  simp only [h2, h1]

theorem C6_single_document_witness :
    do_threshold_estimation 1 [((73 : ℚ) / 10, ⟨1, 0⟩)] 0 = some ((73 : ℚ) / 10, 1) ∧
    construct_bits (fun x y : ℚ => x * y) 1 "X" [((73 : ℚ) / 10, some ["X"])]
      = ([((73 : ℚ) / 10, ⟨1, 0⟩)], 1) ∧
    estimate_Th (fun x y : ℚ => x * y) [((73 : ℚ) / 10, some ["X"])] [(73 : ℚ) / 10]
      "X" ⟨0, 1⟩ = some ({ (⟨0, 1⟩ : class_classifier ℚ) with threshold := (73 : ℚ) / 10 }, 1) :=
  C6_single_document ((73 : ℚ) / 10) 0 ℚ (fun x y : ℚ => x * y) ((73 : ℚ) / 10) ["X"]
    [(73 : ℚ) / 10] "X" ⟨0, 1⟩ (by simp) (by simp) (by simp)

/-- C7: for a non-empty bucket list and `cat_doc_count > 0` equal to the sum
of the `first` counters, the walk does not run out of buckets: the loop is
left by the equality branch or the crossover branch, and the threshold that
is assigned is the score of a bucket of the list. -/
theorem C7_walk_leaves_by_break (cat_doc_count : Nat) (bit_string : class_d_list)
    (threshold : ℚ) (hpos : 0 < cat_doc_count)
    (hr : cat_doc_count < UINT_RANGE) (hsum : sum_first bit_string = cat_doc_count) :
    bit_string ≠ [] ∧ ∃ r, walk cat_doc_count bit_string.reverse
        (initial_state cat_doc_count threshold) = some r ∧
      (r.stop = .equality ∨ r.stop = .crossover_curr ∨ r.stop = .crossover_prev) ∧
      (∃ x ∈ bit_string, r.threshold = x.1) ∧
      do_threshold_estimation cat_doc_count bit_string threshold =
        some (r.threshold, interpolated_BEP cat_doc_count r) := by
  obtain ⟨pre, bit, post, s, r, h1, h2, _, _, h5, h6, h7⟩ :=
    do_threshold_estimation_leaves threshold hpos hr hsum
  have hm := leave_threshold_mem post h2 (by simp [initial_state]) h5
  have hne : bit_string ≠ [] := by
    rintro rfl
    simp at h1
  refine ⟨hne, r, h6, hm.1, ?_, h7⟩
  obtain ⟨x, hx, hxr⟩ := hm.2
  rw [← h1] at hx
  exact ⟨x, by simpa using hx, hxr⟩

theorem C7_walk_leaves_by_break_witness :
    ([(3, ⟨1, 1⟩), (5, ⟨1, 0⟩)] : class_d_list) ≠ [] ∧ ∃ r, walk 2 ([(3, ⟨1, 1⟩), (5, ⟨1, 0⟩)] : class_d_list).reverse
        (initial_state 2 0) = some r ∧
      (r.stop = .equality ∨ r.stop = .crossover_curr ∨ r.stop = .crossover_prev) ∧
      (∃ x ∈ ([(3, ⟨1, 1⟩), (5, ⟨1, 0⟩)] : class_d_list), r.threshold = x.1) ∧
      do_threshold_estimation 2 [(3, ⟨1, 1⟩), (5, ⟨1, 0⟩)] 0 =
        some (r.threshold, interpolated_BEP 2 r) :=
  C7_walk_leaves_by_break 2 [(3, ⟨1, 1⟩), (5, ⟨1, 0⟩)] 0
    (by decide) (by decide) (by decide)

/-- C10: for an input that is empty, has `cat_doc_count = 0`, or satisfies
the count invariant, `do_threshold_estimation` returns, and the interpolated
BEP it returns lies in the closed interval [0, 1]. -/
theorem C10_BEP_in_unit_interval (cat_doc_count : Nat) (bit_string : class_d_list)
    (threshold : ℚ) (hr : cat_doc_count < UINT_RANGE)
    (h : bit_string = [] ∨ cat_doc_count = 0 ∨ sum_first bit_string = cat_doc_count) :
    ∃ Th BEP, do_threshold_estimation cat_doc_count bit_string threshold = some (Th, BEP) ∧
      0 ≤ BEP ∧ BEP ≤ 1 := by
  by_cases hnil : bit_string = []
  · subst hnil
    exact ⟨0, 1, do_threshold_estimation_nil _ _, by norm_num, by norm_num⟩
  · by_cases h0 : cat_doc_count = 0
    · subst h0
      unfold do_threshold_estimation
      cases hrev : bit_string.reverse with
      | nil => exact absurd (List.reverse_eq_nil_iff.mp hrev) hnil
      | cons x rest => exact ⟨1.5 * x.1, 1, by simp, by norm_num, by norm_num⟩
    · have hsum : sum_first bit_string = cat_doc_count := by
        rcases h with h | h | h
        · exact absurd h hnil
        · exact absurd h h0
        · exact h
      obtain ⟨_, _, _, _, r, _, _, _, _, _, _, h7⟩ :=
        do_threshold_estimation_leaves threshold (Nat.pos_of_ne_zero h0) hr hsum
      exact ⟨r.threshold, interpolated_BEP cat_doc_count r, h7,
        (interpolated_BEP_bounds _ _).1, (interpolated_BEP_bounds _ _).2⟩

theorem C10_BEP_in_unit_interval_witness :
    ∃ Th BEP, do_threshold_estimation 2 [(3, ⟨1, 1⟩), (5, ⟨1, 0⟩)] 0 = some (Th, BEP) ∧
      0 ≤ BEP ∧ BEP ≤ 1 :=
  C10_BEP_in_unit_interval 2 [(3, ⟨1, 1⟩), (5, ⟨1, 0⟩)] 0 (by decide)
    (Or.inr (Or.inr (by decide)))

/-! ## The rule `score >= Th` on an ordered bucket list -/

theorem true_positives_reverse (bit_string : class_d_list) (Th : ℚ) :
    true_positives bit_string Th =
      sum_first (bit_string.reverse.filter (fun x => decide (Th ≤ x.1))) := by
  unfold true_positives
  rw [List.filter_reverse, sum_first_reverse]

theorem false_positives_reverse (bit_string : class_d_list) (Th : ℚ) :
    false_positives bit_string Th =
      sum_second (bit_string.reverse.filter (fun x => decide (Th ≤ x.1))) := by
  unfold false_positives
  rw [List.filter_reverse, sum_second_reverse]

theorem false_negatives_reverse (bit_string : class_d_list) (Th : ℚ) :
    false_negatives bit_string Th =
      sum_first (bit_string.reverse.filter (fun x => decide (x.1 < Th))) := by
  unfold false_negatives
  rw [List.filter_reverse, sum_first_reverse]

/-- In a list of buckets with strictly descending scores, the buckets with a
score of at least that of `x` are `x` and those before it. -/
theorem filter_ge_of_descending {p q : List (ℚ × class_d_list_entry)}
    {x : ℚ × class_d_list_entry}
    (h : List.Pairwise (fun a b => b.1 < a.1) (p ++ x :: q)) :
    (p ++ x :: q).filter (fun y => decide (x.1 ≤ y.1)) = p ++ [x] ∧
    (p ++ x :: q).filter (fun y => decide (y.1 < x.1)) = q := by
  rw [List.pairwise_append] at h
  obtain ⟨_, hxq, hpx⟩ := h
  rw [List.pairwise_cons] at hxq
  have hp1 : p.filter (fun y => decide (x.1 ≤ y.1)) = p := by
    rw [List.filter_eq_self]
    intro a ha
    simpa using le_of_lt (hpx a ha x (by simp))
  have hp2 : p.filter (fun y => decide (y.1 < x.1)) = [] := by
    rw [List.filter_eq_nil_iff]
    intro a ha
    simpa using le_of_lt (hpx a ha x (by simp))
  have hq1 : q.filter (fun y => decide (x.1 ≤ y.1)) = [] := by
    rw [List.filter_eq_nil_iff]
    intro a ha
    simpa using hxq.1 a ha
  have hq2 : q.filter (fun y => decide (y.1 < x.1)) = q := by
    rw [List.filter_eq_self]
    intro a ha
    simpa using hxq.1 a ha
  constructor
  · rw [List.filter_append, List.filter_cons, hp1, hq1]
    simp
  · rw [List.filter_append, List.filter_cons, hp2, hq2]
    simp

/-- The counts of the rule `score >= x.1`, for a bucket `x` of an ordered
map whose descending list is `p ++ x :: q`. -/
theorem rule_counts_at {bit_string : class_d_list} {p q : List (ℚ × class_d_list_entry)}
    {x : ℚ × class_d_list_entry} (hord : map_ordered bit_string)
    (hds : bit_string.reverse = p ++ x :: q) :
    true_positives bit_string x.1 = sum_first p + x.2.first ∧
    false_positives bit_string x.1 = sum_second p + x.2.second ∧
    false_negatives bit_string x.1 = sum_first q := by
  have hdesc : List.Pairwise (fun a b => b.1 < a.1) (p ++ x :: q) := by
    rw [← hds, List.pairwise_reverse]
    exact hord
  obtain ⟨h1, h2⟩ := filter_ge_of_descending hdesc
  rw [true_positives_reverse, false_positives_reverse, false_negatives_reverse, hds, h1, h2]
  simp

theorem sum_second_filter_mono {P Q : ℚ × class_d_list_entry → Bool}
    (hPQ : ∀ x, P x = true → Q x = true) (l : class_d_list) :
    sum_second (l.filter P) ≤ sum_second (l.filter Q) := by
  induction l with
  | nil => simp
  | cons x l ih =>
    rw [List.filter_cons, List.filter_cons]
    by_cases hP : P x = true
    · simp only [hP, hPQ x hP, if_true, sum_second_cons]
      omega
    · by_cases hQ : Q x = true
      · simp only [hP, hQ, if_true, sum_second_cons]
        simp only [Bool.false_eq_true, if_false]
        omega
      · simp only [hP, hQ]
        simpa using ih

theorem sum_first_filter_mono {P Q : ℚ × class_d_list_entry → Bool}
    (hPQ : ∀ x, P x = true → Q x = true) (l : class_d_list) :
    sum_first (l.filter P) ≤ sum_first (l.filter Q) := by
  induction l with
  | nil => simp
  | cons x l ih =>
    rw [List.filter_cons, List.filter_cons]
    by_cases hP : P x = true
    · simp only [hP, hPQ x hP, if_true, sum_first_cons]
      omega
    · by_cases hQ : Q x = true
      · simp only [hP, hQ, if_true, sum_first_cons]
        simp only [Bool.false_eq_true, if_false]
        omega
      · simp only [hP, hQ]
        simpa using ih

theorem false_positives_antitone (bit_string : class_d_list) {t u : ℚ} (h : t ≤ u) :
    false_positives bit_string u ≤ false_positives bit_string t := by
  unfold false_positives
  apply sum_second_filter_mono
  intro x hx
  simp only [decide_eq_true_eq] at hx ⊢
  exact le_trans h hx

theorem false_negatives_monotone (bit_string : class_d_list) {t u : ℚ} (h : t ≤ u) :
    false_negatives bit_string t ≤ false_negatives bit_string u := by
  unfold false_negatives
  apply sum_first_filter_mono
  intro x hx
  simp only [decide_eq_true_eq] at hx ⊢
  exact lt_of_lt_of_le hx h

/-- A bucket that the walk has passed was committed by the loop body. -/
theorem state_after_passed {cat_doc_count : Nat} {p1 p2 : List (ℚ × class_d_list_entry)}
    {x : ℚ × class_d_list_entry} {s0 s : walk_state}
    (h : state_after cat_doc_count (p1 ++ x :: p2) s0 = some s) :
    ∃ s1 s2, state_after cat_doc_count p1 s0 = some s1 ∧
      loop_body cat_doc_count s1 x = .next s2 := by
  rw [state_after_append] at h
  cases hp : state_after cat_doc_count p1 s0 with
  | none => simp [hp] at h
  | some s1 =>
    simp only [hp, Option.some_bind, state_after] at h
    cases hx : loop_body cat_doc_count s1 x with
    | next s2 => exact ⟨s1, s2, rfl, hx⟩
    | leave r => rw [hx] at h; simp at h
    | undefined => rw [hx] at h; simp at h

/-- Under the count invariant the walk commits the buckets up to some bucket
`last`: the threshold is its score, `b` counts (modulo `2 ^ 32`) the
documents outside the category in the committed buckets, `c` the documents
in the category in the other buckets. -/
theorem walk_commits {cat_doc_count : Nat} {bit_string : class_d_list}
    (threshold : ℚ) (hpos : 0 < cat_doc_count) (hr : cat_doc_count < UINT_RANGE)
    (hsum : sum_first bit_string = cat_doc_count) :
    ∃ front last rest r, bit_string.reverse = front ++ last :: rest ∧
      walk cat_doc_count bit_string.reverse
        (initial_state cat_doc_count threshold) = some r ∧
      r.threshold = last.1 ∧
      r.b = (sum_second front + last.2.second) % UINT_RANGE ∧
      r.c = sum_first rest ∧
      uint_sub cat_doc_count r.c = sum_first front + last.2.first ∧
      do_threshold_estimation cat_doc_count bit_string threshold =
        some (r.threshold, interpolated_BEP cat_doc_count r) := by
  obtain ⟨pre, bit, post, s, r, hds, hs, hc, hb, hx, hw, hd⟩ :=
    do_threshold_estimation_leaves threshold hpos hr hsum
  have hsum2 : sum_first pre + (bit.2.first + sum_first post) = cat_doc_count := by
    have := congrArg sum_first hds
    simp only [sum_first_reverse, sum_first_append, sum_first_cons] at this
    omega
  have hnc : uint_sub s.c bit.2.first = sum_first post := by
    rw [uint_sub_of_le (by omega) (by omega)]
    omega
  have hnb : uint_add s.b bit.2.second = (sum_second pre + bit.2.second) % UINT_RANGE := by
    unfold uint_add
    rw [hb, Nat.mod_add_mod]
  have hcurr : uint_sub cat_doc_count (sum_first post) = sum_first pre + bit.2.first := by
    rw [uint_sub_of_le (by omega) hr]
    omega
  rcases loop_body_leave hx with ⟨_, hr1⟩ | ⟨_, _, hr1⟩ | ⟨_, _, p, hp, hr1⟩
  · refine ⟨pre, bit, post, r, hds, hw, ?_, ?_, ?_, ?_, hd⟩
    · rw [hr1]
    · rw [hr1]; exact hnb
    · rw [hr1]; exact hnc
    · rw [hr1]; simp only; rw [hnc]; exact hcurr
  · refine ⟨pre, bit, post, r, hds, hw, ?_, ?_, ?_, ?_, hd⟩
    · rw [hr1]
    · rw [hr1]; exact hnb
    · rw [hr1]; exact hnc
    · rw [hr1]; simp only; rw [hnc]; exact hcurr
  · have hne : pre ≠ [] := by
      rintro rfl
      simp [state_after] at hs
      subst hs
      simp [initial_state] at hp
    have hlast := (state_after_prev hs hne).1
    rw [hp] at hlast
    obtain ⟨front, hfront⟩ := List.getLast?_eq_some_iff.mp hlast.symm
    subst hfront
    simp only [sum_first_append, sum_first_cons, sum_first_nil, sum_second_append,
      sum_second_cons, sum_second_nil] at hc hb hsum2
    refine ⟨front, p, bit :: post, r, by simpa using hds, hw, ?_, ?_, ?_, ?_, hd⟩
    · rw [hr1]
    · rw [hr1]; simpa using hb
    · rw [hr1]; simp only [sum_first_cons]; omega
    · rw [hr1]; simp only
      rw [uint_sub_of_le (by omega) hr]
      omega

/-- C1 (amended): for an ordered bucket list and `cat_doc_count > 0` equal to
the sum of the `first` counters, when the sum of the `second` counters is
below `2 ^ 32`, the committed `b` and `c` are the false positives and the
false negatives of the rule `score >= Th`, `cat_doc_count - c` its true
positives, and the BEP returned is `0.5 * (precision + recall)` of that
rule. -/
theorem C1_BEP_of_threshold_rule (cat_doc_count : Nat) (bit_string : class_d_list)
    (threshold : ℚ) (hord : map_ordered bit_string) (hpos : 0 < cat_doc_count)
    (hr : cat_doc_count < UINT_RANGE) (hsum : sum_first bit_string = cat_doc_count)
    (hneg : sum_second bit_string < UINT_RANGE) :
    ∃ r, walk cat_doc_count bit_string.reverse
        (initial_state cat_doc_count threshold) = some r ∧
      r.b = false_positives bit_string r.threshold ∧
      r.c = false_negatives bit_string r.threshold ∧
      uint_sub cat_doc_count r.c = true_positives bit_string r.threshold ∧
      do_threshold_estimation cat_doc_count bit_string threshold =
        some (r.threshold,
          0.5 * (get_precision (true_positives bit_string r.threshold)
              (false_positives bit_string r.threshold)
            + get_recall (true_positives bit_string r.threshold)
              (false_negatives bit_string r.threshold))) := by
  obtain ⟨front, last, rest, r, hds, hw, hth, hb, hc, ha, hd⟩ :=
    walk_commits threshold hpos hr hsum
  obtain ⟨htp, hfp, hfn⟩ := rule_counts_at hord hds
  have hneg2 : sum_second front + last.2.second < UINT_RANGE := by
    have := congrArg sum_second hds
    simp only [sum_second_reverse, sum_second_append, sum_second_cons] at this
    omega
  rw [Nat.mod_eq_of_lt hneg2] at hb
  have h1 : r.b = false_positives bit_string r.threshold := by rw [hth, hfp, hb]
  have h2 : r.c = false_negatives bit_string r.threshold := by rw [hth, hfn, hc]
  have h3 : uint_sub cat_doc_count r.c = true_positives bit_string r.threshold := by
    rw [hth, htp, ha]
  refine ⟨r, hw, h1, h2, h3, ?_⟩
  rw [hd, ← h1, ← h2, ← h3]
  rfl

theorem C1_BEP_of_threshold_rule_witness :
    ∃ r, walk 2 ([(3, ⟨1, 1⟩), (5, ⟨1, 0⟩)] : class_d_list).reverse
        (initial_state 2 0) = some r ∧
      r.b = false_positives [(3, ⟨1, 1⟩), (5, ⟨1, 0⟩)] r.threshold ∧
      r.c = false_negatives [(3, ⟨1, 1⟩), (5, ⟨1, 0⟩)] r.threshold ∧
      uint_sub 2 r.c = true_positives [(3, ⟨1, 1⟩), (5, ⟨1, 0⟩)] r.threshold ∧
      do_threshold_estimation 2 [(3, ⟨1, 1⟩), (5, ⟨1, 0⟩)] 0 =
        some (r.threshold,
          0.5 * (get_precision (true_positives [(3, ⟨1, 1⟩), (5, ⟨1, 0⟩)] r.threshold)
              (false_positives [(3, ⟨1, 1⟩), (5, ⟨1, 0⟩)] r.threshold)
            + get_recall (true_positives [(3, ⟨1, 1⟩), (5, ⟨1, 0⟩)] r.threshold)
              (false_negatives [(3, ⟨1, 1⟩), (5, ⟨1, 0⟩)] r.threshold))) :=
  C1_BEP_of_threshold_rule 2 [(3, ⟨1, 1⟩), (5, ⟨1, 0⟩)] 0
    (by unfold map_ordered; simp; norm_num) (by decide)
    (by unfold UINT_RANGE; norm_num) (by decide)
    (by unfold UINT_RANGE; simp [sum_second])

/-- C1 (as stated) fails when the counter `b` wraps: with the buckets
`(10, 0, 2 ^ 31)` and `(9, 2 ^ 32 - 1, 2 ^ 31)` and
`cat_doc_count = 2 ^ 32 - 1`, the sum of the `first` counters, the function
sets the threshold 9 and returns 1, while the rule `score >= 9` has
`2 ^ 32` false positives, so that `0.5 * (precision + recall)` is not 1. -/
theorem C1_counterexample_wrapping_b :
    map_ordered [(9, ⟨4294967295, 2147483648⟩), (10, ⟨0, 2147483648⟩)] ∧
    counters_in_range [(9, ⟨4294967295, 2147483648⟩), (10, ⟨0, 2147483648⟩)] ∧
    0 < 4294967295 ∧ 4294967295 < UINT_RANGE ∧
    sum_first [(9, ⟨4294967295, 2147483648⟩), (10, ⟨0, 2147483648⟩)] = 4294967295 ∧
    do_threshold_estimation 4294967295
      [(9, ⟨4294967295, 2147483648⟩), (10, ⟨0, 2147483648⟩)] 0 = some (9, 1) ∧
    false_positives [(9, ⟨4294967295, 2147483648⟩), (10, ⟨0, 2147483648⟩)] 9
      = 4294967296 ∧
    (0.5 : ℚ) * (get_precision
          (true_positives [(9, ⟨4294967295, 2147483648⟩), (10, ⟨0, 2147483648⟩)] 9)
          (false_positives [(9, ⟨4294967295, 2147483648⟩), (10, ⟨0, 2147483648⟩)] 9)
        + get_recall
          (true_positives [(9, ⟨4294967295, 2147483648⟩), (10, ⟨0, 2147483648⟩)] 9)
          (false_negatives [(9, ⟨4294967295, 2147483648⟩), (10, ⟨0, 2147483648⟩)] 9))
      ≠ 1 := by
  have hr : 4294967295 < UINT_RANGE := by unfold UINT_RANGE; norm_num
  have hA1 : uint_add 0 2147483648 = 2147483648 :=
    uint_add_of_lt (by unfold UINT_RANGE; norm_num)
  have hS1 : uint_sub 4294967295 0 = 4294967295 := uint_sub_of_le (by omega) hr
  have hA2 : uint_add 2147483648 2147483648 = 0 := by
    unfold uint_add UINT_RANGE; norm_num
  have hS2 : uint_sub 4294967295 4294967295 = 0 := uint_sub_of_le (le_refl _) hr
  have hw : walk 4294967295 [(10, ⟨0, 2147483648⟩), (9, ⟨4294967295, 2147483648⟩)]
      (initial_state 4294967295 0) =
      some { threshold := 9, b := 0, c := 0, stop := .equality } := by
    have h1 : uint_add (initial_state 4294967295 0).b
        ((10, ⟨0, 2147483648⟩) : ℚ × class_d_list_entry).2.second
        < uint_sub (initial_state 4294967295 0).c
          ((10, ⟨0, 2147483648⟩) : ℚ × class_d_list_entry).2.first := by
      simp only [initial_state, hA1, hS1]
      norm_num
    rw [walk, loop_body_of_lt h1]
    simp only [initial_state, hA1, hS1]
    rw [walk, loop_body_of_eq]
    · simp only [hA2, hS2]
    · simp only [hA2, hS2]
  have htp : true_positives [(9, ⟨4294967295, 2147483648⟩), (10, ⟨0, 2147483648⟩)] 9
      = 4294967295 := by
    norm_num [true_positives, sum_first, List.filter]
  have hfp : false_positives [(9, ⟨4294967295, 2147483648⟩), (10, ⟨0, 2147483648⟩)] 9
      = 4294967296 := by
    norm_num [false_positives, sum_second, List.filter]
  have hfn : false_negatives [(9, ⟨4294967295, 2147483648⟩), (10, ⟨0, 2147483648⟩)] 9
      = 0 := by
    norm_num [false_negatives, sum_first, List.filter]
  refine ⟨?_, ?_, by norm_num, hr, ?_, ?_, hfp, ?_⟩
  · unfold map_ordered; simp; norm_num
  · unfold counters_in_range UINT_RANGE
    intro x hx
    simp only [List.mem_cons, List.mem_singleton, List.not_mem_nil, or_false] at hx
    rcases hx with rfl | rfl <;> norm_num
  · norm_num [sum_first]
  · rw [do_threshold_estimation_walk 0 (by norm_num) (by simp)]
    have : ([(9, ⟨4294967295, 2147483648⟩), (10, ⟨0, 2147483648⟩)] : class_d_list).reverse
        = [(10, ⟨0, 2147483648⟩), (9, ⟨4294967295, 2147483648⟩)] := by simp
    rw [this, hw]
    simp only [Option.map_some', interpolated_BEP, hS1, get_recall_eq_precision,
      get_precision_pos_zero (show 0 < 4294967295 by norm_num)]
    norm_num
  · rw [htp, hfp, hfn]
    norm_num [get_precision, get_recall]

/-- C2: for an ordered bucket list and `cat_doc_count > 0` equal to the sum
of the `first` counters, if some bucket `k` has as many documents outside the
category at scores `>= k.1` as documents in the category at scores `< k.1`,
and `k` is the highest-scoring such bucket, then the walk leaves by the
equality branch with the threshold `k.1` and `b = c`, and the BEP returned is
the precision, equal to the recall and to `a / (a + b)` with
`a = cat_doc_count - c`. (That every bucket holds a document is not needed.) -/
theorem C2_exact_break_even (cat_doc_count : Nat) (bit_string : class_d_list)
    (threshold : ℚ) (k : ℚ × class_d_list_entry)
    (hord : map_ordered bit_string) (hpos : 0 < cat_doc_count)
    (hr : cat_doc_count < UINT_RANGE) (hsum : sum_first bit_string = cat_doc_count)
    (hk : k ∈ bit_string)
    (heq : false_positives bit_string k.1 = false_negatives bit_string k.1)
    (hmax : ∀ j ∈ bit_string,
      false_positives bit_string j.1 = false_negatives bit_string j.1 → j.1 ≤ k.1) :
    ∃ r, walk cat_doc_count bit_string.reverse
        (initial_state cat_doc_count threshold) = some r ∧
      r.stop = .equality ∧ r.threshold = k.1 ∧ r.b = r.c ∧
      get_precision (uint_sub cat_doc_count r.c) r.b
        = get_recall (uint_sub cat_doc_count r.c) r.c ∧
      get_precision (uint_sub cat_doc_count r.c) r.b
        = ((uint_sub cat_doc_count r.c : Nat) : ℚ)
          / (((uint_sub cat_doc_count r.c : Nat) : ℚ) + (r.b : ℚ)) ∧
      do_threshold_estimation cat_doc_count bit_string threshold =
        some (k.1, get_precision (uint_sub cat_doc_count r.c) r.b) := by
  obtain ⟨pre, bit, post, s, r, hds, hs, hc, hb, hx, hw, hd⟩ :=
    do_threshold_estimation_leaves threshold hpos hr hsum
  have hdesc : List.Pairwise (fun a b => b.1 < a.1) (pre ++ bit :: post) := by
    rw [← hds, List.pairwise_reverse]
    exact hord
  have hsum2 : sum_first pre + (bit.2.first + sum_first post) = cat_doc_count := by
    have := congrArg sum_first hds
    simp only [sum_first_reverse, sum_first_append, sum_first_cons] at this
    omega
  obtain ⟨_, hfp, hfn⟩ := rule_counts_at hord hds
  have hkds : k ∈ pre ++ bit :: post := by
    rw [← hds]; simpa using hk
  have hbit : bit ∈ bit_string := by
    have : bit ∈ bit_string.reverse := by rw [hds]; simp
    simpa using this
  rcases le_or_lt k.1 bit.1 with hle | hlt
  · -- the walk has not passed `k`: it leaves at `bit` by the equality branch
    have h1 := false_positives_antitone bit_string hle
    have h2 := false_negatives_monotone bit_string hle
    have hnc : uint_sub s.c bit.2.first = sum_first post := by
      rw [uint_sub_of_le (by omega) (by omega)]
      omega
    have hnb : uint_add s.b bit.2.second = sum_second pre + bit.2.second := by
      unfold uint_add
      rw [hb, Nat.mod_add_mod]
      exact Nat.mod_eq_of_lt (by omega)
    have hge : ¬ uint_add s.b bit.2.second < uint_sub s.c bit.2.first := by
      intro hlt2
      rw [loop_body_of_lt hlt2] at hx
      cases hx
    have heq2 : uint_add s.b bit.2.second = uint_sub s.c bit.2.first := by
      rw [hnb, hnc] at hge ⊢
      omega
    have hkb : k.1 = bit.1 := by
      apply le_antisymm hle
      apply hmax bit hbit
      rw [hfp, hfn]
      rw [hnb, hnc] at heq2
      exact heq2
    rw [loop_body_of_eq heq2] at hx
    injection hx with hx
    subst hx
    have ha : uint_sub cat_doc_count (uint_sub s.c bit.2.first)
        = cat_doc_count - sum_first post := by
      rw [hnc]
      exact uint_sub_of_le (by omega) hr
    have hprec : get_precision (uint_sub cat_doc_count (uint_sub s.c bit.2.first))
          (uint_add s.b bit.2.second)
        = get_recall (uint_sub cat_doc_count (uint_sub s.c bit.2.first))
          (uint_sub s.c bit.2.first) := by
      rw [heq2]
      rfl
    refine ⟨_, hw, rfl, hkb.symm, heq2, hprec, ?_, ?_⟩
    · simp only
      unfold get_precision
      rw [if_neg]
      rw [ha, heq2, hnc]
      omega
    · rw [hd, hkb]
      unfold interpolated_BEP
      simp only
      rw [← hprec]
      congr 2
      ring
  · -- the walk would have passed `k`, where it finds equality: impossible
    exfalso
    have hkpre : k ∈ pre := by
      rcases List.mem_append.mp hkds with h | h
      · exact h
      · rcases List.mem_cons.mp h with h | h
        · rw [h] at hlt
          exact absurd hlt (lt_irrefl _)
        · rw [List.pairwise_append] at hdesc
          have := (List.pairwise_cons.mp hdesc.2.1).1 k h
          exact absurd (lt_trans this hlt) (lt_irrefl _)
    obtain ⟨p1, p2, hp⟩ := List.append_of_mem hkpre
    subst hp
    obtain ⟨s1, s2, hs1, hx1⟩ := state_after_passed hs
    obtain ⟨hlt1, _⟩ := loop_body_next hx1
    have hds2 : bit_string.reverse = p1 ++ k :: (p2 ++ bit :: post) := by
      rw [hds]; simp
    obtain ⟨_, hfpk, hfnk⟩ := rule_counts_at hord hds2
    simp only [sum_first_append, sum_first_cons] at hsum2 hfnk
    obtain ⟨hc1, hb1, _⟩ := state_after_counters p1 _ s1 hs1
      (by simp only [initial_state]; omega) (by simpa [initial_state] using hr)
      (by simp [initial_state, UINT_RANGE])
    simp only [initial_state, Nat.zero_add] at hc1 hb1
    rw [uint_sub_of_le (by omega) (by omega)] at hlt1
    unfold uint_add at hlt1
    rw [hb1, Nat.mod_add_mod, Nat.mod_eq_of_lt (by omega)] at hlt1
    omega

theorem C2_exact_break_even_witness :
    ∃ r, walk 2 ([(3, ⟨1, 0⟩), (4, ⟨0, 1⟩), (5, ⟨1, 0⟩)] : class_d_list).reverse
        (initial_state 2 0) = some r ∧
      r.stop = .equality ∧
      r.threshold = ((4, ⟨0, 1⟩) : ℚ × class_d_list_entry).1 ∧ r.b = r.c ∧
      get_precision (uint_sub 2 r.c) r.b = get_recall (uint_sub 2 r.c) r.c ∧
      get_precision (uint_sub 2 r.c) r.b
        = ((uint_sub 2 r.c : Nat) : ℚ) / (((uint_sub 2 r.c : Nat) : ℚ) + (r.b : ℚ)) ∧
      do_threshold_estimation 2 [(3, ⟨1, 0⟩), (4, ⟨0, 1⟩), (5, ⟨1, 0⟩)] 0 =
        some (((4, ⟨0, 1⟩) : ℚ × class_d_list_entry).1,
          get_precision (uint_sub 2 r.c) r.b) :=
  C2_exact_break_even 2 [(3, ⟨1, 0⟩), (4, ⟨0, 1⟩), (5, ⟨1, 0⟩)] 0 (4, ⟨0, 1⟩)
    (by unfold map_ordered; simp; norm_num) (by decide)
    (by unfold UINT_RANGE; norm_num) (by decide) (by simp)
    (by norm_num [false_positives, false_negatives, sum_first, sum_second, List.filter])
    (by
      intro j hj
      simp only [List.mem_cons, List.mem_singleton, List.not_mem_nil, or_false] at hj
      rcases hj with rfl | rfl | rfl
      · intro _; norm_num
      · intro _; norm_num
      · norm_num [false_positives, false_negatives, sum_first, sum_second, List.filter])

/-! ## The map operation `d_list[k]` -/

theorem d_list_update_keys {f : class_d_list_entry → class_d_list_entry} {k s : ℚ}
    {e : class_d_list_entry} {d : class_d_list}
    (h : (s, e) ∈ d_list_update f k d) : s = k ∨ ∃ e1, (s, e1) ∈ d := by
  induction d with
  | nil =>
    simp only [d_list_update, List.mem_singleton, Prod.mk.injEq] at h
    exact Or.inl h.1
  | cons x rest ih =>
    unfold d_list_update at h
    split_ifs at h with h1 h2
    · rcases List.mem_cons.mp h with h | h
      · left
        exact (Prod.mk.inj h).1
      · right
        exact ⟨e, h⟩
    · rcases List.mem_cons.mp h with h | h
      · left
        rw [(Prod.mk.inj h).1, h2]
      · right
        exact ⟨e, List.mem_cons_of_mem _ h⟩
    · rcases List.mem_cons.mp h with h | h
      · right
        exact ⟨e, by rw [h]; exact List.mem_cons_self _ _⟩
      · rcases ih h with h | ⟨e1, h⟩
        · exact Or.inl h
        · exact Or.inr ⟨e1, List.mem_cons_of_mem _ h⟩

theorem d_list_update_ordered (f : class_d_list_entry → class_d_list_entry) (k : ℚ)
    {d : class_d_list} (hord : map_ordered d) : map_ordered (d_list_update f k d) := by
  unfold map_ordered at hord ⊢
  induction d with
  | nil => simp [d_list_update]
  | cons x rest ih =>
    obtain ⟨hx, hrest⟩ := List.pairwise_cons.mp hord
    unfold d_list_update
    split_ifs with h1 h2
    · refine List.pairwise_cons.mpr ⟨?_, hord⟩
      intro y hy
      rcases List.mem_cons.mp hy with hy | hy
      · rw [hy]; exact h1
      · exact lt_trans h1 (hx y hy)
    · exact List.pairwise_cons.mpr ⟨hx, hrest⟩
    · refine List.pairwise_cons.mpr ⟨?_, ih hrest⟩
      intro y hy
      rcases @d_list_update_keys f k y.1 y.2 rest hy with h | ⟨e1, h⟩
      · rw [h]
        exact lt_of_le_of_ne (not_lt.mp h1) (Ne.symm h2)
      · exact hx (y.1, e1) h

/-- The buckets of the map after `d_list[k]` was changed by `f`. -/
theorem d_list_update_mem (f : class_d_list_entry → class_d_list_entry) (k s : ℚ)
    (e : class_d_list_entry) {d : class_d_list} (hord : map_ordered d) :
    (s, e) ∈ d_list_update f k d ↔
      (s ≠ k ∧ (s, e) ∈ d) ∨
      (s = k ∧ ∃ e0, e = f e0 ∧
        ((k, e0) ∈ d ∨ (e0 = ⟨0, 0⟩ ∧ ∀ e1, (k, e1) ∉ d))) := by
  unfold map_ordered at hord
  induction d with
  | nil =>
    simp only [d_list_update, List.mem_singleton, Prod.mk.injEq, List.not_mem_nil]
    constructor
    · rintro ⟨rfl, rfl⟩
      exact Or.inr ⟨rfl, ⟨0, 0⟩, rfl, Or.inr ⟨rfl, fun _ h => h⟩⟩
    · rintro (⟨_, h⟩ | ⟨rfl, e0, rfl, h | ⟨rfl, _⟩⟩)
      · exact absurd h id
      · exact absurd h id
      · exact ⟨rfl, rfl⟩
  | cons x rest ih =>
    obtain ⟨hx, hrest⟩ := List.pairwise_cons.mp hord
    have hnot : ∀ (t : ℚ), t ≤ x.1 → ∀ e1, (t, e1) ∉ rest := by
      intro t ht e1 hmem
      exact absurd (hx (t, e1) hmem) (not_lt.mpr ht)
    unfold d_list_update
    split_ifs with h1 h2
    · -- a new bucket in front of `x`
      have hk : ∀ e1, (k, e1) ∉ x :: rest := by
        intro e1 hmem
        rcases List.mem_cons.mp hmem with h | h
        · rw [← h] at h1
          exact lt_irrefl _ h1
        · exact hnot k (le_of_lt h1) e1 h
      constructor
      · intro h
        rcases List.mem_cons.mp h with hm | hm
        · obtain ⟨rfl, rfl⟩ := Prod.mk.inj hm
          exact Or.inr ⟨rfl, ⟨0, 0⟩, rfl, Or.inr ⟨rfl, hk⟩⟩
        · left
          refine ⟨?_, hm⟩
          intro hsk
          rw [hsk] at hm
          exact hk e hm
      · rintro (⟨_, h⟩ | ⟨rfl, e0, rfl, h | ⟨rfl, _⟩⟩)
        · exact List.mem_cons_of_mem _ h
        · exact absurd h (hk e0)
        · exact List.mem_cons_self _ _
    · -- the bucket `x` is changed
      have hk : ∀ e1, (k, e1) ∈ x :: rest ↔ e1 = x.2 := by
        intro e1
        constructor
        · intro hmem
          rcases List.mem_cons.mp hmem with h | h
          · rw [← h]
          · exact absurd h (hnot k (le_of_eq h2) e1)
        · rintro rfl
          rw [h2]
          exact List.mem_cons_self _ _
      constructor
      · intro h
        rcases List.mem_cons.mp h with hm | hm
        · obtain ⟨rfl, rfl⟩ := Prod.mk.inj hm
          exact Or.inr ⟨h2.symm, x.2, rfl, Or.inl ((hk x.2).mpr rfl)⟩
        · left
          refine ⟨?_, List.mem_cons_of_mem _ hm⟩
          intro hsk
          rw [hsk] at hm
          exact hnot k (le_of_eq h2) e hm
      · rintro (⟨hne, h⟩ | ⟨rfl, e0, rfl, h | ⟨_, hnone⟩⟩)
        · rcases List.mem_cons.mp h with h | h
          · rw [← h] at h2
            exact absurd h2.symm hne
          · exact List.mem_cons_of_mem _ h
        · rw [(hk e0).mp h, h2]
          exact List.mem_cons_self _ _
        · exact absurd ((hk x.2).mpr rfl) (hnone x.2)
    · -- the change is made further on
      have hxk : x.1 ≠ k := fun h => h2 h.symm
      rw [List.mem_cons, ih hrest]
      constructor
      · rintro (h | ⟨hne, h⟩ | ⟨rfl, e0, rfl, h | ⟨rfl, hnone⟩⟩)
        · left
          refine ⟨?_, by rw [h]; exact List.mem_cons_self _ _⟩
          rintro rfl
          rw [← h] at hxk
          exact hxk rfl
        · exact Or.inl ⟨hne, List.mem_cons_of_mem _ h⟩
        · exact Or.inr ⟨rfl, e0, rfl, Or.inl (List.mem_cons_of_mem _ h)⟩
        · refine Or.inr ⟨rfl, ⟨0, 0⟩, rfl, Or.inr ⟨rfl, ?_⟩⟩
          intro e1 hmem
          rcases List.mem_cons.mp hmem with h | h
          · rw [← h] at hxk
            exact hxk rfl
          · exact hnone e1 h
      · rintro (⟨hne, h⟩ | ⟨rfl, e0, rfl, h | ⟨rfl, hnone⟩⟩)
        · rcases List.mem_cons.mp h with h | h
          · exact Or.inl h
          · exact Or.inr (Or.inl ⟨hne, h⟩)
        · rcases List.mem_cons.mp h with h | h
          · rw [← h] at hxk
            exact absurd rfl hxk
          · exact Or.inr (Or.inr ⟨rfl, e0, rfl, Or.inl h⟩)
        · exact Or.inr (Or.inr ⟨rfl, ⟨0, 0⟩, rfl,
            Or.inr ⟨rfl, fun e1 h => hnone e1 (List.mem_cons_of_mem _ h)⟩⟩)

/-- The counters of the map after `d_list[k]` was changed by `f`, when every
bucket `s` holds `P s` and `N s` modulo `2 ^ 32` and `f` adds `dp` and `dn`. -/
theorem d_list_update_counts (f : class_d_list_entry → class_d_list_entry) (k : ℚ)
    {d : class_d_list} (hord : map_ordered d) (A : ℚ → Prop) (P N : ℚ → Nat)
    (dp dn : Nat)
    (hinv : ∀ s e, (s, e) ∈ d ↔ A s ∧ e = ⟨P s % UINT_RANGE, N s % UINT_RANGE⟩)
    (hzero : ¬ A k → P k = 0 ∧ N k = 0)
    (hf : ∀ p n, f ⟨p % UINT_RANGE, n % UINT_RANGE⟩
      = ⟨(p + dp) % UINT_RANGE, (n + dn) % UINT_RANGE⟩) :
    ∀ s e, (s, e) ∈ d_list_update f k d ↔
      (A s ∨ s = k) ∧
        e = ⟨(P s + if s = k then dp else 0) % UINT_RANGE,
             (N s + if s = k then dn else 0) % UINT_RANGE⟩ := by
  intro s e
  rw [d_list_update_mem f k s e hord]
  constructor
  · rintro (⟨hne, h⟩ | ⟨hsk, e0, he, h | ⟨h0, hnone⟩⟩)
    · obtain ⟨hA, he⟩ := (hinv s e).mp h
      refine ⟨Or.inl hA, ?_⟩
      rw [if_neg hne, if_neg hne]
      simpa using he
    · obtain ⟨hA, he0⟩ := (hinv k e0).mp h
      refine ⟨Or.inr hsk, ?_⟩
      rw [if_pos hsk, if_pos hsk, he, he0, hf, hsk]
    · have hnA : ¬ A k := by
        intro hA
        exact hnone _ ((hinv k _).mpr ⟨hA, rfl⟩)
      obtain ⟨hP, hN⟩ := hzero hnA
      refine ⟨Or.inr hsk, ?_⟩
      rw [if_pos hsk, if_pos hsk, he, h0, hsk, hP, hN]
      have := hf 0 0
      simpa using this
  · rintro ⟨hA, he⟩
    by_cases hsk : s = k
    · right
      rw [if_pos hsk, if_pos hsk, hsk] at he
      by_cases hAk : A k
      · exact ⟨hsk, ⟨P k % UINT_RANGE, N k % UINT_RANGE⟩, by rw [he, hf],
          Or.inl ((hinv k _).mpr ⟨hAk, rfl⟩)⟩
      · obtain ⟨hP, hN⟩ := hzero hAk
        refine ⟨hsk, ⟨0, 0⟩, ?_, Or.inr ⟨rfl, ?_⟩⟩
        · rw [he, hP, hN]
          have := hf 0 0
          simpa using this.symm
        · intro e1 hmem
          exact hAk ((hinv k e1).mp hmem).1
    · left
      rw [if_neg hsk, if_neg hsk] at he
      rcases hA with hA | hA
      · exact ⟨hsk, (hinv s e).mpr ⟨hA, by simpa using he⟩⟩
      · exact absurd hA hsk

theorem construct_bits_concat {V : Type} (dot_product_sparse_vector : V → V → ℚ)
    (W : V) (target_cat_name : String) (docs : List (V × Option (List String)))
    (doc : V × Option (List String)) :
    construct_bits dot_product_sparse_vector W target_cat_name (docs ++ [doc]) =
      construct_bits_step dot_product_sparse_vector W target_cat_name
        (construct_bits dot_product_sparse_vector W target_cat_name docs) doc := by
  unfold construct_bits
  rw [List.foldl_append]
  rfl

/-- The buckets built by the aggregation loop: one for every score that a
document has, with the numbers of its documents modulo `2 ^ 32`. -/
theorem construct_bits_buckets {V : Type} (dot_product_sparse_vector : V → V → ℚ)
    (W : V) (target_cat_name : String) (docs : List (V × Option (List String))) :
    map_ordered (construct_bits dot_product_sparse_vector W target_cat_name docs).1 ∧
    ∀ s e, (s, e) ∈ (construct_bits dot_product_sparse_vector W target_cat_name docs).1 ↔
      (∃ doc ∈ docs, dot_product_sparse_vector doc.1 W = s) ∧
      e = ⟨docs_in_cat_at dot_product_sparse_vector W target_cat_name docs s % UINT_RANGE,
           docs_not_in_cat_at dot_product_sparse_vector W target_cat_name docs s
             % UINT_RANGE⟩ := by
  induction docs using List.reverseRecOn with
  | nil =>
    refine ⟨by simp [construct_bits, map_ordered], ?_⟩
    intro s e
    simp [construct_bits]
  | append_singleton docs doc ih =>
    obtain ⟨hord, hinv⟩ := ih
    rw [construct_bits_concat]
    have hzero : ¬ (∃ d ∈ docs, dot_product_sparse_vector d.1 W
          = dot_product_sparse_vector doc.1 W) →
        docs_in_cat_at dot_product_sparse_vector W target_cat_name docs
          (dot_product_sparse_vector doc.1 W) = 0 ∧
        docs_not_in_cat_at dot_product_sparse_vector W target_cat_name docs
          (dot_product_sparse_vector doc.1 W) = 0 := by
      intro hno
      unfold docs_in_cat_at docs_not_in_cat_at
      constructor
      · rw [List.countP_eq_zero]
        intro d hd hp
        simp only [Bool.and_eq_true, decide_eq_true_eq] at hp
        exact hno ⟨d, hd, hp.1⟩
      · rw [List.countP_eq_zero]
        intro d hd hp
        simp only [Bool.and_eq_true, decide_eq_true_eq] at hp
        exact hno ⟨d, hd, hp.1⟩
    have hA : ∀ s, (∃ d ∈ docs ++ [doc], dot_product_sparse_vector d.1 W = s) ↔
        ((∃ d ∈ docs, dot_product_sparse_vector d.1 W = s) ∨
          s = dot_product_sparse_vector doc.1 W) := by
      intro s
      constructor
      · rintro ⟨d, hd, hs⟩
        rcases List.mem_append.mp hd with h | h
        · exact Or.inl ⟨d, h, hs⟩
        · rw [List.mem_singleton] at h
          rw [h] at hs
          exact Or.inr hs.symm
      · rintro (⟨d, hd, hs⟩ | hs)
        · exact ⟨d, List.mem_append_left _ hd, hs⟩
        · exact ⟨doc, by simp, hs.symm⟩
    unfold construct_bits_step
    simp only
    by_cases hin : bit_belongs_to_target_cat target_cat_name doc.2 = true
    · rw [if_pos hin]
      refine ⟨d_list_update_ordered _ _ hord, ?_⟩
      intro s e
      rw [d_list_update_counts _ _ hord _ _ _ 1 0 hinv hzero, hA]
      · unfold docs_in_cat_at docs_not_in_cat_at
        simp only [List.countP_append, List.countP_cons, List.countP_nil, hin,
          Bool.and_true, Bool.not_true, Bool.and_false, Nat.zero_add, decide_eq_true_eq,
          @eq_comm _ s]
        simp
      · intro p n
        simp [uint_incr]
    · rw [if_neg hin]
      have hin2 : bit_belongs_to_target_cat target_cat_name doc.2 = false := by
        simpa using hin
      refine ⟨d_list_update_ordered _ _ hord, ?_⟩
      intro s e
      rw [d_list_update_counts _ _ hord _ _ _ 0 1 hinv hzero, hA]
      · unfold docs_in_cat_at docs_not_in_cat_at
        simp only [List.countP_append, List.countP_cons, List.countP_nil, hin2,
          Bool.and_true, Bool.not_false, Bool.and_false, Nat.zero_add, decide_eq_true_eq,
          @eq_comm _ s]
        simp
      · intro p n
        simp [uint_incr]

theorem docs_at_pos {V : Type} (dot_product_sparse_vector : V → V → ℚ) (W : V)
    (target_cat_name : String) {docs : List (V × Option (List String))}
    {doc : V × Option (List String)} {s : ℚ} (hdoc : doc ∈ docs)
    (hs : dot_product_sparse_vector doc.1 W = s) :
    0 < docs_in_cat_at dot_product_sparse_vector W target_cat_name docs s
      + docs_not_in_cat_at dot_product_sparse_vector W target_cat_name docs s := by
  unfold docs_in_cat_at docs_not_in_cat_at
  by_cases hin : bit_belongs_to_target_cat target_cat_name doc.2 = true
  · have : 0 < docs.countP (fun doc => decide (dot_product_sparse_vector doc.1 W = s)
        && bit_belongs_to_target_cat target_cat_name doc.2) := by
      rw [List.countP_pos_iff]
      exact ⟨doc, hdoc, by simp [hs, hin]⟩
    omega
  · have : 0 < docs.countP (fun doc => decide (dot_product_sparse_vector doc.1 W = s)
        && !bit_belongs_to_target_cat target_cat_name doc.2) := by
      rw [List.countP_pos_iff]
      exact ⟨doc, hdoc, by simpa [hs] using hin⟩
    omega

/-- C9 (amended): for a document sequence of fewer than `2 ^ 32` documents,
the aggregation loop builds an ordered map that has a bucket keyed by `s` if
and only if some document has the score `s`; the `first` counter of that
bucket is the number of documents with the score `s` whose gold standard is
present and contains the target category, its `second` counter the number of
the other documents with the score `s`; and the bucket holds at least one
document. -/
theorem C9_buckets_count_documents (V : Type) (dot_product_sparse_vector : V → V → ℚ)
    (W : V) (target_cat_name : String) (unique_docs : List (V × Option (List String)))
    (s : ℚ) (hlen : unique_docs.length < UINT_RANGE) :
    map_ordered
      (construct_bits dot_product_sparse_vector W target_cat_name unique_docs).1 ∧
    ((∃ e, (s, e) ∈
        (construct_bits dot_product_sparse_vector W target_cat_name unique_docs).1) ↔
      ∃ doc ∈ unique_docs, dot_product_sparse_vector doc.1 W = s) ∧
    ∀ e, (s, e) ∈
        (construct_bits dot_product_sparse_vector W target_cat_name unique_docs).1 →
      e.first = docs_in_cat_at dot_product_sparse_vector W target_cat_name unique_docs s ∧
      e.second
        = docs_not_in_cat_at dot_product_sparse_vector W target_cat_name unique_docs s ∧
      0 < e.first + e.second := by
  obtain ⟨hord, hinv⟩ :=
    construct_bits_buckets dot_product_sparse_vector W target_cat_name unique_docs
  have hP : docs_in_cat_at dot_product_sparse_vector W target_cat_name unique_docs s
      < UINT_RANGE :=
    lt_of_le_of_lt (List.countP_le_length _) hlen
  have hN : docs_not_in_cat_at dot_product_sparse_vector W target_cat_name unique_docs s
      < UINT_RANGE :=
    lt_of_le_of_lt (List.countP_le_length _) hlen
  refine ⟨hord, ?_, ?_⟩
  · constructor
    · rintro ⟨e, he⟩
      exact ((hinv s e).mp he).1
    · intro h
      exact ⟨_, (hinv s _).mpr ⟨h, rfl⟩⟩
  · intro e he
    obtain ⟨⟨doc, hdoc, hs⟩, hev⟩ := (hinv s e).mp he
    rw [Nat.mod_eq_of_lt hP, Nat.mod_eq_of_lt hN] at hev
    rw [hev]
    exact ⟨rfl, rfl, docs_at_pos dot_product_sparse_vector W target_cat_name hdoc hs⟩

theorem C9_buckets_count_documents_witness :
    map_ordered
      (construct_bits (fun x y : ℚ => x * y) 1 "X" [(2, some ["X"]), (2, none)]).1 ∧
    ((∃ e, (2, e) ∈
        (construct_bits (fun x y : ℚ => x * y) 1 "X" [(2, some ["X"]), (2, none)]).1) ↔
      ∃ doc ∈ ([(2, some ["X"]), (2, none)] : List (ℚ × Option (List String))),
        (fun x y : ℚ => x * y) doc.1 1 = 2) ∧
    ∀ e, (2, e) ∈
        (construct_bits (fun x y : ℚ => x * y) 1 "X" [(2, some ["X"]), (2, none)]).1 →
      e.first = docs_in_cat_at (fun x y : ℚ => x * y) 1 "X"
        [(2, some ["X"]), (2, none)] 2 ∧
      e.second = docs_not_in_cat_at (fun x y : ℚ => x * y) 1 "X"
        [(2, some ["X"]), (2, none)] 2 ∧
      0 < e.first + e.second :=
  C9_buckets_count_documents ℚ (fun x y : ℚ => x * y) 1 "X"
    [(2, some ["X"]), (2, none)] 2 (by unfold UINT_RANGE; simp)

/-- C9 (as stated) fails when a counter wraps: after `2 ^ 32` documents with
the score 1 and no gold standard, the bucket keyed by 1 has both counters 0,
although `2 ^ 32` documents outside the category have the score 1. -/
theorem C9_counterexample_wrapping_counter :
    (1, (⟨0, 0⟩ : class_d_list_entry)) ∈
      (construct_bits (fun x y : ℚ => x * y) 1 "X"
        (List.replicate 4294967296 ((1 : ℚ), (none : Option (List String))))).1 ∧
    docs_not_in_cat_at (fun x y : ℚ => x * y) 1 "X"
      (List.replicate 4294967296 ((1 : ℚ), (none : Option (List String)))) 1
      = 4294967296 := by
  have hN : docs_not_in_cat_at (fun x y : ℚ => x * y) 1 "X"
      (List.replicate 4294967296 ((1 : ℚ), (none : Option (List String)))) 1
      = 4294967296 := by
    unfold docs_not_in_cat_at
    rw [List.countP_replicate]
    simp [bit_belongs_to_target_cat]
  have hP : docs_in_cat_at (fun x y : ℚ => x * y) 1 "X"
      (List.replicate 4294967296 ((1 : ℚ), (none : Option (List String)))) 1 = 0 := by
    unfold docs_in_cat_at
    rw [List.countP_replicate]
    simp [bit_belongs_to_target_cat]
  refine ⟨?_, hN⟩
  rw [(construct_bits_buckets (fun x y : ℚ => x * y) 1 "X" _).2, hN, hP]
  refine ⟨⟨(1, none), ?_, by norm_num⟩, ?_⟩
  · rw [List.mem_replicate]
    exact ⟨by norm_num, rfl⟩
  · unfold UINT_RANGE
    norm_num

/-! ## The sums of the counters built by the aggregation loop -/

theorem d_list_update_cons_lt (f : class_d_list_entry → class_d_list_entry) {k : ℚ}
    {x : ℚ × class_d_list_entry} (rest : class_d_list) (h : k < x.1) :
    d_list_update f k (x :: rest) = (k, f ⟨0, 0⟩) :: x :: rest := by
  rw [d_list_update, if_pos h]

theorem d_list_update_cons_eq (f : class_d_list_entry → class_d_list_entry) {k : ℚ}
    {x : ℚ × class_d_list_entry} (rest : class_d_list) (h : k = x.1) :
    d_list_update f k (x :: rest) = (x.1, f x.2) :: rest := by
  rw [d_list_update, if_neg (by rw [h]; exact lt_irrefl _), if_pos h]

theorem d_list_update_cons_gt (f : class_d_list_entry → class_d_list_entry) {k : ℚ}
    {x : ℚ × class_d_list_entry} (rest : class_d_list) (h1 : ¬ k < x.1) (h2 : k ≠ x.1) :
    d_list_update f k (x :: rest) = x :: d_list_update f k rest := by
  rw [d_list_update, if_neg h1, if_neg h2]

theorem sum_update_first (k : ℚ) (d : class_d_list)
    (h : sum_first d + 1 < UINT_RANGE) :
    sum_first (d_list_update (fun e => { e with first := uint_incr e.first }) k d)
      = sum_first d + 1 ∧
    sum_second (d_list_update (fun e => { e with first := uint_incr e.first }) k d)
      = sum_second d := by
  induction d with
  | nil =>
    have h0 : uint_incr 0 = 1 := uint_incr_of_lt (by simpa using h)
    simp [d_list_update, h0]
  | cons x rest ih =>
    simp only [sum_first_cons] at h
    by_cases h1 : k < x.1
    · have h0 : uint_incr 0 = 1 := uint_incr_of_lt (by omega)
      rw [d_list_update_cons_lt _ _ h1]
      simp only [sum_first_cons, sum_second_cons, h0]
      constructor <;> first | trivial | omega
    · by_cases h2 : k = x.1
      · have hx : uint_incr x.2.first = x.2.first + 1 := uint_incr_of_lt (by omega)
        rw [d_list_update_cons_eq _ _ h2]
        simp only [sum_first_cons, sum_second_cons, hx]
        constructor <;> first | trivial | omega
      · obtain ⟨ih1, ih2⟩ := ih (by omega)
        rw [d_list_update_cons_gt _ _ h1 h2]
        simp only [sum_first_cons, sum_second_cons, ih1, ih2]
        constructor <;> trivial

theorem sum_update_second (k : ℚ) (d : class_d_list)
    (h : sum_second d + 1 < UINT_RANGE) :
    sum_first (d_list_update (fun e => { e with second := uint_incr e.second }) k d)
      = sum_first d ∧
    sum_second (d_list_update (fun e => { e with second := uint_incr e.second }) k d)
      = sum_second d + 1 := by
  induction d with
  | nil =>
    have h0 : uint_incr 0 = 1 := uint_incr_of_lt (by simpa using h)
    simp [d_list_update, h0]
  | cons x rest ih =>
    simp only [sum_second_cons] at h
    by_cases h1 : k < x.1
    · have h0 : uint_incr 0 = 1 := uint_incr_of_lt (by omega)
      rw [d_list_update_cons_lt _ _ h1]
      simp only [sum_first_cons, sum_second_cons, h0]
      constructor <;> first | trivial | omega
    · by_cases h2 : k = x.1
      · have hx : uint_incr x.2.second = x.2.second + 1 := uint_incr_of_lt (by omega)
        rw [d_list_update_cons_eq _ _ h2]
        simp only [sum_first_cons, sum_second_cons, hx]
        constructor <;> first | trivial | omega
      · obtain ⟨ih1, ih2⟩ := ih (by omega)
        rw [d_list_update_cons_gt _ _ h1 h2]
        simp only [sum_first_cons, sum_second_cons, ih1, ih2]
        constructor <;> trivial

/-- The value of `cat_doc_count` after the aggregation loop: the number of
documents in the target category, modulo `2 ^ 32`. -/
theorem construct_bits_cat_doc_count {V : Type} (dot_product_sparse_vector : V → V → ℚ)
    (W : V) (target_cat_name : String) (docs : List (V × Option (List String))) :
    (construct_bits dot_product_sparse_vector W target_cat_name docs).2
      = docs_in_cat target_cat_name docs % UINT_RANGE := by
  induction docs using List.reverseRecOn with
  | nil => simp [construct_bits, docs_in_cat]
  | append_singleton docs doc ih =>
    rw [construct_bits_concat]
    unfold construct_bits_step docs_in_cat
    simp only
    unfold docs_in_cat at ih
    by_cases hin : bit_belongs_to_target_cat target_cat_name doc.2 = true
    · rw [if_pos hin]
      simp only [ih, uint_incr, List.countP_append, List.countP_cons, List.countP_nil, hin,
        if_true, Nat.zero_add, Nat.mod_add_mod]
    · rw [if_neg hin]
      simp only [ih, List.countP_append, List.countP_cons, List.countP_nil, hin,
        Nat.zero_add]
      simp

/-- C8 (amended): for a document sequence of fewer than `2 ^ 32` documents,
the map and `cat_doc_count` built by the aggregation loop satisfy: the sum of
the `first` counters equals `cat_doc_count`, which is the number of documents
whose gold standard contains the target category; the sum of the `second`
counters is the number of the other documents; and the two sums together are
the number of documents. -/
theorem C8_aggregation_sums (V : Type) (dot_product_sparse_vector : V → V → ℚ)
    (W : V) (target_cat_name : String) (unique_docs : List (V × Option (List String)))
    (hlen : unique_docs.length < UINT_RANGE) :
    sum_first (construct_bits dot_product_sparse_vector W target_cat_name unique_docs).1
      = (construct_bits dot_product_sparse_vector W target_cat_name unique_docs).2 ∧
    (construct_bits dot_product_sparse_vector W target_cat_name unique_docs).2
      = docs_in_cat target_cat_name unique_docs ∧
    sum_second (construct_bits dot_product_sparse_vector W target_cat_name unique_docs).1
      = docs_not_in_cat target_cat_name unique_docs ∧
    sum_first (construct_bits dot_product_sparse_vector W target_cat_name unique_docs).1
      + sum_second
        (construct_bits dot_product_sparse_vector W target_cat_name unique_docs).1
      = unique_docs.length := by
  have hcat : (construct_bits dot_product_sparse_vector W target_cat_name unique_docs).2
      = docs_in_cat target_cat_name unique_docs := by
    rw [construct_bits_cat_doc_count]
    exact Nat.mod_eq_of_lt (lt_of_le_of_lt (List.countP_le_length _) hlen)
  have hsums : sum_first
        (construct_bits dot_product_sparse_vector W target_cat_name unique_docs).1
        = docs_in_cat target_cat_name unique_docs ∧
      sum_second
        (construct_bits dot_product_sparse_vector W target_cat_name unique_docs).1
        = docs_not_in_cat target_cat_name unique_docs ∧
      docs_in_cat target_cat_name unique_docs + docs_not_in_cat target_cat_name unique_docs
        = unique_docs.length := by
    clear hcat
    induction unique_docs using List.reverseRecOn with
    | nil => simp [construct_bits, docs_in_cat, docs_not_in_cat]
    | append_singleton docs doc ih =>
      rw [List.length_append, List.length_singleton] at hlen
      obtain ⟨ih1, ih2, ih3⟩ := ih (by omega)
      rw [construct_bits_concat]
      unfold construct_bits_step
      simp only
      have hin_le : docs_in_cat target_cat_name docs ≤ docs.length :=
        List.countP_le_length _
      have hout_le : docs_not_in_cat target_cat_name docs ≤ docs.length :=
        List.countP_le_length _
      by_cases hin : bit_belongs_to_target_cat target_cat_name doc.2 = true
      · rw [if_pos hin]
        obtain ⟨h1, h2⟩ := sum_update_first (dot_product_sparse_vector doc.1 W)
          (construct_bits dot_product_sparse_vector W target_cat_name docs).1 (by omega)
        have e1 : docs_in_cat target_cat_name (docs ++ [doc])
            = docs_in_cat target_cat_name docs + 1 := by
          unfold docs_in_cat
          simp [List.countP_append, List.countP_cons, hin]
        have e2 : docs_not_in_cat target_cat_name (docs ++ [doc])
            = docs_not_in_cat target_cat_name docs := by
          unfold docs_not_in_cat
          simp [List.countP_append, List.countP_cons, hin]
        simp only [h1, h2, e1, e2, ih1, ih2, List.length_append, List.length_singleton]
        refine ⟨?_, ?_, ?_⟩ <;> first | trivial | rfl | omega
      · rw [if_neg hin]
        have hin2 : bit_belongs_to_target_cat target_cat_name doc.2 = false := by
          simpa using hin
        obtain ⟨h1, h2⟩ := sum_update_second (dot_product_sparse_vector doc.1 W)
          (construct_bits dot_product_sparse_vector W target_cat_name docs).1 (by omega)
        have e1 : docs_in_cat target_cat_name (docs ++ [doc])
            = docs_in_cat target_cat_name docs := by
          unfold docs_in_cat
          simp [List.countP_append, List.countP_cons, hin2]
        have e2 : docs_not_in_cat target_cat_name (docs ++ [doc])
            = docs_not_in_cat target_cat_name docs + 1 := by
          unfold docs_not_in_cat
          simp [List.countP_append, List.countP_cons, hin2]
        simp only [h1, h2, e1, e2, ih1, ih2, List.length_append, List.length_singleton]
        refine ⟨?_, ?_, ?_⟩ <;> first | trivial | rfl | omega
  obtain ⟨h1, h2, h3⟩ := hsums
  refine ⟨by rw [h1, hcat], hcat, h2, ?_⟩
  rw [h1, h2, h3]

theorem C8_aggregation_sums_witness :
    sum_first (construct_bits (fun x y : ℚ => x * y) 1 "X"
        [(2, some ["X"]), (2, none), (3, some ["Y"])]).1
      = (construct_bits (fun x y : ℚ => x * y) 1 "X"
        [(2, some ["X"]), (2, none), (3, some ["Y"])]).2 ∧
    (construct_bits (fun x y : ℚ => x * y) 1 "X"
        [(2, some ["X"]), (2, none), (3, some ["Y"])]).2
      = docs_in_cat "X"
        ([(2, some ["X"]), (2, none), (3, some ["Y"])] : List (ℚ × Option (List String))) ∧
    sum_second (construct_bits (fun x y : ℚ => x * y) 1 "X"
        [(2, some ["X"]), (2, none), (3, some ["Y"])]).1
      = docs_not_in_cat "X"
        ([(2, some ["X"]), (2, none), (3, some ["Y"])] : List (ℚ × Option (List String))) ∧
    sum_first (construct_bits (fun x y : ℚ => x * y) 1 "X"
        [(2, some ["X"]), (2, none), (3, some ["Y"])]).1
      + sum_second (construct_bits (fun x y : ℚ => x * y) 1 "X"
        [(2, some ["X"]), (2, none), (3, some ["Y"])]).1
      = ([(2, some ["X"]), (2, none), (3, some ["Y"])]
          : List (ℚ × Option (List String))).length :=
  C8_aggregation_sums ℚ (fun x y : ℚ => x * y) 1 "X"
    [(2, some ["X"]), (2, none), (3, some ["Y"])] (by unfold UINT_RANGE; simp)

/-- C8 (as stated) fails when `cat_doc_count` wraps: after `2 ^ 32` documents
of the target category the aggregation loop leaves `cat_doc_count = 0`,
which is not the number of documents whose gold standard contains the target
category. -/
theorem C8_counterexample_wrapping_cat_doc_count :
    (construct_bits (fun x y : ℚ => x * y) 1 "X"
      (List.replicate 4294967296 ((1 : ℚ), some ["X"]))).2 = 0 ∧
    docs_in_cat "X" (List.replicate 4294967296 ((1 : ℚ), some ["X"])) = 4294967296 := by
  have hP : docs_in_cat "X" (List.replicate 4294967296 ((1 : ℚ), some ["X"]))
      = 4294967296 := by
    unfold docs_in_cat
    rw [List.countP_replicate]
    simp [bit_belongs_to_target_cat]
  refine ⟨?_, hP⟩
  rw [construct_bits_cat_doc_count, hP]
  unfold UINT_RANGE
  norm_num

/-! ## Further claims on the walk -/

theorem state_after_threshold {cat_doc_count : Nat} :
    ∀ (pre : List (ℚ × class_d_list_entry)) (s0 s : walk_state),
      state_after cat_doc_count pre s0 = some s → s.threshold = s0.threshold := by
  intro pre
  induction pre with
  | nil =>
    intro s0 s h
    simp [state_after] at h
    rw [h]
  | cons x pre ih =>
    intro s0 s h
    simp only [state_after] at h
    cases hx : loop_body cat_doc_count s0 x with
    | next s1 =>
      rw [hx] at h
      simp only at h
      rw [ih s1 s h, (loop_body_next hx).2]
    | leave r => rw [hx] at h; simp at h
    | undefined => rw [hx] at h; simp at h

theorem walk_of_state_after {cat_doc_count : Nat} {ds : List (ℚ × class_d_list_entry)}
    {s0 s : walk_state} (h : state_after cat_doc_count ds s0 = some s) :
    walk cat_doc_count ds s0 =
      some { threshold := s.threshold, b := s.b, c := s.c, stop := .exhausted } := by
  have := walk_append h []
  rw [List.append_nil] at this
  rw [this, walk]

/-- C17 (amended): for a non-empty bucket list and `cat_doc_count > 0` such
that every bucket has `next_b < next_c` when it is processed, so that the
walk visits every bucket and ends in the state `s`, `do_threshold_estimation`
leaves the threshold at the value it had before the call and returns
`0.5 * (precision + recall)` at the final committed `(b, c)`. -/
theorem C17_exhausted_walk_keeps_threshold (cat_doc_count : Nat)
    (bit_string : class_d_list) (threshold : ℚ) (s : walk_state)
    (hne : bit_string ≠ []) (hpos : 0 < cat_doc_count)
    (hs : state_after cat_doc_count bit_string.reverse
      (initial_state cat_doc_count threshold) = some s) :
    walk cat_doc_count bit_string.reverse (initial_state cat_doc_count threshold) =
      some { threshold := threshold, b := s.b, c := s.c, stop := .exhausted } ∧
    do_threshold_estimation cat_doc_count bit_string threshold =
      some (threshold,
        0.5 * (get_precision (uint_sub cat_doc_count s.c) s.b
          + get_recall (uint_sub cat_doc_count s.c) s.c)) := by
  have hth : s.threshold = threshold := by
    rw [state_after_threshold _ _ _ hs]
    rfl
  have hw := walk_of_state_after hs
  rw [hth] at hw
  refine ⟨hw, ?_⟩
  rw [do_threshold_estimation_walk threshold hpos hne, hw]
  rfl

theorem C17_exhausted_walk_keeps_threshold_witness :
    walk 3 ([(5, ⟨1, 0⟩)] : class_d_list).reverse (initial_state 3 7) =
      some { threshold := 7, b := 0, c := 2, stop := .exhausted } ∧
    do_threshold_estimation 3 [(5, ⟨1, 0⟩)] 7 =
      some (7, 0.5 * (get_precision (uint_sub 3 2) 0 + get_recall (uint_sub 3 2) 2)) :=
  have hr : (3 : Nat) < UINT_RANGE := by unfold UINT_RANGE; norm_num
  have h31 : uint_sub 3 1 = 2 := uint_sub_of_le (by omega) hr
  have h00 : uint_add 0 0 = 0 := uint_add_of_lt (by unfold UINT_RANGE; norm_num)
  C17_exhausted_walk_keeps_threshold 3 [(5, ⟨1, 0⟩)] 7
    { b := 0, c := 2, prev_bit := some (5, ⟨1, 0⟩), threshold := 7 }
    (by simp) (by decide)
    (by
      rw [List.reverse_singleton, state_after, loop_body_of_lt]
      · simp only [initial_state, h31, h00, state_after]
      · simp only [initial_state, h31, h00]
        omega)

/-- C17 (as stated) fails: on the single bucket `(5, 1, 0)` with
`cat_doc_count = 3` the walk visits the bucket with `next_b = 0 < next_c = 2`
and runs out of buckets; the threshold keeps its prior value 7, which is not
the score 5 of the last bucket. -/
theorem C17_counterexample_threshold_not_assigned :
    state_after 3 ([(5, ⟨1, 0⟩)] : class_d_list).reverse (initial_state 3 7) =
      some { b := 0, c := 2, prev_bit := some (5, ⟨1, 0⟩), threshold := 7 } ∧
    (∃ BEP, do_threshold_estimation 3 [(5, ⟨1, 0⟩)] 7 = some (7, BEP)) ∧
    (7 : ℚ) ≠ 5 := by
  have hr : (3 : Nat) < UINT_RANGE := by unfold UINT_RANGE; norm_num
  have h31 : uint_sub 3 1 = 2 := uint_sub_of_le (by omega) hr
  have h00 : uint_add 0 0 = 0 := uint_add_of_lt (by unfold UINT_RANGE; norm_num)
  have hs : state_after 3 ([(5, ⟨1, 0⟩)] : class_d_list).reverse (initial_state 3 7) =
      some { b := 0, c := 2, prev_bit := some (5, ⟨1, 0⟩), threshold := 7 } := by
    rw [List.reverse_singleton, state_after, loop_body_of_lt]
    · simp only [initial_state, h31, h00, state_after]
    · simp only [initial_state, h31, h00]
      omega
  refine ⟨hs, ?_, by norm_num⟩
  have hw := walk_of_state_after hs
  rw [do_threshold_estimation_walk 7 (by decide) (by simp), hw]
  exact ⟨_, rfl⟩

/-- C18 (amended), on the formulas of the spec: for `a > 0` and all `b`, `c`,
`precision(a, b) = recall(a, c)` if and only if `b = c`. -/
theorem C18_precision_eq_recall_iff (a b c : Nat) (ha : 0 < a) :
    get_precision a b = get_recall a c ↔ b = c := by
  unfold get_precision get_recall
  rw [if_neg (by omega), if_neg (by omega)]
  have ha0 : (a : ℚ) ≠ 0 := by exact_mod_cast (Nat.pos_iff_ne_zero.mp ha)
  have hb : (a : ℚ) + (b : ℚ) ≠ 0 := by positivity
  have hc : (a : ℚ) + (c : ℚ) ≠ 0 := by positivity
  rw [div_eq_div_iff hb hc]
  constructor
  · intro h
    have h2 : (a : ℚ) * ((c : ℚ) - (b : ℚ)) = 0 := by linarith
    rcases mul_eq_zero.mp h2 with h3 | h3
    · exact absurd h3 ha0
    · have : (c : ℚ) = (b : ℚ) := by linarith
      exact_mod_cast this.symm
  · rintro rfl
    rfl

theorem C18_precision_eq_recall_iff_witness :
    get_precision 3 1 = get_recall 3 1 ↔ (1 : Nat) = 1 :=
  C18_precision_eq_recall_iff 3 1 1 (by decide)

/-- C18 (as stated) fails without true positives: `precision(0, 1)` and
`recall(0, 2)` are both 0, while `1 ≠ 2`. -/
theorem C18_counterexample_no_true_positives :
    get_precision 0 1 = get_recall 0 2 ∧ (1 : Nat) ≠ 2 := by
  constructor
  · unfold get_precision get_recall
    norm_num
  · decide

/-- C14 (the code at the failing input): on the single bucket `(0, 0, 1)`
with `cat_doc_count = 0` the threshold is set to `1.5 * 0 = 0`, which is not
greater than the score 0, and the rule `score >= 0` puts the document in the
category (one false positive). -/
theorem C14_threshold_not_above_zero_score :
    do_threshold_estimation 0 [(0, ⟨0, 1⟩)] 5 = some (0, 1) ∧
    ¬ ((0 : ℚ) < 0) ∧
    false_positives [(0, ⟨0, 1⟩)] 0 = 1 := by
  refine ⟨?_, lt_irrefl _, ?_⟩
  · simp [do_threshold_estimation]
  · norm_num [false_positives, sum_second, List.filter]

/-- C20: for `cat_doc_count > 0` and a highest-score bucket `top` whose
`first` counter is at most `cat_doc_count`, if `next_b > next_c` at that
first bucket, then `prev_diff = 1 > curr_diff`: the code commits
`(next_b, next_c)` and sets the threshold to the score of `top`, and the
branch that reads `prev_bit` is not taken. -/
theorem C20_first_bucket_crossover (cat_doc_count : Nat) (bit_string : class_d_list)
    (threshold : ℚ) (top : ℚ × class_d_list_entry)
    (rest : List (ℚ × class_d_list_entry))
    (hpos : 0 < cat_doc_count) (hr : cat_doc_count < UINT_RANGE)
    (hds : bit_string.reverse = top :: rest)
    (hfirst : top.2.first ≤ cat_doc_count)
    (hx : uint_sub (initial_state cat_doc_count threshold).c top.2.first
      < uint_add (initial_state cat_doc_count threshold).b top.2.second) :
    prev_diff cat_doc_count (initial_state cat_doc_count threshold) = 1 ∧
    curr_diff cat_doc_count (initial_state cat_doc_count threshold) top < 1 ∧
    loop_body cat_doc_count (initial_state cat_doc_count threshold) top =
      .leave { threshold := top.1,
               b := uint_add (initial_state cat_doc_count threshold).b top.2.second,
               c := uint_sub (initial_state cat_doc_count threshold).c top.2.first,
               stop := .crossover_curr } ∧
    do_threshold_estimation cat_doc_count bit_string threshold =
      some (top.1, interpolated_BEP cat_doc_count
        { threshold := top.1,
          b := uint_add (initial_state cat_doc_count threshold).b top.2.second,
          c := uint_sub (initial_state cat_doc_count threshold).c top.2.first,
          stop := .crossover_curr }) := by
  have hp := prev_diff_initial threshold hpos hr
  have hc := curr_diff_initial_lt_one threshold top hpos hr hfirst
  have hb := loop_body_crossover_curr hx (by rw [hp]; exact hc)
  have hne : bit_string ≠ [] := by
    rintro rfl
    simp at hds
  refine ⟨hp, hc, hb, ?_⟩
  rw [do_threshold_estimation_walk threshold hpos hne, hds, walk, hb]
  rfl

theorem C20_first_bucket_crossover_witness :
    prev_diff 1 (initial_state 1 0) = 1 ∧
    curr_diff 1 (initial_state 1 0) (5, ⟨1, 2⟩) < 1 ∧
    loop_body 1 (initial_state 1 0) (5, ⟨1, 2⟩) =
      .leave { threshold := 5,
               b := uint_add (initial_state 1 0).b 2,
               c := uint_sub (initial_state 1 0).c 1,
               stop := .crossover_curr } ∧
    do_threshold_estimation 1 [(5, ⟨1, 2⟩)] 0 =
      some (5, interpolated_BEP 1
        { threshold := 5,
          b := uint_add (initial_state 1 0).b 2,
          c := uint_sub (initial_state 1 0).c 1,
          stop := .crossover_curr }) :=
  have h11 : uint_sub 1 1 = 0 := uint_sub_of_le (le_refl 1) one_lt_UINT_RANGE
  have h02 : uint_add 0 2 = 2 := uint_add_of_lt (by unfold UINT_RANGE; norm_num)
  C20_first_bucket_crossover 1 [(5, ⟨1, 2⟩)] 0 (5, ⟨1, 2⟩) []
    (by decide) one_lt_UINT_RANGE (by simp) (by decide)
    (by
      show uint_sub 1 1 < uint_add 0 2
      rw [h11, h02]
      omega)

/-- C19 (amended): for a bucket list with `cat_doc_count` equal to the sum of
the `first` counters, at the start of the loop iteration that processes the
bucket `bit`, after the buckets `pre` were committed: `c` is the sum of the
`first` counters of the buckets not yet committed, so that
`bit.first <= c <= cat_doc_count`, neither `c - bit.first` nor
`cat_doc_count - c` wraps, and `a + c = cat_doc_count`; `b` is the sum of the
`second` counters of the committed buckets modulo `2 ^ 32`, hence that sum
itself when it is below `2 ^ 32`. -/
theorem C19_walk_state_invariant (cat_doc_count : Nat) (bit_string : class_d_list)
    (threshold : ℚ) (pre post : List (ℚ × class_d_list_entry))
    (bit : ℚ × class_d_list_entry) (s : walk_state)
    (hr : cat_doc_count < UINT_RANGE)
    (hsum : sum_first bit_string = cat_doc_count)
    (hds : bit_string.reverse = pre ++ bit :: post)
    (hs : state_after cat_doc_count pre (initial_state cat_doc_count threshold) = some s) :
    s.c = sum_first (bit :: post) ∧
    bit.2.first ≤ s.c ∧
    uint_sub s.c bit.2.first = s.c - bit.2.first ∧
    s.c ≤ cat_doc_count ∧
    uint_sub cat_doc_count s.c = cat_doc_count - s.c ∧
    uint_sub cat_doc_count s.c + s.c = cat_doc_count ∧
    s.b = sum_second pre % UINT_RANGE ∧
    (sum_second pre < UINT_RANGE → s.b = sum_second pre) := by
  have hsum2 : sum_first pre + (bit.2.first + sum_first post) = cat_doc_count := by
    have := congrArg sum_first hds
    simp only [sum_first_reverse, sum_first_append, sum_first_cons] at this
    omega
  obtain ⟨hc, hb, _⟩ := state_after_counters pre _ s hs
    (by simp only [initial_state]; omega) (by simpa [initial_state] using hr)
    (by simp [initial_state, UINT_RANGE])
  simp only [initial_state, Nat.zero_add] at hc hb
  have hc2 : s.c = sum_first (bit :: post) := by
    rw [sum_first_cons]
    omega
  have hle : s.c ≤ cat_doc_count := by omega
  have ha : uint_sub cat_doc_count s.c = cat_doc_count - s.c := uint_sub_of_le hle hr
  refine ⟨hc2, ?_, uint_sub_of_le (by omega) (by omega), hle, ha, ?_, hb, ?_⟩
  · omega
  · rw [ha]
    omega
  · intro hlt
    rw [hb, Nat.mod_eq_of_lt hlt]

theorem C19_walk_state_invariant_witness :
    (⟨0, 1, some (5, ⟨1, 0⟩), 0⟩ : walk_state).c = sum_first ((3, ⟨1, 1⟩) :: []) ∧
    ((3, ⟨1, 1⟩) : ℚ × class_d_list_entry).2.first
      ≤ (⟨0, 1, some (5, ⟨1, 0⟩), 0⟩ : walk_state).c ∧
    uint_sub (⟨0, 1, some (5, ⟨1, 0⟩), 0⟩ : walk_state).c
        ((3, ⟨1, 1⟩) : ℚ × class_d_list_entry).2.first
      = (⟨0, 1, some (5, ⟨1, 0⟩), 0⟩ : walk_state).c
        - ((3, ⟨1, 1⟩) : ℚ × class_d_list_entry).2.first ∧
    (⟨0, 1, some (5, ⟨1, 0⟩), 0⟩ : walk_state).c ≤ 2 ∧
    uint_sub 2 (⟨0, 1, some (5, ⟨1, 0⟩), 0⟩ : walk_state).c
      = 2 - (⟨0, 1, some (5, ⟨1, 0⟩), 0⟩ : walk_state).c ∧
    uint_sub 2 (⟨0, 1, some (5, ⟨1, 0⟩), 0⟩ : walk_state).c
      + (⟨0, 1, some (5, ⟨1, 0⟩), 0⟩ : walk_state).c = 2 ∧
    (⟨0, 1, some (5, ⟨1, 0⟩), 0⟩ : walk_state).b
      = sum_second [(5, ⟨1, 0⟩)] % UINT_RANGE ∧
    (sum_second [(5, ⟨1, 0⟩)] < UINT_RANGE →
      (⟨0, 1, some (5, ⟨1, 0⟩), 0⟩ : walk_state).b = sum_second [(5, ⟨1, 0⟩)]) :=
  have hr : (2 : Nat) < UINT_RANGE := by unfold UINT_RANGE; norm_num
  have h21 : uint_sub 2 1 = 1 := uint_sub_of_le (by omega) hr
  have h00 : uint_add 0 0 = 0 := uint_add_of_lt (by unfold UINT_RANGE; norm_num)
  C19_walk_state_invariant 2 [(3, ⟨1, 1⟩), (5, ⟨1, 0⟩)] 0 [(5, ⟨1, 0⟩)] [] (3, ⟨1, 1⟩)
    ⟨0, 1, some (5, ⟨1, 0⟩), 0⟩ hr (by decide) (by simp)
    (by
      rw [state_after, loop_body_of_lt]
      · simp only [initial_state, h21, h00, state_after]
      · simp only [initial_state, h21, h00]
        omega)

/-- C19 (as stated) fails when `b` wraps: with the buckets `(10, 0, 2 ^ 31)`,
`(9, 0, 2 ^ 31)`, `(8, 2 ^ 32 - 1, 0)` and `cat_doc_count = 2 ^ 32 - 1`, the
sum of the `first` counters, the iteration that processes the bucket of 8
starts with `b = 0`, while the two committed buckets hold `2 ^ 32` documents
outside the category. -/
theorem C19_counterexample_wrapping_b :
    map_ordered [(8, ⟨4294967295, 0⟩), (9, ⟨0, 2147483648⟩), (10, ⟨0, 2147483648⟩)] ∧
    sum_first [(8, ⟨4294967295, 0⟩), (9, ⟨0, 2147483648⟩), (10, ⟨0, 2147483648⟩)]
      = 4294967295 ∧
    ([(8, ⟨4294967295, 0⟩), (9, ⟨0, 2147483648⟩), (10, ⟨0, 2147483648⟩)]
        : class_d_list).reverse
      = [(10, ⟨0, 2147483648⟩), (9, ⟨0, 2147483648⟩)] ++ (8, ⟨4294967295, 0⟩) :: [] ∧
    state_after 4294967295 [(10, ⟨0, 2147483648⟩), (9, ⟨0, 2147483648⟩)]
        (initial_state 4294967295 0)
      = some { b := 0, c := 4294967295, prev_bit := some (9, ⟨0, 2147483648⟩),
               threshold := 0 } ∧
    sum_second [(10, ⟨0, 2147483648⟩), (9, ⟨0, 2147483648⟩)] = 4294967296 := by
  have hr : 4294967295 < UINT_RANGE := by unfold UINT_RANGE; norm_num
  have hA1 : uint_add 0 2147483648 = 2147483648 :=
    uint_add_of_lt (by unfold UINT_RANGE; norm_num)
  have hS1 : uint_sub 4294967295 0 = 4294967295 := uint_sub_of_le (by omega) hr
  have hA2 : uint_add 2147483648 2147483648 = 0 := by
    unfold uint_add UINT_RANGE; norm_num
  refine ⟨?_, ?_, by simp, ?_, ?_⟩
  · unfold map_ordered; simp; norm_num
  · norm_num [sum_first]
  · have h1 : uint_add (initial_state 4294967295 0).b
        ((10, ⟨0, 2147483648⟩) : ℚ × class_d_list_entry).2.second
        < uint_sub (initial_state 4294967295 0).c
          ((10, ⟨0, 2147483648⟩) : ℚ × class_d_list_entry).2.first := by
      simp only [initial_state, hA1, hS1]
      norm_num
    rw [state_after, loop_body_of_lt h1]
    simp only [initial_state, hA1, hS1]
    rw [state_after, loop_body_of_lt]
    · simp only [hA2, hS1, state_after]
    · simp only [hA2, hS1]
      norm_num
  · norm_num [sum_second]

/-! ## The empty target category -/

/-- The maximum computed by the loop of `estimate_Th` over the dot products,
from the initial value `m0`. -/
theorem foldl_max_dot_product {V : Type} (dot_product_sparse_vector : V → V → ℚ) (W : V) :
    ∀ (docs : List (V × Option (List String))) (m0 : ℚ),
      m0 ≤ docs.foldl (fun m doc =>
          let result := dot_product_sparse_vector doc.1 W
          if result > m then result else m) m0 ∧
      (∀ doc ∈ docs, dot_product_sparse_vector doc.1 W ≤ docs.foldl (fun m doc =>
          let result := dot_product_sparse_vector doc.1 W
          if result > m then result else m) m0) ∧
      (docs.foldl (fun m doc =>
          let result := dot_product_sparse_vector doc.1 W
          if result > m then result else m) m0 = m0 ∨
        ∃ doc ∈ docs, dot_product_sparse_vector doc.1 W = docs.foldl (fun m doc =>
          let result := dot_product_sparse_vector doc.1 W
          if result > m then result else m) m0) := by
  intro docs
  induction docs with
  | nil =>
    intro m0
    simp
  | cons d docs ih =>
    intro m0
    simp only [List.foldl_cons]
    by_cases h : dot_product_sparse_vector d.1 W > m0
    · simp only [h, if_true]
      obtain ⟨h1, h2, h3⟩ := ih (dot_product_sparse_vector d.1 W)
      refine ⟨le_trans (le_of_lt h) h1, ?_, ?_⟩
      · intro doc hdoc
        rcases List.mem_cons.mp hdoc with hd | hd
        · rw [hd]; exact h1
        · exact h2 doc hd
      · right
        rcases h3 with h3 | ⟨doc, hdoc, h3⟩
        · exact ⟨d, List.mem_cons_self _ _, h3.symm⟩
        · exact ⟨doc, List.mem_cons_of_mem _ hdoc, h3⟩
    · simp only [h, if_false]
      obtain ⟨h1, h2, h3⟩ := ih m0
      refine ⟨h1, ?_, ?_⟩
      · intro doc hdoc
        rcases List.mem_cons.mp hdoc with hd | hd
        · rw [hd]; exact le_trans (not_lt.mp h) h1
        · exact h2 doc hd
      · rcases h3 with h3 | ⟨doc, hdoc, h3⟩
        · exact Or.inl h3
        · exact Or.inr ⟨doc, List.mem_cons_of_mem _ hdoc, h3⟩

/-- With `cat_doc_count = 0` and a non-empty ordered map the threshold is 1.5
times the highest key. -/
theorem do_threshold_estimation_zero {bit_string : class_d_list} (threshold : ℚ)
    (hne : bit_string ≠ []) (hord : map_ordered bit_string) :
    ∃ top ∈ bit_string, (∀ x ∈ bit_string, x.1 ≤ top.1) ∧
      do_threshold_estimation 0 bit_string threshold = some (1.5 * top.1, 1) := by
  rcases List.eq_nil_or_concat bit_string with h0 | ⟨p, top, hp⟩
  · exact absurd h0 hne
  · rw [List.concat_eq_append] at hp
    subst hp
    refine ⟨top, by simp, ?_, by simp [do_threshold_estimation]⟩
    intro x hx
    unfold map_ordered at hord
    rw [List.pairwise_append] at hord
    rcases List.mem_append.mp hx with h | h
    · exact le_of_lt (hord.2.2 x h top (by simp))
    · simp at h
      rw [h]

/-! ## The order of the documents -/

/-- Two ordered maps with the same buckets are equal. -/
theorem map_ordered_ext {d1 d2 : class_d_list} (h1 : map_ordered d1) (h2 : map_ordered d2)
    (h : ∀ x, x ∈ d1 ↔ x ∈ d2) : d1 = d2 := by
  unfold map_ordered at h1 h2
  have hirr : IsIrrefl (ℚ × class_d_list_entry) (fun x y => x.1 < y.1) :=
    ⟨fun x => lt_irrefl x.1⟩
  have hanti : IsAntisymm (ℚ × class_d_list_entry) (fun x y => x.1 < y.1) :=
    ⟨fun a b hab hba => absurd hab (lt_asymm hba)⟩
  have n1 : d1.Nodup := @List.Pairwise.nodup _ d1 _ hirr h1
  have n2 : d2.Nodup := @List.Pairwise.nodup _ d2 _ hirr h2
  have hperm : d1.Perm d2 := (List.perm_ext_iff_of_nodup n1 n2).mpr h
  exact @List.eq_of_perm_of_sorted (ℚ × class_d_list_entry)
    (fun (x y : ℚ × class_d_list_entry) => x.1 < y.1) hanti d1 d2 hperm h1 h2

theorem construct_bits_perm {V : Type} (dot_product_sparse_vector : V → V → ℚ)
    (W : V) (target_cat_name : String) {docs1 docs2 : List (V × Option (List String))}
    (hperm : docs1.Perm docs2) :
    construct_bits dot_product_sparse_vector W target_cat_name docs1 =
      construct_bits dot_product_sparse_vector W target_cat_name docs2 := by
  obtain ⟨ho1, hi1⟩ :=
    construct_bits_buckets dot_product_sparse_vector W target_cat_name docs1
  obtain ⟨ho2, hi2⟩ :=
    construct_bits_buckets dot_product_sparse_vector W target_cat_name docs2
  have hcat := construct_bits_cat_doc_count dot_product_sparse_vector W target_cat_name docs1
  have hcat2 := construct_bits_cat_doc_count dot_product_sparse_vector W target_cat_name docs2
  have hd : (construct_bits dot_product_sparse_vector W target_cat_name docs1).1 =
      (construct_bits dot_product_sparse_vector W target_cat_name docs2).1 := by
    apply map_ordered_ext ho1 ho2
    rintro ⟨s, e⟩
    rw [hi1, hi2]
    have hex : (∃ doc ∈ docs1, dot_product_sparse_vector doc.1 W = s) ↔
        (∃ doc ∈ docs2, dot_product_sparse_vector doc.1 W = s) := by
      constructor
      · rintro ⟨doc, hdoc, hs⟩
        exact ⟨doc, hperm.mem_iff.mp hdoc, hs⟩
      · rintro ⟨doc, hdoc, hs⟩
        exact ⟨doc, hperm.mem_iff.mpr hdoc, hs⟩
    have hp : docs_in_cat_at dot_product_sparse_vector W target_cat_name docs1 s =
        docs_in_cat_at dot_product_sparse_vector W target_cat_name docs2 s :=
      List.Perm.countP_eq _ hperm
    have hn : docs_not_in_cat_at dot_product_sparse_vector W target_cat_name docs1 s =
        docs_not_in_cat_at dot_product_sparse_vector W target_cat_name docs2 s :=
      List.Perm.countP_eq _ hperm
    rw [hex, hp, hn]
  have hc : (construct_bits dot_product_sparse_vector W target_cat_name docs1).2 =
      (construct_bits dot_product_sparse_vector W target_cat_name docs2).2 := by
    rw [hcat, hcat2]
    unfold docs_in_cat
    rw [List.Perm.countP_eq _ hperm]
  exact Prod.ext hd hc

theorem max_dot_product_perm {V : Type} (dot_product_sparse_vector : V → V → ℚ) (W : V)
    {docs1 docs2 : List (V × Option (List String))} (hperm : docs1.Perm docs2) :
    docs1.foldl (fun m doc =>
        let result := dot_product_sparse_vector doc.1 W
        if result > m then result else m) 0 =
      docs2.foldl (fun m doc =>
        let result := dot_product_sparse_vector doc.1 W
        if result > m then result else m) 0 := by
  apply List.Perm.foldl_eq' hperm
  intro x _ y _ z
  simp only
  split_ifs <;> first | rfl | linarith

/-- C16: for every document sequence and every permutation of it, the
aggregation loop builds the same map and the same `cat_doc_count`, and
`estimate_Th` writes the same threshold and returns the same BEP. -/
theorem C16_document_order_irrelevant (V : Type)
    (dot_product_sparse_vector : V → V → ℚ)
    (docs1 docs2 : List (V × Option (List String)))
    (unique_docs_in_target_cat : List V) (target_cat_name : String)
    (target_cat_classifier : class_classifier V) (hperm : docs1.Perm docs2) :
    construct_bits dot_product_sparse_vector target_cat_classifier.second
        target_cat_name docs1 =
      construct_bits dot_product_sparse_vector target_cat_classifier.second
        target_cat_name docs2 ∧
    estimate_Th dot_product_sparse_vector docs1 unique_docs_in_target_cat
        target_cat_name target_cat_classifier =
      estimate_Th dot_product_sparse_vector docs2 unique_docs_in_target_cat
        target_cat_name target_cat_classifier := by
  have hb := construct_bits_perm dot_product_sparse_vector target_cat_classifier.second
    target_cat_name hperm
  refine ⟨hb, ?_⟩
  unfold estimate_Th
  simp only
  rw [hb, max_dot_product_perm dot_product_sparse_vector target_cat_classifier.second hperm]

theorem C16_document_order_irrelevant_witness :
    construct_bits (fun x y : ℚ => x * y) (⟨0, 1⟩ : class_classifier ℚ).second "X"
        [(2, some ["X"]), (3, none)] =
      construct_bits (fun x y : ℚ => x * y) (⟨0, 1⟩ : class_classifier ℚ).second "X"
        [(3, none), (2, some ["X"])] ∧
    estimate_Th (fun x y : ℚ => x * y) [(2, some ["X"]), (3, none)] [2] "X" ⟨0, 1⟩ =
      estimate_Th (fun x y : ℚ => x * y) [(3, none), (2, some ["X"])] [2] "X" ⟨0, 1⟩ :=
  C16_document_order_irrelevant ℚ (fun x y : ℚ => x * y) [(2, some ["X"]), (3, none)]
    [(3, none), (2, some ["X"])] [2] "X" ⟨0, 1⟩ (List.Perm.swap _ _ _)

/-! ## The walk for every input: it returns, and the prior threshold -/

theorem UINT_RANGE_eq : UINT_RANGE = 4294967296 := by
  unfold UINT_RANGE
  norm_num

theorem uint_sub_lt (x y : Nat) : uint_sub x y < UINT_RANGE := by
  unfold uint_sub
  exact Nat.mod_lt _ (by rw [UINT_RANGE_eq]; norm_num)

theorem uint_sub_eq_zero {x y : Nat} (hx : x < UINT_RANGE) (hy : y < UINT_RANGE)
    (h : uint_sub x y = 0) : x = y := by
  unfold uint_sub at h
  rw [UINT_RANGE_eq] at h hx hy
  omega

theorem uint_sub_add_mod (x y : Nat) :
    (uint_sub x y + y) % UINT_RANGE = x % UINT_RANGE := by
  unfold uint_sub
  rw [UINT_RANGE_eq]
  omega

/-- At the first bucket `curr_diff < 1`, whatever the bucket is. -/
theorem curr_diff_initial_lt_one_any {cat_doc_count : Nat} (threshold : ℚ)
    (bit : ℚ × class_d_list_entry)
    (hpos : 0 < cat_doc_count) (hr : cat_doc_count < UINT_RANGE) :
    curr_diff cat_doc_count (initial_state cat_doc_count threshold) bit < 1 := by
  unfold curr_diff initial_state
  simp only
  have h1 := get_recall_le_one
    (uint_sub cat_doc_count (uint_sub cat_doc_count bit.2.first))
    (uint_sub cat_doc_count bit.2.first)
  have h2 := get_precision_nonneg
    (uint_sub cat_doc_count (uint_sub cat_doc_count bit.2.first))
    (uint_add 0 bit.2.second)
  rcases Nat.eq_zero_or_pos
    (uint_sub cat_doc_count (uint_sub cat_doc_count bit.2.first)) with h0 | h0
  · have hnc : cat_doc_count = uint_sub cat_doc_count bit.2.first :=
      uint_sub_eq_zero hr (uint_sub_lt _ _) h0
    have : get_recall (uint_sub cat_doc_count (uint_sub cat_doc_count bit.2.first))
        (uint_sub cat_doc_count bit.2.first) = 0 := by
      rw [h0, ← hnc]
      unfold get_recall
      rw [if_neg (by omega)]
      simp
    rw [this]
    linarith
  · have : 0 < get_precision
        (uint_sub cat_doc_count (uint_sub cat_doc_count bit.2.first))
        (uint_add 0 bit.2.second) := by
      unfold get_precision
      rw [if_neg (by omega)]
      have : (0 : ℚ) <
          ((uint_sub cat_doc_count (uint_sub cat_doc_count bit.2.first) : Nat) : ℚ) := by
        exact_mod_cast h0
      positivity
    linarith

/-- For `0 < cat_doc_count < 2 ^ 32` the walk never reads `prev_bit` while it
is the past-the-end iterator: it returns a result on every bucket list. -/
theorem walk_returns {cat_doc_count : Nat} (threshold : ℚ)
    (hpos : 0 < cat_doc_count) (hr : cat_doc_count < UINT_RANGE)
    (ds : List (ℚ × class_d_list_entry)) :
    ∃ r, walk cat_doc_count ds (initial_state cat_doc_count threshold) = some r ∧
      (r.stop = .exhausted →
        ∃ s, state_after cat_doc_count ds (initial_state cat_doc_count threshold)
          = some s) := by
  rcases walk_cut cat_doc_count ds (initial_state cat_doc_count threshold) with
    ⟨s1, h1⟩ | ⟨pre, bit, post, s1, hds, hs1, hnot⟩
  · exact ⟨_, walk_of_state_after h1, fun _ => ⟨s1, h1⟩⟩
  · subst hds
    cases hx : loop_body cat_doc_count s1 bit with
    | next s2 => exact absurd hx (hnot s2)
    | leave r =>
      refine ⟨r, ?_, ?_⟩
      · rw [walk_append hs1]
        simp [walk, hx]
      · intro hstop
        exfalso
        rcases loop_body_leave hx with ⟨_, hr1⟩ | ⟨_, _, hr1⟩ | ⟨_, _, p, _, hr1⟩ <;>
          · rw [hr1] at hstop
            cases hstop
    | undefined =>
      exfalso
      obtain ⟨hnone, _, hdiff⟩ := loop_body_undefined hx
      have hpre : pre = [] := by
        by_contra hne
        have := (state_after_prev hs1 hne).1
        rw [hnone] at this
        cases hl : pre.getLast? with
        | none => exact hne (List.getLast?_eq_none_iff.mp hl)
        | some y => rw [hl] at this; cases this
      subst hpre
      simp [state_after] at hs1
      subst hs1
      apply hdiff
      rw [prev_diff_initial threshold hpos hr]
      exact curr_diff_initial_lt_one_any threshold bit hpos hr

/-- The loop body reads the threshold only to hand it on. -/
theorem loop_body_threshold (cat_doc_count : Nat) (s : walk_state) (t : ℚ)
    (bit : ℚ × class_d_list_entry) :
    loop_body cat_doc_count { s with threshold := t } bit =
      match loop_body cat_doc_count s bit with
      | .next s1 => .next { s1 with threshold := t }
      | .leave r => .leave r
      | .undefined => .undefined := by
  unfold loop_body
  simp only
  split_ifs
  · rfl
  · cases s.prev_bit <;> rfl
  · rfl
  · rfl

/-- A walk that leaves the loop by a `break` does not depend on the prior
value of the threshold. -/
theorem walk_threshold_irrelevant {cat_doc_count : Nat} :
    ∀ (ds : List (ℚ × class_d_list_entry)) (s : walk_state) (t : ℚ) (r : walk_result),
      walk cat_doc_count ds s = some r → r.stop ≠ .exhausted →
      walk cat_doc_count ds { s with threshold := t } = some r := by
  intro ds
  induction ds with
  | nil =>
    intro s t r h hstop
    simp only [walk, Option.some.injEq] at h
    rw [← h] at hstop
    exact absurd rfl hstop
  | cons x ds ih =>
    intro s t r h hstop
    simp only [walk] at h ⊢
    rw [loop_body_threshold]
    cases hx : loop_body cat_doc_count s x with
    | next s1 =>
      rw [hx] at h
      simp only at h ⊢
      exact ih s1 t r h hstop
    | leave r1 =>
      rw [hx] at h
      simpa using h
    | undefined =>
      rw [hx] at h
      simp at h

theorem state_after_c_mod {cat_doc_count : Nat} :
    ∀ (pre : List (ℚ × class_d_list_entry)) (s0 s : walk_state),
      state_after cat_doc_count pre s0 = some s →
      (s.c + sum_first pre) % UINT_RANGE = s0.c % UINT_RANGE := by
  intro pre
  induction pre with
  | nil =>
    intro s0 s h
    simp [state_after] at h
    rw [h]
    simp
  | cons x pre ih =>
    intro s0 s h
    simp only [state_after] at h
    cases hx : loop_body cat_doc_count s0 x with
    | next s1 =>
      rw [hx] at h
      simp only at h
      have h1 := ih s1 s h
      have h2 : s1.c = uint_sub s0.c x.2.first := by rw [(loop_body_next hx).2]
      have h3 := uint_sub_add_mod s0.c x.2.first
      rw [← h2] at h3
      rw [sum_first_cons]
      rw [UINT_RANGE_eq] at h1 h3 ⊢
      omega
    | leave r => rw [hx] at h; simp at h
    | undefined => rw [hx] at h; simp at h

/-- When `cat_doc_count` is the sum of the `first` counters modulo `2 ^ 32`,
the walk does not run out of buckets. -/
theorem walk_not_exhausted_mod {cat_doc_count : Nat} (threshold : ℚ)
    {ds : List (ℚ × class_d_list_entry)} (hne : ds ≠ [])
    (hsum : sum_first ds % UINT_RANGE = cat_doc_count % UINT_RANGE) :
    state_after cat_doc_count ds (initial_state cat_doc_count threshold) = none := by
  cases hs : state_after cat_doc_count ds (initial_state cat_doc_count threshold) with
  | none => rfl
  | some s =>
    exfalso
    rcases List.eq_nil_or_concat ds with h0 | ⟨p, x, hpx⟩
    · exact hne h0
    · rw [List.concat_eq_append] at hpx
      subst hpx
      obtain ⟨s1, hs1, hx⟩ := state_after_concat hs
      have h1 := state_after_c_mod p _ s1 hs1
      simp only [initial_state] at h1
      obtain ⟨hlt, _⟩ := loop_body_next hx
      have h3 := uint_sub_add_mod s1.c x.2.first
      have h4 := uint_sub_lt s1.c x.2.first
      simp only [sum_first_append, sum_first_cons, sum_first_nil] at hsum
      rw [UINT_RANGE_eq] at h1 h3 h4 hsum
      omega

theorem sum_update_first_mod (k : ℚ) (d : class_d_list) :
    sum_first (d_list_update (fun e => { e with first := uint_incr e.first }) k d)
        % UINT_RANGE
      = (sum_first d + 1) % UINT_RANGE := by
  induction d with
  | nil =>
    simp only [d_list_update, sum_first_cons, sum_first_nil, uint_incr]
    rw [UINT_RANGE_eq]
  | cons x rest ih =>
    by_cases h1 : k < x.1
    · rw [d_list_update_cons_lt _ _ h1]
      simp only [sum_first_cons, uint_incr]
      rw [UINT_RANGE_eq]
      omega
    · by_cases h2 : k = x.1
      · rw [d_list_update_cons_eq _ _ h2]
        simp only [sum_first_cons, uint_incr]
        rw [UINT_RANGE_eq]
        omega
      · rw [d_list_update_cons_gt _ _ h1 h2]
        simp only [sum_first_cons]
        rw [UINT_RANGE_eq] at ih ⊢
        omega

theorem sum_first_update_second (k : ℚ) (d : class_d_list) :
    sum_first (d_list_update (fun e => { e with second := uint_incr e.second }) k d)
      = sum_first d := by
  induction d with
  | nil => simp [d_list_update]
  | cons x rest ih =>
    by_cases h1 : k < x.1
    · rw [d_list_update_cons_lt _ _ h1]
      simp
    · by_cases h2 : k = x.1
      · rw [d_list_update_cons_eq _ _ h2]
        simp
      · rw [d_list_update_cons_gt _ _ h1 h2]
        simp [ih]

/-- The map and `cat_doc_count` built by the aggregation loop agree modulo
`2 ^ 32`, for every document sequence. -/
theorem construct_bits_sum_first_mod {V : Type} (dot_product_sparse_vector : V → V → ℚ)
    (W : V) (target_cat_name : String) (docs : List (V × Option (List String))) :
    sum_first (construct_bits dot_product_sparse_vector W target_cat_name docs).1
        % UINT_RANGE
      = (construct_bits dot_product_sparse_vector W target_cat_name docs).2 % UINT_RANGE ∧
    (construct_bits dot_product_sparse_vector W target_cat_name docs).2 < UINT_RANGE := by
  induction docs using List.reverseRecOn with
  | nil =>
    simp [construct_bits, UINT_RANGE_eq]
  | append_singleton docs doc ih =>
    obtain ⟨ih1, ih2⟩ := ih
    rw [construct_bits_concat]
    unfold construct_bits_step
    simp only
    by_cases hin : bit_belongs_to_target_cat target_cat_name doc.2 = true
    · rw [if_pos hin]
      simp only
      have h := sum_update_first_mod (dot_product_sparse_vector doc.1 W)
        (construct_bits dot_product_sparse_vector W target_cat_name docs).1
      refine ⟨?_, ?_⟩
      · rw [h]
        unfold uint_incr
        rw [UINT_RANGE_eq] at ih1 ⊢
        omega
      · unfold uint_incr
        exact Nat.mod_lt _ (by rw [UINT_RANGE_eq]; norm_num)
    · rw [if_neg hin]
      simp only
      rw [sum_first_update_second]
      exact ⟨ih1, ih2⟩

/-- For `cat_doc_count` below `2 ^ 32` and equal, modulo `2 ^ 32`, to the sum
of the `first` counters, `do_threshold_estimation` returns a result that
does not depend on the prior value of the threshold. -/
theorem do_threshold_estimation_prior {cat_doc_count : Nat} {bit_string : class_d_list}
    (hr : cat_doc_count < UINT_RANGE)
    (hsum : sum_first bit_string % UINT_RANGE = cat_doc_count % UINT_RANGE) :
    ∃ Th BEP, ∀ t, do_threshold_estimation cat_doc_count bit_string t = some (Th, BEP) := by
  by_cases hnil : bit_string = []
  · subst hnil
    exact ⟨0, 1, fun t => do_threshold_estimation_nil _ t⟩
  · by_cases h0 : cat_doc_count = 0
    · subst h0
      unfold do_threshold_estimation
      cases hrev : bit_string.reverse with
      | nil => exact absurd (List.reverse_eq_nil_iff.mp hrev) hnil
      | cons x rest => exact ⟨1.5 * x.1, 1, fun t => by simp⟩
    · have hpos : 0 < cat_doc_count := Nat.pos_of_ne_zero h0
      obtain ⟨r, hw, hex⟩ := walk_returns 0 hpos hr bit_string.reverse
      have hnot : r.stop ≠ .exhausted := by
        intro hstop
        obtain ⟨s, hs⟩ := hex hstop
        rw [walk_not_exhausted_mod 0 (by simpa using hnil) (by simpa using hsum)] at hs
        cases hs
      refine ⟨r.threshold, interpolated_BEP cat_doc_count r, fun t => ?_⟩
      have := walk_threshold_irrelevant bit_string.reverse
        (initial_state cat_doc_count 0) t r hw hnot
      rw [do_threshold_estimation_walk t hpos hnil]
      have hinit : ({ initial_state cat_doc_count 0 with threshold := t } : walk_state)
          = initial_state cat_doc_count t := rfl
      rw [hinit] at this
      rw [this]
      rfl

/-- The result of `estimate_Th` does not depend on the prior value of the
threshold in the classifier record. -/
theorem estimate_Th_prior {V : Type} (dot_product_sparse_vector : V → V → ℚ)
    (unique_docs : List (V × Option (List String)))
    (unique_docs_in_target_cat : List V) (target_cat_name : String) (W : V) :
    ∃ Th BEP, ∀ t, estimate_Th dot_product_sparse_vector unique_docs
      unique_docs_in_target_cat target_cat_name { threshold := t, second := W } =
      some ({ threshold := Th, second := W }, BEP) := by
  by_cases hemp : unique_docs_in_target_cat.isEmpty = true
  · refine ⟨1.5 * unique_docs.foldl (fun m doc =>
        let result := dot_product_sparse_vector doc.1 W
        if result > m then result else m) 0, 1, fun t => ?_⟩
    unfold estimate_Th
    rw [if_pos hemp]
  · obtain ⟨h1, h2⟩ := construct_bits_sum_first_mod dot_product_sparse_vector W
      target_cat_name unique_docs
    obtain ⟨Th, BEP, h⟩ := do_threshold_estimation_prior h2 h1
    refine ⟨Th, BEP, fun t => ?_⟩
    unfold estimate_Th
    rw [if_neg hemp]
    simp only
    rw [h t]

/-- C12: `estimate_Th` returns, overwrites the threshold, and is
deterministic in the prior threshold: for every document collection, dot
product, gold standards, target category name and list of documents in the
category, the runs from two prior values `t1` and `t2` of the threshold write
the same threshold `Th` and return the same BEP, and so does a run on the
record left by the first run. -/
theorem C12_estimate_Th_overwrites_threshold (V : Type)
    (dot_product_sparse_vector : V → V → ℚ)
    (unique_docs : List (V × Option (List String)))
    (unique_docs_in_target_cat : List V) (target_cat_name : String) (W : V)
    (t1 t2 : ℚ) :
    ∃ Th BEP,
      estimate_Th dot_product_sparse_vector unique_docs unique_docs_in_target_cat
        target_cat_name { threshold := t1, second := W } =
        some ({ threshold := Th, second := W }, BEP) ∧
      estimate_Th dot_product_sparse_vector unique_docs unique_docs_in_target_cat
        target_cat_name { threshold := t2, second := W } =
        some ({ threshold := Th, second := W }, BEP) ∧
      estimate_Th dot_product_sparse_vector unique_docs unique_docs_in_target_cat
        target_cat_name { threshold := Th, second := W } =
        some ({ threshold := Th, second := W }, BEP) := by
  obtain ⟨Th, BEP, h⟩ := estimate_Th_prior dot_product_sparse_vector unique_docs
    unique_docs_in_target_cat target_cat_name W
  exact ⟨Th, BEP, h t1, h t2, h Th⟩

/-! ## Precision and recall along the walk -/

theorem get_recall_of_le {a cat : Nat} (ha : a ≤ cat) (hcat : 0 < cat) :
    get_recall a (cat - a) = (a : ℚ) / (cat : ℚ) := by
  unfold get_recall
  rw [if_neg (by omega)]
  congr 1
  rw [Nat.cast_sub ha]
  ring

theorem get_precision_of_pos {a b : Nat} (h : 0 < a + b) :
    get_precision a b = (a : ℚ) / ((a : ℚ) + (b : ℚ)) := by
  unfold get_precision
  rw [if_neg (by omega)]

/-- Recall is at least precision once the false positives are at least the
false negatives. -/
theorem get_precision_le_recall {a b c : Nat} (h : c ≤ b) (hpos : 0 < a + b) :
    get_precision a b ≤ get_recall a c := by
  rw [get_recall_eq_precision]
  exact get_precision_antitone a h hpos

/-- After the crossover, recall minus precision does not decrease when more
buckets are put in the category. -/
theorem recall_minus_precision_mono {cat a1 a2 b1 b2 : Nat} (hcat : 0 < cat)
    (ha : a1 ≤ a2) (ha2 : a2 ≤ cat) (hb : b1 ≤ b2) (hcross : cat ≤ a1 + b1) :
    get_recall a1 (cat - a1) - get_precision a1 b1
      ≤ get_recall a2 (cat - a2) - get_precision a2 b2 := by
  have h1 : get_precision a2 b2 ≤ get_precision a2 b1 :=
    get_precision_antitone a2 hb (by omega)
  rw [get_recall_of_le (le_trans ha ha2) hcat, get_recall_of_le ha2 hcat] at *
  rw [get_precision_of_pos (show 0 < a1 + b1 by omega)]
  rw [get_precision_of_pos (show 0 < a2 + b1 by omega)] at h1
  have hc : (0 : ℚ) < (cat : ℚ) := by exact_mod_cast hcat
  have hA : (a1 : ℚ) ≤ (a2 : ℚ) := by exact_mod_cast ha
  have hX : (cat : ℚ) ≤ (a1 : ℚ) + (b1 : ℚ) := by exact_mod_cast hcross
  have hB0 : (0 : ℚ) ≤ (b1 : ℚ) := by positivity
  have hA0 : (0 : ℚ) ≤ (a1 : ℚ) := by positivity
  have h1pos : (0 : ℚ) < (a1 : ℚ) + (b1 : ℚ) := by linarith
  have h2pos : (0 : ℚ) < (a2 : ℚ) + (b1 : ℚ) := by linarith
  have key : (a1 : ℚ) / (cat : ℚ) - (a1 : ℚ) / ((a1 : ℚ) + (b1 : ℚ))
      ≤ (a2 : ℚ) / (cat : ℚ) - (a2 : ℚ) / ((a2 : ℚ) + (b1 : ℚ)) := by
    rw [div_sub_div _ _ (ne_of_gt hc) (ne_of_gt h1pos),
      div_sub_div _ _ (ne_of_gt hc) (ne_of_gt h2pos)]
    rw [div_le_div_iff₀ (by positivity) (by positivity)]
    have hd : (0 : ℚ) ≤ (a2 : ℚ) - (a1 : ℚ) := sub_nonneg.mpr hA
    have he : (0 : ℚ) ≤ (a1 : ℚ) + (b1 : ℚ) - (cat : ℚ) := sub_nonneg.mpr hX
    have hA2 : (0 : ℚ) ≤ (a2 : ℚ) := by positivity
    have hterm : (0 : ℚ) ≤ (cat : ℚ) *
        ((((a1 : ℚ) + (b1 : ℚ) - (cat : ℚ)) * (b1 : ℚ)) * ((a2 : ℚ) - (a1 : ℚ))
          + ((a2 : ℚ) * ((a2 : ℚ) - (a1 : ℚ))) * ((a1 : ℚ) + (b1 : ℚ))) :=
      mul_nonneg (le_of_lt hc)
        (add_nonneg (mul_nonneg (mul_nonneg he hB0) hd)
          (mul_nonneg (mul_nonneg hA2 hd) (le_of_lt h1pos)))
    nlinarith [hterm]
  linarith

theorem rule_deviation_at {bit_string : class_d_list} {p q : List (ℚ × class_d_list_entry)}
    {x : ℚ × class_d_list_entry} (hord : map_ordered bit_string)
    (hds : bit_string.reverse = p ++ x :: q) :
    rule_deviation bit_string x.1 =
      |get_precision (sum_first p + x.2.first) (sum_second p + x.2.second)
        - get_recall (sum_first p + x.2.first) (sum_first q)| := by
  obtain ⟨h1, h2, h3⟩ := rule_counts_at hord hds
  unfold rule_deviation
  rw [h1, h2, h3]

/-! ## The walk for a larger `cat_doc_count` -/

/-- In a list of buckets with strictly descending scores a score fixes the
place of its bucket. -/
theorem descending_split_unique {p q p1 q1 : List (ℚ × class_d_list_entry)}
    {x x1 : ℚ × class_d_list_entry}
    (h : List.Pairwise (fun a b => b.1 < a.1) (p ++ x :: q))
    (heq : p ++ x :: q = p1 ++ x1 :: q1) (hx : x.1 = x1.1) :
    p = p1 ∧ x = x1 ∧ q = q1 := by
  obtain ⟨h1, h2⟩ := filter_ge_of_descending h
  have h' := h
  rw [heq] at h'
  obtain ⟨h3, h4⟩ := filter_ge_of_descending h'
  rw [heq, hx, h3] at h1
  rw [heq, hx, h4] at h2
  obtain ⟨e1, e2⟩ := List.append_inj' h1 rfl
  refine ⟨e1.symm, ?_, h2.symm⟩
  simpa using e2.symm

/-- For `cat_doc_count` between the sum of the `first` counters and the
number of documents of the buckets, which is below `2 ^ 32`, the loop is left
at some bucket by a `break`. -/
theorem walk_leaves_between {cat_doc_count : Nat} {ds : List (ℚ × class_d_list_entry)}
    (threshold : ℚ) (hpos : 0 < cat_doc_count)
    (hlow : sum_first ds ≤ cat_doc_count)
    (hhigh : cat_doc_count ≤ sum_first ds + sum_second ds)
    (htotal : sum_first ds + sum_second ds < UINT_RANGE) :
    ∃ pre bit post s r, ds = pre ++ bit :: post ∧
      state_after cat_doc_count pre (initial_state cat_doc_count threshold) = some s ∧
      s.c = cat_doc_count - sum_first pre ∧
      s.b = sum_second pre ∧
      loop_body cat_doc_count s bit = .leave r ∧
      walk cat_doc_count ds (initial_state cat_doc_count threshold) = some r := by
  have hr : cat_doc_count < UINT_RANGE := by omega
  have hcount : ∀ (pre : List (ℚ × class_d_list_entry)) (s : walk_state),
      sum_first pre ≤ cat_doc_count → sum_second pre < UINT_RANGE →
      state_after cat_doc_count pre (initial_state cat_doc_count threshold) = some s →
      s.c = cat_doc_count - sum_first pre ∧ s.b = sum_second pre := by
    intro pre s hle hlt hs
    have := state_after_counters pre _ s hs (by simpa [initial_state] using hle)
      (by simpa [initial_state] using hr)
      (by simp [initial_state, UINT_RANGE])
    simp only [initial_state, Nat.zero_add] at this
    exact ⟨this.1, by rw [this.2.1, Nat.mod_eq_of_lt hlt]⟩
  obtain ⟨r, hw, _⟩ := walk_returns threshold hpos hr ds
  rcases walk_cut cat_doc_count ds (initial_state cat_doc_count threshold) with
    ⟨s1, h1⟩ | ⟨pre, bit, post, s1, hds, hs1, hnot⟩
  · exfalso
    rcases List.eq_nil_or_concat ds with h0 | ⟨p, x, hpx⟩
    · subst h0
      simp at hhigh
      omega
    · rw [List.concat_eq_append] at hpx
      subst hpx
      obtain ⟨s2, hs2, hx⟩ := state_after_concat h1
      simp only [sum_first_append, sum_first_cons, sum_first_nil, sum_second_append,
        sum_second_cons, sum_second_nil] at hlow hhigh htotal
      obtain ⟨hc2, hb2⟩ := hcount p s2 (by omega) (by omega) hs2
      obtain ⟨hlt, _⟩ := loop_body_next hx
      rw [uint_sub_of_le (by omega) (by omega), hb2, uint_add_of_lt (by omega)] at hlt
      omega
  · subst hds
    simp only [sum_first_append, sum_first_cons, sum_second_append,
      sum_second_cons] at hlow hhigh htotal
    obtain ⟨hc1, hb1⟩ := hcount pre s1 (by omega) (by omega) hs1
    cases hx : loop_body cat_doc_count s1 bit with
    | next s2 => exact absurd hx (hnot s2)
    | leave r1 =>
      refine ⟨pre, bit, post, s1, r1, rfl, hs1, hc1, hb1, hx, ?_⟩
      rw [walk_append hs1]
      simp [walk, hx]
    | undefined =>
      exfalso
      rw [walk_append hs1] at hw
      simp [walk, hx] at hw

/-- C15 (amended): for an ordered bucket list whose number of documents is
below `2 ^ 32`, and all `N`, `N'` with
(sum of the `first` counters) `<= N <= N' <=` (number of documents) and
`N > 0`, the threshold that `do_threshold_estimation` sets for
`cat_doc_count = N'` is at most the threshold it sets for `cat_doc_count = N`,
whatever the prior thresholds `t1`, `t2` are. -/
theorem C15_larger_category_lower_threshold (bit_string : class_d_list) (N N' : Nat)
    (t1 t2 : ℚ) (hord : map_ordered bit_string) (hN : 0 < N) (hNN : N ≤ N')
    (hlow : sum_first bit_string ≤ N)
    (hhigh : N' ≤ sum_first bit_string + sum_second bit_string)
    (htotal : sum_first bit_string + sum_second bit_string < UINT_RANGE) :
    ∃ Th Th' BEP BEP', do_threshold_estimation N bit_string t1 = some (Th, BEP) ∧
      do_threshold_estimation N' bit_string t2 = some (Th', BEP') ∧ Th' ≤ Th := by
  have hne : bit_string ≠ [] := by
    rintro rfl
    simp at hhigh
    omega
  have hN' : 0 < N' := by omega
  have hrN : N < UINT_RANGE := by omega
  have hrN' : N' < UINT_RANGE := by omega
  obtain ⟨pre, bit, post, s, r, hds, hs, hc, hb, hx, hw⟩ :=
    @walk_leaves_between N bit_string.reverse t1 hN (by simpa using hlow)
      (by simp only [sum_first_reverse, sum_second_reverse]; omega)
      (by simpa using htotal)
  obtain ⟨pre', bit', post', s', r', hds', hs', hc', hb', hx', hw'⟩ :=
    @walk_leaves_between N' bit_string.reverse t2 hN'
      (by simp only [sum_first_reverse]; omega)
      (by simpa using hhigh) (by simpa using htotal)
  refine ⟨r.threshold, r'.threshold, interpolated_BEP N r, interpolated_BEP N' r',
    ?_, ?_, ?_⟩
  · rw [do_threshold_estimation_walk t1 hN hne, hw]
    rfl
  · rw [do_threshold_estimation_walk t2 hN' hne, hw']
    rfl
  -- the sums of the two splittings of the list
  have hf : sum_first pre + (bit.2.first + sum_first post) = sum_first bit_string := by
    have := congrArg sum_first hds
    simp only [sum_first_reverse, sum_first_append, sum_first_cons] at this
    omega
  have hg : sum_second pre + (bit.2.second + sum_second post) = sum_second bit_string := by
    have := congrArg sum_second hds
    simp only [sum_second_reverse, sum_second_append, sum_second_cons] at this
    omega
  have hf' : sum_first pre' + (bit'.2.first + sum_first post') = sum_first bit_string := by
    have := congrArg sum_first hds'
    simp only [sum_first_reverse, sum_first_append, sum_first_cons] at this
    omega
  have hg' : sum_second pre' + (bit'.2.second + sum_second post')
      = sum_second bit_string := by
    have := congrArg sum_second hds'
    simp only [sum_second_reverse, sum_second_append, sum_second_cons] at this
    omega
  have hdesc : List.Pairwise (fun a b => b.1 < a.1) (pre ++ bit :: post) := by
    rw [← hds, List.pairwise_reverse]
    exact hord
  have hdesc' : List.Pairwise (fun a b => b.1 < a.1) (pre' ++ bit' :: post') := by
    rw [← hds', List.pairwise_reverse]
    exact hord
  have hpre_gt : ∀ a ∈ pre, bit.1 < a.1 := fun a ha =>
    (List.pairwise_append.mp hdesc).2.2 a ha bit (by simp)
  have hpost_lt : ∀ a ∈ post, a.1 < bit.1 := fun a ha =>
    (List.pairwise_cons.mp (List.pairwise_append.mp hdesc).2.1).1 a ha
  have hpost_lt' : ∀ a ∈ post', a.1 < bit'.1 := fun a ha =>
    (List.pairwise_cons.mp (List.pairwise_append.mp hdesc').2.1).1 a ha
  -- the machine values at the two buckets
  have hnc : uint_sub s.c bit.2.first = N - sum_first pre - bit.2.first := by
    rw [uint_sub_of_le (by omega) (by omega), hc]
  have hnb : uint_add s.b bit.2.second = sum_second pre + bit.2.second := by
    rw [hb]
    exact uint_add_of_lt (by omega)
  have hnc' : uint_sub s'.c bit'.2.first = N' - sum_first pre' - bit'.2.first := by
    rw [uint_sub_of_le (by omega) (by omega), hc']
  have hnb' : uint_add s'.b bit'.2.second = sum_second pre' + bit'.2.second := by
    rw [hb']
    exact uint_add_of_lt (by omega)
  have hleave' : N' - sum_first pre' - bit'.2.first ≤ sum_second pre' + bit'.2.second := by
    by_contra hcon
    have hlt : uint_add s'.b bit'.2.second < uint_sub s'.c bit'.2.first := by
      rw [hnc', hnb']
      omega
    rw [loop_body_of_lt hlt] at hx'
    cases hx'
  -- the threshold for `N` is not below the score of `bit`
  have hprev_mem : ∀ p, s.prev_bit = some p → p ∈ pre := by
    intro p hp
    have hne2 : pre ≠ [] := by
      rintro rfl
      simp [state_after] at hs
      subst hs
      simp [initial_state] at hp
    have := (state_after_prev hs hne2).1
    rw [hp] at this
    exact List.mem_of_getLast?_eq_some this.symm
  have hth_ge : bit.1 ≤ r.threshold := by
    rcases loop_body_leave hx with ⟨_, hr1⟩ | ⟨_, _, hr1⟩ | ⟨_, _, p, hp, hr1⟩
    · rw [hr1]
    · rw [hr1]
    · rw [hr1]
      exact le_of_lt (hpre_gt p (hprev_mem p hp))
  -- the walk for `N'` does not leave the loop above `bit`
  have hle : bit'.1 ≤ bit.1 := by
    by_contra hcon
    have hlt : bit.1 < bit'.1 := not_le.mp hcon
    have hmem : bit' ∈ pre ++ bit :: post := by
      rw [← hds, hds']
      simp
    have hbpre : bit' ∈ pre := by
      rcases List.mem_append.mp hmem with h | h
      · exact h
      · rcases List.mem_cons.mp h with h | h
        · rw [h] at hlt
          exact absurd hlt (lt_irrefl _)
        · exact absurd (lt_trans (hpost_lt bit' h) hlt) (lt_irrefl _)
    obtain ⟨p1, p2, hp⟩ := List.append_of_mem hbpre
    have hsplit : p1 ++ bit' :: (p2 ++ bit :: post) = pre' ++ bit' :: post' := by
      rw [← hds', hds, hp]
      simp
    have hdesc2 : List.Pairwise (fun a b => b.1 < a.1)
        (p1 ++ bit' :: (p2 ++ bit :: post)) := by
      rw [hsplit]
      exact hdesc'
    obtain ⟨e1, _, _⟩ := descending_split_unique hdesc2 hsplit rfl
    rw [hp] at hs
    obtain ⟨s1, s2, hs1, hx1⟩ := state_after_passed hs
    obtain ⟨hlt1, _⟩ := loop_body_next hx1
    rw [hp] at hf hg
    simp only [sum_first_append, sum_first_cons, sum_second_append,
      sum_second_cons] at hf hg
    obtain ⟨hc1, hb1, _⟩ := state_after_counters p1 _ s1 hs1
      (by simp only [initial_state]; omega) (by simpa [initial_state] using hrN)
      (by simp [initial_state, UINT_RANGE])
    simp only [initial_state, Nat.zero_add] at hc1 hb1
    rw [Nat.mod_eq_of_lt (by omega)] at hb1
    rw [uint_sub_of_le (by omega) (by omega), hb1, uint_add_of_lt (by omega), hc1] at hlt1
    rw [← e1] at hleave'
    omega
  rcases lt_or_eq_of_le hle with hlt | heq
  · -- the walk for `N'` leaves the loop below `bit`
    refine le_trans ?_ hth_ge
    rcases loop_body_leave hx' with ⟨_, hr1⟩ | ⟨_, _, hr1⟩ | ⟨_, _, p, hp, hr1⟩
    · rw [hr1]
      exact le_of_lt hlt
    · rw [hr1]
      exact le_of_lt hlt
    · rw [hr1]
      simp only
      have hne2 : pre' ≠ [] := by
        rintro rfl
        simp [state_after] at hs'
        subst hs'
        simp [initial_state] at hp
      have hlast := (state_after_prev hs' hne2).1
      rw [hp] at hlast
      obtain ⟨front, hfront⟩ := List.getLast?_eq_some_iff.mp hlast.symm
      have hmem : bit ∈ pre' ++ bit' :: post' := by
        rw [← hds', hds]
        simp
      rcases List.mem_append.mp hmem with h | h
      · rw [hfront] at h hdesc'
        rcases List.mem_append.mp h with h | h
        · have := (List.pairwise_append.mp (List.pairwise_append.mp hdesc').1).2.2
            bit h p (by simp)
          exact le_of_lt this
        · simp at h
          rw [h]
      · rcases List.mem_cons.mp h with h | h
        · rw [h] at hlt
          exact absurd hlt (lt_irrefl _)
        · exact absurd (lt_trans (hpost_lt' bit h) hlt) (lt_irrefl _)
  · -- both walks leave the loop at `bit`
    obtain ⟨e1, e2, e3⟩ := descending_split_unique hdesc' (hds'.symm.trans hds) heq
    subst e1 e2 e3
    have hprev : s.prev_bit = s'.prev_bit := by
      by_cases hne2 : pre' = []
      · subst hne2
        simp [state_after] at hs hs'
        subst hs hs'
        rfl
      · rw [(state_after_prev hs hne2).1, (state_after_prev hs' hne2).1]
    have hleast : ∀ p, s.prev_bit = some p → bit'.1 ≤ p.1 := fun p hp =>
      le_of_lt (hpre_gt p (hprev_mem p hp))
    rcases loop_body_leave hx with ⟨heq1, hr1⟩ | ⟨hlt1, hcd1, hr1⟩ | ⟨_, _, p, hp, hr1⟩
    · rcases loop_body_leave hx' with ⟨_, hr2⟩ | ⟨_, _, hr2⟩ | ⟨hlt2, _, p2, _, hr2⟩
      · rw [hr1, hr2]
      · rw [hr1, hr2]
      · exfalso
        rw [hnc, hnb] at heq1
        rw [hnc', hnb'] at hlt2
        omega
    · rcases loop_body_leave hx' with ⟨_, hr2⟩ | ⟨_, _, hr2⟩ | ⟨hlt2, hcd2, p2, _, hr2⟩
      · rw [hr1, hr2]
      · rw [hr1, hr2]
      · exfalso
        apply hcd2
        rw [hnc, hnb] at hlt1
        have hA0 : uint_sub N s.c = sum_first pre' := by
          rw [uint_sub_of_le (by omega) hrN]
          omega
        have hA0' : uint_sub N' s'.c = sum_first pre' := by
          rw [uint_sub_of_le (by omega) hrN']
          omega
        have hA1 : uint_sub N (N - sum_first pre' - bit'.2.first)
            = sum_first pre' + bit'.2.first := by
          rw [uint_sub_of_le (by omega) hrN]
          omega
        have hA1' : uint_sub N' (N' - sum_first pre' - bit'.2.first)
            = sum_first pre' + bit'.2.first := by
          rw [uint_sub_of_le (by omega) hrN']
          omega
        have hcurr : curr_diff N' s' bit' ≤ curr_diff N s bit' := by
          unfold curr_diff
          rw [hnc, hnc', hnb, hnb', hA1, hA1']
          have := get_precision_antitone (sum_first pre' + bit'.2.first)
            (show N - sum_first pre' - bit'.2.first ≤ N' - sum_first pre' - bit'.2.first
              by omega) (by omega)
          rw [get_recall_eq_precision, get_recall_eq_precision]
          linarith
        have hprevd : prev_diff N s ≤ prev_diff N' s' := by
          unfold prev_diff
          rw [hA0, hA0', hb, hb', hc, hc']
          have := get_precision_antitone (sum_first pre')
            (show N - sum_first pre' ≤ N' - sum_first pre' by omega) (by omega)
          rw [get_recall_eq_precision, get_recall_eq_precision]
          linarith
        linarith
    · rcases loop_body_leave hx' with ⟨_, hr2⟩ | ⟨_, _, hr2⟩ | ⟨_, _, p2, hp2, hr2⟩
      · rw [hr1, hr2]
        exact hleast p hp
      · rw [hr1, hr2]
        exact hleast p hp
      · rw [hr1, hr2]
        rw [hprev, hp2] at hp
        injection hp with hp
        rw [hp]

theorem C15_larger_category_lower_threshold_witness :
    ∃ Th Th' BEP BEP',
      do_threshold_estimation 2 [(3, ⟨1, 1⟩), (5, ⟨1, 0⟩)] 0 = some (Th, BEP) ∧
      do_threshold_estimation 3 [(3, ⟨1, 1⟩), (5, ⟨1, 0⟩)] 0 = some (Th', BEP') ∧
      Th' ≤ Th :=
  C15_larger_category_lower_threshold [(3, ⟨1, 1⟩), (5, ⟨1, 0⟩)] 2 3 0 0
    (by unfold map_ordered; simp; norm_num) (by decide) (by decide) (by decide)
    (by decide) (by unfold UINT_RANGE; simp [sum_first, sum_second])

/-- C15 (as stated) fails when `b` wraps: the buckets `(10, 0, 2 ^ 31)` and
`(9, 0, 2 ^ 31)` hold `2 ^ 32` documents, none in the category. For
`N = 1` the crossover at the first bucket sets the threshold 10; for
`N' = 2 ^ 31 + 1` the counter `b` wraps to 0 at the second bucket, the walk
runs out of buckets and the threshold stays at its prior value 100. -/
theorem C15_counterexample_wrapping_b :
    map_ordered [(9, ⟨0, 2147483648⟩), (10, ⟨0, 2147483648⟩)] ∧
    sum_first [(9, ⟨0, 2147483648⟩), (10, ⟨0, 2147483648⟩)] ≤ 1 ∧
    (1 : Nat) ≤ 2147483649 ∧
    2147483649 ≤ sum_first [(9, ⟨0, 2147483648⟩), (10, ⟨0, 2147483648⟩)]
      + sum_second [(9, ⟨0, 2147483648⟩), (10, ⟨0, 2147483648⟩)] ∧
    2147483649 < UINT_RANGE ∧
    (∃ BEP, do_threshold_estimation 1
      [(9, ⟨0, 2147483648⟩), (10, ⟨0, 2147483648⟩)] 100 = some (10, BEP)) ∧
    (∃ BEP, do_threshold_estimation 2147483649
      [(9, ⟨0, 2147483648⟩), (10, ⟨0, 2147483648⟩)] 100 = some (100, BEP)) ∧
    ¬ ((100 : ℚ) ≤ 10) := by
  have hr : 2147483649 < UINT_RANGE := by unfold UINT_RANGE; norm_num
  have hA1 : uint_add 0 2147483648 = 2147483648 :=
    uint_add_of_lt (by unfold UINT_RANGE; norm_num)
  have hA2 : uint_add 2147483648 2147483648 = 0 := by
    unfold uint_add UINT_RANGE; norm_num
  have hS1 : uint_sub 2147483649 0 = 2147483649 := uint_sub_of_le (by omega) hr
  have hS0 : uint_sub 1 0 = 1 := uint_sub_of_le (by omega) one_lt_UINT_RANGE
  have hrev : ([(9, ⟨0, 2147483648⟩), (10, ⟨0, 2147483648⟩)] : class_d_list).reverse
      = [(10, ⟨0, 2147483648⟩), (9, ⟨0, 2147483648⟩)] := by simp
  refine ⟨?_, ?_, by norm_num, ?_, hr, ?_, ?_, by norm_num⟩
  · unfold map_ordered; simp; norm_num
  · norm_num [sum_first]
  · norm_num [sum_first, sum_second]
  · -- `N = 1`: crossover at the first bucket
    have hx : uint_sub (initial_state 1 100).c
          ((10, ⟨0, 2147483648⟩) : ℚ × class_d_list_entry).2.first
        < uint_add (initial_state 1 100).b
          ((10, ⟨0, 2147483648⟩) : ℚ × class_d_list_entry).2.second := by
      simp only [initial_state, hA1, hS0]
      norm_num
    have hb := @loop_body_crossover_curr 1 (initial_state 1 100) (10, ⟨0, 2147483648⟩) hx
      (by
        rw [prev_diff_initial 100 (by norm_num) one_lt_UINT_RANGE]
        exact curr_diff_initial_lt_one 100 _ (by norm_num) one_lt_UINT_RANGE
          (by norm_num))
    rw [do_threshold_estimation_walk 100 (by norm_num) (by simp), hrev, walk, hb]
    exact ⟨_, rfl⟩
  · -- `N' = 2 ^ 31 + 1`: the walk runs out of buckets
    have hs : state_after 2147483649 [(10, ⟨0, 2147483648⟩), (9, ⟨0, 2147483648⟩)]
        (initial_state 2147483649 100) =
        some { b := 0, c := 2147483649, prev_bit := some (9, ⟨0, 2147483648⟩),
               threshold := 100 } := by
      have h1 : uint_add (initial_state 2147483649 100).b
          ((10, ⟨0, 2147483648⟩) : ℚ × class_d_list_entry).2.second
          < uint_sub (initial_state 2147483649 100).c
            ((10, ⟨0, 2147483648⟩) : ℚ × class_d_list_entry).2.first := by
        simp only [initial_state, hA1, hS1]
        norm_num
      rw [state_after, loop_body_of_lt h1]
      simp only [initial_state, hA1, hS1]
      rw [state_after, loop_body_of_lt]
      · simp only [hA2, hS1, state_after]
      · simp only [hA2, hS1]
        norm_num
    rw [do_threshold_estimation_walk 100 (by norm_num) (by simp), hrev,
      walk_of_state_after hs]
    exact ⟨_, rfl⟩

/-! ## The bucket at which the walk stops -/

/-- C21 (amended): for an ordered bucket list and `cat_doc_count > 0` equal to
the sum of the `first` counters, with the sum of the `second` counters below
`2 ^ 32`: the walk leaves the loop at the highest-score bucket `k` for which
the buckets with a score of at least `k.1` hold at least `cat_doc_count`
documents; it leaves by the equality branch exactly when they hold
`cat_doc_count` documents; and the threshold is the score of `k` or of the
bucket just above `k`. -/
theorem C21_stopping_bucket_rank (cat_doc_count : Nat) (bit_string : class_d_list)
    (threshold : ℚ) (hord : map_ordered bit_string) (hpos : 0 < cat_doc_count)
    (hr : cat_doc_count < UINT_RANGE) (hsum : sum_first bit_string = cat_doc_count)
    (hneg : sum_second bit_string < UINT_RANGE) :
    ∃ pre k post s r, bit_string.reverse = pre ++ k :: post ∧
      state_after cat_doc_count pre (initial_state cat_doc_count threshold) = some s ∧
      loop_body cat_doc_count s k = .leave r ∧
      cat_doc_count ≤ true_positives bit_string k.1 + false_positives bit_string k.1 ∧
      (∀ j ∈ bit_string,
        cat_doc_count ≤ true_positives bit_string j.1 + false_positives bit_string j.1 →
        j.1 ≤ k.1) ∧
      (r.stop = .equality ↔
        true_positives bit_string k.1 + false_positives bit_string k.1 = cat_doc_count) ∧
      (r.threshold = k.1 ∨ ∃ p, pre.getLast? = some p ∧ r.threshold = p.1) ∧
      do_threshold_estimation cat_doc_count bit_string threshold =
        some (r.threshold, interpolated_BEP cat_doc_count r) := by
  obtain ⟨pre, k, post, s, r, hds, hs, hc, hb, hx, hw, hd⟩ :=
    do_threshold_estimation_leaves threshold hpos hr hsum
  have hdesc : List.Pairwise (fun a b => b.1 < a.1) (pre ++ k :: post) := by
    rw [← hds, List.pairwise_reverse]
    exact hord
  have hsum2 : sum_first pre + (k.2.first + sum_first post) = cat_doc_count := by
    have := congrArg sum_first hds
    simp only [sum_first_reverse, sum_first_append, sum_first_cons] at this
    omega
  have hneg2 : sum_second pre + (k.2.second + sum_second post) < UINT_RANGE := by
    have := congrArg sum_second hds
    simp only [sum_second_reverse, sum_second_append, sum_second_cons] at this
    omega
  rw [Nat.mod_eq_of_lt (by omega)] at hb
  have hnc : uint_sub s.c k.2.first = sum_first post := by
    rw [uint_sub_of_le (by omega) (by omega)]
    omega
  have hnb : uint_add s.b k.2.second = sum_second pre + k.2.second := by
    rw [hb]
    exact uint_add_of_lt (by omega)
  obtain ⟨htp, hfp, _⟩ := rule_counts_at hord hds
  have hleave : sum_first post ≤ sum_second pre + k.2.second := by
    by_contra hcon
    have hlt : uint_add s.b k.2.second < uint_sub s.c k.2.first := by
      rw [hnc, hnb]
      omega
    rw [loop_body_of_lt hlt] at hx
    cases hx
  refine ⟨pre, k, post, s, r, hds, hs, hx, ?_, ?_, ?_, ?_, hd⟩
  · rw [htp, hfp]
    omega
  · -- a bucket above `k` was passed: it and the buckets above it hold too few documents
    intro j hj hrank
    by_contra hcon
    have hlt : k.1 < j.1 := not_le.mp hcon
    have hjds : j ∈ pre ++ k :: post := by
      rw [← hds]
      simpa using hj
    have hjpre : j ∈ pre := by
      rcases List.mem_append.mp hjds with h | h
      · exact h
      · rcases List.mem_cons.mp h with h | h
        · rw [h] at hlt
          exact absurd hlt (lt_irrefl _)
        · have := (List.pairwise_cons.mp (List.pairwise_append.mp hdesc).2.1).1 j h
          exact absurd (lt_trans this hlt) (lt_irrefl _)
    obtain ⟨p1, p2, hp⟩ := List.append_of_mem hjpre
    have hds2 : bit_string.reverse = p1 ++ j :: (p2 ++ k :: post) := by
      rw [hds, hp]
      simp
    obtain ⟨htpj, hfpj, _⟩ := rule_counts_at hord hds2
    rw [hp] at hs hsum2 hneg2
    simp only [sum_first_append, sum_first_cons, sum_second_append,
      sum_second_cons] at hsum2 hneg2
    obtain ⟨s1, s2, hs1, hx1⟩ := state_after_passed hs
    obtain ⟨hlt1, _⟩ := loop_body_next hx1
    obtain ⟨hc1, hb1, _⟩ := state_after_counters p1 _ s1 hs1
      (by simp only [initial_state]; omega) (by simpa [initial_state] using hr)
      (by simp [initial_state, UINT_RANGE])
    simp only [initial_state, Nat.zero_add] at hc1 hb1
    rw [Nat.mod_eq_of_lt (by omega)] at hb1
    rw [uint_sub_of_le (by omega) (by omega), hb1, uint_add_of_lt (by omega), hc1] at hlt1
    rw [htpj, hfpj] at hrank
    omega
  · rw [htp, hfp]
    rcases loop_body_leave hx with ⟨heq, hr1⟩ | ⟨hlt, _, hr1⟩ | ⟨hlt, _, p, _, hr1⟩
    · rw [hnb, hnc] at heq
      rw [hr1]
      simp only [true_iff]
      omega
    · rw [hnb, hnc] at hlt
      rw [hr1]
      simp only [reduceCtorEq, false_iff]
      omega
    · rw [hnb, hnc] at hlt
      rw [hr1]
      simp only [reduceCtorEq, false_iff]
      omega
  · rcases loop_body_leave hx with ⟨_, hr1⟩ | ⟨_, _, hr1⟩ | ⟨_, _, p, hp, hr1⟩
    · left
      rw [hr1]
    · left
      rw [hr1]
    · right
      have hne : pre ≠ [] := by
        rintro rfl
        simp [state_after] at hs
        subst hs
        simp [initial_state] at hp
      have hlast := (state_after_prev hs hne).1
      rw [hp] at hlast
      exact ⟨p, hlast.symm, by rw [hr1]⟩

theorem C21_stopping_bucket_rank_witness :
    ∃ pre k post s r,
      ([(3, ⟨1, 1⟩), (5, ⟨1, 0⟩)] : class_d_list).reverse = pre ++ k :: post ∧
      state_after 2 pre (initial_state 2 0) = some s ∧
      loop_body 2 s k = .leave r ∧
      2 ≤ true_positives [(3, ⟨1, 1⟩), (5, ⟨1, 0⟩)] k.1
        + false_positives [(3, ⟨1, 1⟩), (5, ⟨1, 0⟩)] k.1 ∧
      (∀ j ∈ ([(3, ⟨1, 1⟩), (5, ⟨1, 0⟩)] : class_d_list),
        2 ≤ true_positives [(3, ⟨1, 1⟩), (5, ⟨1, 0⟩)] j.1
          + false_positives [(3, ⟨1, 1⟩), (5, ⟨1, 0⟩)] j.1 →
        j.1 ≤ k.1) ∧
      (r.stop = .equality ↔
        true_positives [(3, ⟨1, 1⟩), (5, ⟨1, 0⟩)] k.1
          + false_positives [(3, ⟨1, 1⟩), (5, ⟨1, 0⟩)] k.1 = 2) ∧
      (r.threshold = k.1 ∨ ∃ p, pre.getLast? = some p ∧ r.threshold = p.1) ∧
      do_threshold_estimation 2 [(3, ⟨1, 1⟩), (5, ⟨1, 0⟩)] 0 =
        some (r.threshold, interpolated_BEP 2 r) :=
  C21_stopping_bucket_rank 2 [(3, ⟨1, 1⟩), (5, ⟨1, 0⟩)] 0
    (by unfold map_ordered; simp; norm_num) (by decide)
    (by unfold UINT_RANGE; norm_num) (by decide)
    (by unfold UINT_RANGE; simp [sum_second])

/-- C21 as stated fails when `b` wraps around: with `2 ^ 32` documents
outside the category in the two highest buckets, the bucket of score 2 is the
highest one down to which at least `cat_doc_count` documents are held, but
the walk passes it with `b = 0` and leaves at the bucket of score 1 by the
equality branch, with the threshold 1. -/
theorem C21_counterexample_wrapping_b :
    map_ordered [(1, ⟨4294967295, 0⟩), (2, ⟨0, 4294967295⟩), (3, ⟨0, 1⟩)] ∧
    counters_in_range [(1, ⟨4294967295, 0⟩), (2, ⟨0, 4294967295⟩), (3, ⟨0, 1⟩)] ∧
    4294967295 < UINT_RANGE ∧
    sum_first [(1, ⟨4294967295, 0⟩), (2, ⟨0, 4294967295⟩), (3, ⟨0, 1⟩)] = 4294967295 ∧
    true_positives [(1, ⟨4294967295, 0⟩), (2, ⟨0, 4294967295⟩), (3, ⟨0, 1⟩)] 3
      + false_positives [(1, ⟨4294967295, 0⟩), (2, ⟨0, 4294967295⟩), (3, ⟨0, 1⟩)] 3
      < 4294967295 ∧
    4294967295 ≤
      true_positives [(1, ⟨4294967295, 0⟩), (2, ⟨0, 4294967295⟩), (3, ⟨0, 1⟩)] 2
      + false_positives [(1, ⟨4294967295, 0⟩), (2, ⟨0, 4294967295⟩), (3, ⟨0, 1⟩)] 2 ∧
    true_positives [(1, ⟨4294967295, 0⟩), (2, ⟨0, 4294967295⟩), (3, ⟨0, 1⟩)] 2
      + false_positives [(1, ⟨4294967295, 0⟩), (2, ⟨0, 4294967295⟩), (3, ⟨0, 1⟩)] 2
      ≠ 4294967295 ∧
    state_after 4294967295 [(3, ⟨0, 1⟩), (2, ⟨0, 4294967295⟩)]
        (initial_state 4294967295 0)
      = some { b := 0, c := 4294967295, prev_bit := some (2, ⟨0, 4294967295⟩),
               threshold := 0 } ∧
    walk 4294967295
        ([(1, ⟨4294967295, 0⟩), (2, ⟨0, 4294967295⟩), (3, ⟨0, 1⟩)] : class_d_list).reverse
        (initial_state 4294967295 0)
      = some { threshold := 1, b := 0, c := 0, stop := .equality } ∧
    do_threshold_estimation 4294967295
        [(1, ⟨4294967295, 0⟩), (2, ⟨0, 4294967295⟩), (3, ⟨0, 1⟩)] 0 = some (1, 1) ∧
    (1 : ℚ) ≠ 2 ∧ (1 : ℚ) ≠ 3 := by
  have hr : 4294967295 < UINT_RANGE := by unfold UINT_RANGE; norm_num
  have hA1 : uint_add 0 1 = 1 := uint_add_of_lt (by unfold UINT_RANGE; norm_num)
  have hA2 : uint_add 1 4294967295 = 0 := by
    unfold uint_add UINT_RANGE; norm_num
  have hA0 : uint_add 0 0 = 0 := uint_add_of_lt (by unfold UINT_RANGE; norm_num)
  have hS1 : uint_sub 4294967295 0 = 4294967295 := uint_sub_of_le (by omega) hr
  have hS2 : uint_sub 4294967295 4294967295 = 0 := uint_sub_of_le (by omega) hr
  have hrev : ([(1, ⟨4294967295, 0⟩), (2, ⟨0, 4294967295⟩), (3, ⟨0, 1⟩)]
      : class_d_list).reverse
      = [(3, ⟨0, 1⟩), (2, ⟨0, 4294967295⟩)] ++ [(1, ⟨4294967295, 0⟩)] := by simp
  have hs : state_after 4294967295 [(3, ⟨0, 1⟩), (2, ⟨0, 4294967295⟩)]
      (initial_state 4294967295 0)
      = some { b := 0, c := 4294967295, prev_bit := some (2, ⟨0, 4294967295⟩),
               threshold := 0 } := by
    have h1 : uint_add (initial_state 4294967295 0).b
        ((3, ⟨0, 1⟩) : ℚ × class_d_list_entry).2.second
        < uint_sub (initial_state 4294967295 0).c
          ((3, ⟨0, 1⟩) : ℚ × class_d_list_entry).2.first := by
      simp only [initial_state, hA1, hS1]
      norm_num
    rw [state_after, loop_body_of_lt h1]
    simp only [initial_state, hA1, hS1]
    rw [state_after, loop_body_of_lt]
    · simp only [hA2, hS1, state_after]
    · simp only [hA2, hS1]
      norm_num
  have hw : walk 4294967295
      ([(1, ⟨4294967295, 0⟩), (2, ⟨0, 4294967295⟩), (3, ⟨0, 1⟩)] : class_d_list).reverse
      (initial_state 4294967295 0)
      = some { threshold := 1, b := 0, c := 0, stop := .equality } := by
    rw [hrev, walk_append hs, walk, loop_body_of_eq]
    · simp only [hA0, hS2]
    · simp only [hA0, hS2]
  refine ⟨?_, ?_, hr, ?_, ?_, ?_, ?_, hs, hw, ?_, by norm_num, by norm_num⟩
  · unfold map_ordered; simp; norm_num
  · intro x hx
    simp only [List.mem_cons, List.mem_singleton, List.not_mem_nil, or_false] at hx
    rcases hx with rfl | rfl | rfl <;> exact ⟨by unfold UINT_RANGE; norm_num,
      by unfold UINT_RANGE; norm_num⟩
  · norm_num [sum_first]
  · norm_num [true_positives, false_positives, sum_first, sum_second, List.filter]
  · norm_num [true_positives, false_positives, sum_first, sum_second, List.filter]
  · norm_num [true_positives, false_positives, sum_first, sum_second, List.filter]
  · rw [do_threshold_estimation_walk 0 (by norm_num) (by simp), hw]
    simp only [Option.map_some', interpolated_BEP, hS2, hS1, get_recall_eq_precision,
      get_precision_pos_zero (show 0 < 4294967295 by norm_num)]
    norm_num

/-! ## Perfect separation -/

theorem sum_second_eq_zero {l : List (ℚ × class_d_list_entry)}
    (h : ∀ x ∈ l, x.2.second = 0) : sum_second l = 0 := by
  induction l with
  | nil => simp
  | cons x l ih =>
    rw [sum_second_cons, h x (List.mem_cons_self _ _),
      ih (fun y hy => h y (List.mem_cons_of_mem _ hy))]

theorem first_eq_zero_of_sum_first {l : List (ℚ × class_d_list_entry)}
    (h : sum_first l = 0) : ∀ x ∈ l, x.2.first = 0 := by
  induction l with
  | nil => simp
  | cons x l ih =>
    rw [sum_first_cons] at h
    intro y hy
    rcases List.mem_cons.mp hy with rfl | hy
    · omega
    · exact ih (by omega) y hy

theorem exists_first_pos {l : List (ℚ × class_d_list_entry)}
    (h : 0 < sum_first l) : ∃ y ∈ l, 0 < y.2.first := by
  induction l with
  | nil => simp at h
  | cons x l ih =>
    rw [sum_first_cons] at h
    by_cases hx : 0 < x.2.first
    · exact ⟨x, List.mem_cons_self _ _, hx⟩
    · obtain ⟨y, hy, hy0⟩ := ih (by omega)
      exact ⟨y, List.mem_cons_of_mem _ hy, hy0⟩

/-- C22: for an ordered bucket list and `cat_doc_count > 0` equal to the sum
of the `first` counters, if every bucket with a document of the category has
a strictly higher score than every bucket with a document outside it, then
the walk leaves by the equality branch at the lowest-score bucket `m` holding
a document of the category, with `b = c = 0`, and `do_threshold_estimation`
sets the threshold to the score of `m` and returns 1. -/
theorem C22_perfect_separation (cat_doc_count : Nat) (bit_string : class_d_list)
    (threshold : ℚ) (hord : map_ordered bit_string) (hpos : 0 < cat_doc_count)
    (hr : cat_doc_count < UINT_RANGE) (hsum : sum_first bit_string = cat_doc_count)
    (hsep : ∀ x ∈ bit_string, ∀ y ∈ bit_string,
      0 < x.2.first → 0 < y.2.second → y.1 < x.1) :
    ∃ m ∈ bit_string, 0 < m.2.first ∧
      (∀ x ∈ bit_string, 0 < x.2.first → m.1 ≤ x.1) ∧
      walk cat_doc_count bit_string.reverse (initial_state cat_doc_count threshold) =
        some { threshold := m.1, b := 0, c := 0, stop := .equality } ∧
      do_threshold_estimation cat_doc_count bit_string threshold = some (m.1, 1) := by
  obtain ⟨pre, k, post, s, r, hds, hs, hc, hb, hx, hw, hd⟩ :=
    do_threshold_estimation_leaves threshold hpos hr hsum
  have hdesc : List.Pairwise (fun a b => b.1 < a.1) (pre ++ k :: post) := by
    rw [← hds, List.pairwise_reverse]
    exact hord
  have hmem : ∀ x, x ∈ pre ++ k :: post → x ∈ bit_string := by
    intro x hx
    rw [← hds] at hx
    simpa using hx
  have hsum2 : sum_first pre + (k.2.first + sum_first post) = cat_doc_count := by
    have := congrArg sum_first hds
    simp only [sum_first_reverse, sum_first_append, sum_first_cons] at this
    omega
  -- a document of the category is still ahead when the walk reaches `k`
  have hcpos : 0 < s.c := by
    by_cases hne : pre = []
    · subst hne
      simp [state_after] at hs
      subst hs
      simpa [initial_state] using hpos
    · have := (state_after_prev hs hne).2
      omega
  obtain ⟨y, hy, hy0⟩ := @exists_first_pos (k :: post) (by
    rw [sum_first_cons]
    omega)
  have hyk : y.1 ≤ k.1 := by
    rcases List.mem_cons.mp hy with h | h
    · rw [h]
    · exact le_of_lt ((List.pairwise_cons.mp (List.pairwise_append.mp hdesc).2.1).1 y h)
  have hymem : y ∈ bit_string := hmem y (List.mem_append_right _ hy)
  -- so no bucket down to `k` holds a document outside the category
  have hpre0 : ∀ x ∈ pre, x.2.second = 0 := by
    intro x hxp
    by_contra hcon
    have h1 := hsep y hymem x (hmem x (List.mem_append_left _ hxp)) hy0 (by omega)
    have h2 := (List.pairwise_append.mp hdesc).2.2 x hxp k (List.mem_cons_self _ _)
    exact absurd (lt_trans (lt_of_lt_of_le h1 hyk) h2) (lt_irrefl _)
  have hk0 : k.2.second = 0 := by
    by_contra hcon
    have h1 := hsep y hymem k (hmem k (List.mem_append_right _ (List.mem_cons_self _ _)))
      hy0 (by omega)
    exact absurd (lt_of_lt_of_le h1 hyk) (lt_irrefl _)
  rw [sum_second_eq_zero hpre0, Nat.zero_mod] at hb
  have hnb : uint_add s.b k.2.second = 0 := by
    rw [hb, hk0]
    exact uint_add_of_lt (by unfold UINT_RANGE; norm_num)
  have hnc : uint_sub s.c k.2.first = sum_first post := by
    rw [uint_sub_of_le (by omega) (by omega)]
    omega
  have hpost0 : sum_first post = 0 := by
    by_contra hcon
    have hlt : uint_add s.b k.2.second < uint_sub s.c k.2.first := by
      rw [hnc, hnb]
      omega
    rw [loop_body_of_lt hlt] at hx
    cases hx
  have hr1 : r = { threshold := k.1, b := 0, c := 0, stop := .equality } := by
    have heq : uint_add s.b k.2.second = uint_sub s.c k.2.first := by
      rw [hnc, hnb, hpost0]
    rw [loop_body_of_eq heq, hnb, hnc, hpost0] at hx
    cases hx
    rfl
  have hkpos : 0 < k.2.first := by omega
  refine ⟨k, hmem k (List.mem_append_right _ (List.mem_cons_self _ _)), hkpos, ?_, ?_, ?_⟩
  · intro x hxm hx0
    have hxds : x ∈ pre ++ k :: post := by
      rw [← hds]
      simpa using hxm
    rcases List.mem_append.mp hxds with h | h
    · exact le_of_lt ((List.pairwise_append.mp hdesc).2.2 x h k (List.mem_cons_self _ _))
    · rcases List.mem_cons.mp h with h | h
      · rw [h]
      · have := first_eq_zero_of_sum_first hpost0 x h
        omega
  · rw [hw, hr1]
  · rw [hd, hr1]
    simp only [interpolated_BEP, uint_sub_of_le (Nat.zero_le _) hr, Nat.sub_zero,
      get_recall_eq_precision, get_precision_pos_zero hpos]
    norm_num

theorem C22_perfect_separation_witness :
    ∃ m ∈ ([(3, ⟨0, 2⟩), (5, ⟨1, 0⟩), (6, ⟨1, 0⟩)] : class_d_list), 0 < m.2.first ∧
      (∀ x ∈ ([(3, ⟨0, 2⟩), (5, ⟨1, 0⟩), (6, ⟨1, 0⟩)] : class_d_list),
        0 < x.2.first → m.1 ≤ x.1) ∧
      walk 2 ([(3, ⟨0, 2⟩), (5, ⟨1, 0⟩), (6, ⟨1, 0⟩)] : class_d_list).reverse
          (initial_state 2 0) =
        some { threshold := m.1, b := 0, c := 0, stop := .equality } ∧
      do_threshold_estimation 2 [(3, ⟨0, 2⟩), (5, ⟨1, 0⟩), (6, ⟨1, 0⟩)] 0 = some (m.1, 1) :=
  C22_perfect_separation 2 [(3, ⟨0, 2⟩), (5, ⟨1, 0⟩), (6, ⟨1, 0⟩)] 0
    (by unfold map_ordered; simp; norm_num) (by decide)
    (by unfold UINT_RANGE; norm_num) (by decide)
    (by
      intro x hx y hy hx0 hy0
      simp only [List.mem_cons, List.mem_singleton, List.not_mem_nil, or_false] at hx hy
      rcases hx with rfl | rfl | rfl <;> rcases hy with rfl | rfl | rfl <;>
        simp at hx0 hy0 <;> norm_num)

/-! ## Rounding to a double -/

theorem round_half_even_close (y : ℚ) : |(round_half_even y : ℚ) - y| ≤ 1 / 2 := by
  have h0 := Int.fract_nonneg y
  have h1 := Int.fract_lt_one y
  have hy : y = (⌊y⌋ : ℚ) + Int.fract y := (Int.floor_add_fract y).symm
  unfold round_half_even
  rw [abs_le]
  split_ifs with h2 h3 h4
  · constructor <;> linarith
  · push_cast
    constructor <;> linarith
  · constructor <;> linarith
  · push_cast
    constructor <;> linarith

theorem round_half_even_of_lt {y : ℚ} {m : ℤ} (h : |y - m| < 1 / 2) :
    round_half_even y = m := by
  rw [abs_lt] at h
  have h0 := Int.fract_nonneg y
  have h1 := Int.fract_lt_one y
  have hy : y = (⌊y⌋ : ℚ) + Int.fract y := (Int.floor_add_fract y).symm
  have hfl : ⌊y⌋ = m ∨ ⌊y⌋ = m - 1 := by
    have h2 : ((m - 1 : ℤ) : ℚ) ≤ y := by push_cast; linarith
    have h3 : y < ((m + 1 : ℤ) : ℚ) := by push_cast; linarith
    have h4 := Int.le_floor.mpr h2
    have h5 := Int.floor_lt.mpr h3
    omega
  unfold round_half_even
  rcases hfl with hf | hf
  · have : Int.fract y < 1 / 2 := by
      have : (⌊y⌋ : ℚ) = m := by exact_mod_cast hf
      linarith
    rw [if_pos this, hf]
  · have hc : (⌊y⌋ : ℚ) = m - 1 := by
      rw [hf]
      push_cast
      ring
    have h6 : 1 / 2 < Int.fract y := by linarith
    rw [if_neg (by linarith), if_pos h6, hf]
    ring

theorem round_half_even_tie {y : ℚ} {m : ℤ} (h : y = m + 1 / 2) :
    round_half_even y = if m % 2 = 0 then m else m + 1 := by
  have hfl : ⌊y⌋ = m := by
    rw [Int.floor_eq_iff, h]
    constructor <;> linarith
  have hfr : Int.fract y = 1 / 2 := by
    unfold Int.fract
    rw [hfl, h]
    ring
  unfold round_half_even
  rw [hfr, if_neg (lt_irrefl _), if_neg (lt_irrefl _), hfl]

theorem double_exponent_eq {x : ℚ} {e : ℤ} (he : -1022 ≤ e)
    (hlo : (2 : ℚ) ^ e ≤ |x|) (hhi : |x| < (2 : ℚ) ^ (e + 1)) :
    double_exponent x = e := by
  have hpos : 0 < |x| := lt_of_lt_of_le (by positivity) hlo
  have h1 : e ≤ Int.log 2 |x| :=
    (Int.zpow_le_iff_le_log (by norm_num) hpos).mp (by exact_mod_cast hlo)
  have h2 : Int.log 2 |x| < e + 1 :=
    (Int.lt_zpow_iff_log_lt (by norm_num) hpos).mp (by exact_mod_cast hhi)
  unfold double_exponent
  rw [max_eq_left (by omega)]
  omega

theorem round_double_eq {x : ℚ} (e m : ℤ) (he : -1022 ≤ e)
    (hlo : (2 : ℚ) ^ e ≤ |x|) (hhi : |x| < (2 : ℚ) ^ (e + 1))
    (hm : |x / 2 ^ (e - 52) - m| < 1 / 2) :
    round_double x = m * 2 ^ (e - 52) := by
  unfold round_double
  rw [double_exponent_eq he hlo hhi, round_half_even_of_lt hm]

theorem round_double_zero : round_double 0 = 0 := by
  unfold round_double
  rw [zero_div, round_half_even_of_lt (show |(0 : ℚ) - ((0 : ℤ) : ℚ)| < 1 / 2 by norm_num)]
  simp

theorem round_double_one : round_double 1 = 1 := by
  rw [round_double_eq 0 (2 ^ 52) (by norm_num) (by norm_num) (by norm_num) (by norm_num)]
  norm_num

theorem round_double_half_quantum (x : ℚ) :
    |round_double x - x| ≤ 2 ^ (double_exponent x - 52) / 2 := by
  have hq : (0 : ℚ) < 2 ^ (double_exponent x - 52) := by positivity
  have hc := round_half_even_close (x / 2 ^ (double_exponent x - 52))
  have hfac : round_double x - x =
      ((round_half_even (x / 2 ^ (double_exponent x - 52)) : ℚ)
        - x / 2 ^ (double_exponent x - 52)) * 2 ^ (double_exponent x - 52) := by
    unfold round_double
    field_simp
  rw [hfac, abs_mul, abs_of_pos hq]
  calc |(round_half_even (x / 2 ^ (double_exponent x - 52)) : ℚ)
          - x / 2 ^ (double_exponent x - 52)| * 2 ^ (double_exponent x - 52)
      ≤ 1 / 2 * 2 ^ (double_exponent x - 52) :=
        mul_le_mul_of_nonneg_right hc (le_of_lt hq)
    _ = 2 ^ (double_exponent x - 52) / 2 := by ring

/-- The rounding error is at most the fraction `2 ^ -53` of the number, or
half the spacing `2 ^ -1074` of the subnormal doubles. -/
theorem round_double_relative (x : ℚ) :
    |round_double x - x| ≤ max (|x| / 2 ^ 53) (1 / 2 ^ 1075) := by
  rcases eq_or_lt_of_le (abs_nonneg x) with h0 | hpos
  · have hx : x = 0 := abs_eq_zero.mp h0.symm
    rw [hx, round_double_zero, sub_self, abs_zero]
    exact le_trans (by positivity) (le_max_right _ _)
  · refine le_trans (round_double_half_quantum x) ?_
    by_cases hlog : -1022 ≤ Int.log 2 |x|
    · have he : double_exponent x = Int.log 2 |x| := by
        unfold double_exponent
        exact max_eq_left hlog
      have h1 : (2 : ℚ) ^ Int.log 2 |x| ≤ |x| := by
        have := @Int.zpow_log_le_self ℚ _ _ 2 |x| (by norm_num) hpos
        exact_mod_cast this
      refine le_trans ?_ (le_max_left _ _)
      rw [he, zpow_sub₀ (by norm_num)]
      have h52 : (2 : ℚ) ^ (52 : ℤ) = 2 ^ 52 := by norm_cast
      rw [h52, div_div, div_le_div_iff₀ (by positivity) (by positivity)]
      have : (2 : ℚ) ^ 52 * 2 = 2 ^ 53 := by norm_num
      rw [this]
      exact mul_le_mul_of_nonneg_right h1 (by positivity)
    · have he : double_exponent x = -1022 := by
        unfold double_exponent
        exact max_eq_right (by omega)
      refine le_trans (le_of_eq ?_) (le_max_right _ _)
      rw [he]
      have : (2 : ℚ) ^ ((-1022 : ℤ) - 52) = 1 / 2 ^ 1074 := by
        rw [show ((-1022 : ℤ) - 52) = -(1074 : ℤ) by norm_num, zpow_neg, one_div]
        norm_cast
      rw [this, div_div]
      norm_num

/-- The rounding error of a number below 2 in absolute value is at most
`2 ^ -53`, half the spacing of the doubles between 1 and 2. -/
theorem round_double_close {x : ℚ} (hx : |x| < 2) :
    |round_double x - x| ≤ 1 / 2 ^ 53 := by
  have he : double_exponent x ≤ 0 := by
    unfold double_exponent
    apply max_le _ (by norm_num)
    rcases eq_or_lt_of_le (abs_nonneg x) with h0 | hpos
    · rw [← h0]
      simp
    · have : Int.log 2 |x| < 1 :=
        (Int.lt_zpow_iff_log_lt (by norm_num) hpos).mp (by
          norm_num
          exact hx)
      omega
  refine le_trans (round_double_half_quantum x) ?_
  have hq2 : (2 : ℚ) ^ (double_exponent x - 52) ≤ 1 / 2 ^ 52 := by
    have : (2 : ℚ) ^ (double_exponent x - 52) ≤ 2 ^ (-52 : ℤ) :=
      zpow_le_zpow_right₀ (by norm_num) (by omega)
    refine le_trans this (le_of_eq ?_)
    norm_num [zpow_neg]
  calc (2 : ℚ) ^ (double_exponent x - 52) / 2 ≤ 1 / 2 ^ 52 / 2 :=
        div_le_div_of_nonneg_right hq2 (by norm_num)
    _ = 1 / 2 ^ 53 := by norm_num

/-- A number rounded at a tie between two doubles. -/
theorem round_double_tie {x : ℚ} (e m : ℤ) (he : -1022 ≤ e)
    (hlo : (2 : ℚ) ^ e ≤ |x|) (hhi : |x| < (2 : ℚ) ^ (e + 1))
    (hm : x / 2 ^ (e - 52) = m + 1 / 2) :
    round_double x = ((if m % 2 = 0 then m else m + 1 : ℤ) : ℚ) * 2 ^ (e - 52) := by
  unfold round_double
  rw [double_exponent_eq he hlo hhi, round_half_even_tie hm]

/-! ## The walk in double precision -/

theorem get_precision_double_close (a b : Nat) :
    |get_precision_double a b - get_precision a b| ≤ 1 / 2 ^ 53 := by
  unfold get_precision_double
  apply round_double_close
  rw [abs_of_nonneg (get_precision_nonneg a b)]
  exact lt_of_le_of_lt (get_precision_le_one a b) (by norm_num)

theorem get_recall_double_close (a c : Nat) :
    |get_recall_double a c - get_recall a c| ≤ 1 / 2 ^ 53 :=
  get_precision_double_close a c

/-- A difference of precision and recall computed in double precision is
within `3 / 2 ^ 53` of the exact difference. -/
theorem double_difference_close (a1 b1 a2 c2 : Nat) :
    |round_double (get_precision_double a1 b1 - get_recall_double a2 c2)
      - (get_precision a1 b1 - get_recall a2 c2)| ≤ 3 / 2 ^ 53 := by
  have h1 := abs_le.mp (get_precision_double_close a1 b1)
  have h2 := abs_le.mp (get_recall_double_close a2 c2)
  have p0 := get_precision_nonneg a1 b1
  have p1 := get_precision_le_one a1 b1
  have r0 := get_recall_nonneg a2 c2
  have r1 := get_recall_le_one a2 c2
  have hx : |get_precision_double a1 b1 - get_recall_double a2 c2| < 2 := by
    rw [abs_lt]
    constructor <;> norm_num at h1 h2 ⊢ <;> linarith
  have h3 := abs_le.mp (round_double_close hx)
  rw [abs_le]
  constructor <;> norm_num at h1 h2 h3 ⊢ <;> linarith

theorem prev_diff_double_close (cat_doc_count : Nat) (s : walk_state) :
    |prev_diff_double cat_doc_count s - prev_diff cat_doc_count s| ≤ 3 / 2 ^ 53 :=
  double_difference_close _ _ _ _

theorem curr_diff_double_close (cat_doc_count : Nat) (s : walk_state)
    (bit : ℚ × class_d_list_entry) :
    |curr_diff_double cat_doc_count s bit - curr_diff cat_doc_count s bit| ≤ 3 / 2 ^ 53 := by
  exact double_difference_close
    (uint_sub cat_doc_count (uint_sub s.c bit.2.first)) (uint_sub s.c bit.2.first)
    (uint_sub cat_doc_count (uint_sub s.c bit.2.first)) (uint_add s.b bit.2.second)

theorem loop_body_double_of_lt {cat_doc_count : Nat} {s : walk_state}
    {bit : ℚ × class_d_list_entry}
    (h : uint_add s.b bit.2.second < uint_sub s.c bit.2.first) :
    loop_body_double cat_doc_count s bit =
      .next { b := uint_add s.b bit.2.second, c := uint_sub s.c bit.2.first,
              prev_bit := some bit, threshold := s.threshold } := by
  unfold loop_body_double
  simp only
  rw [if_neg (by omega), if_neg (by omega)]

theorem loop_body_double_of_eq {cat_doc_count : Nat} {s : walk_state}
    {bit : ℚ × class_d_list_entry}
    (h : uint_add s.b bit.2.second = uint_sub s.c bit.2.first) :
    loop_body_double cat_doc_count s bit =
      .leave { threshold := bit.1, b := uint_add s.b bit.2.second,
               c := uint_sub s.c bit.2.first, stop := .equality } := by
  unfold loop_body_double
  simp only
  rw [if_neg (by omega), if_pos h]

theorem loop_body_double_crossover {cat_doc_count : Nat} {s : walk_state}
    {bit p : ℚ × class_d_list_entry}
    (h : uint_sub s.c bit.2.first < uint_add s.b bit.2.second)
    (hp : s.prev_bit = some p) :
    loop_body_double cat_doc_count s bit =
      if curr_diff_double cat_doc_count s bit < prev_diff_double cat_doc_count s then
        .leave { threshold := bit.1, b := uint_add s.b bit.2.second,
                 c := uint_sub s.c bit.2.first, stop := .crossover_curr }
      else .leave { threshold := p.1, b := s.b, c := s.c, stop := .crossover_prev } := by
  unfold loop_body_double
  simp only
  rw [if_pos h]
  unfold curr_diff_double prev_diff_double
  split_ifs with h2
  · rfl
  · simp [hp]

theorem loop_body_double_crossover_curr {cat_doc_count : Nat} {s : walk_state}
    {bit : ℚ × class_d_list_entry}
    (h : uint_sub s.c bit.2.first < uint_add s.b bit.2.second)
    (hd : curr_diff_double cat_doc_count s bit < prev_diff_double cat_doc_count s) :
    loop_body_double cat_doc_count s bit =
      .leave { threshold := bit.1, b := uint_add s.b bit.2.second,
               c := uint_sub s.c bit.2.first, stop := .crossover_curr } := by
  unfold loop_body_double
  simp only
  rw [if_pos h]
  unfold curr_diff_double prev_diff_double at hd
  rw [if_pos hd]

/-- The buckets that the exact walk commits are committed in double precision
too: the two walks differ only in the choice made at a crossover. -/
theorem walk_double_append {cat_doc_count : Nat} {p : List (ℚ × class_d_list_entry)}
    {s s1 : walk_state} (h : state_after cat_doc_count p s = some s1)
    (q : List (ℚ × class_d_list_entry)) :
    walk_double cat_doc_count (p ++ q) s = walk_double cat_doc_count q s1 := by
  induction p generalizing s with
  | nil =>
    simp [state_after] at h
    simp [h]
  | cons x p ih =>
    simp only [state_after] at h
    simp only [List.cons_append, walk_double]
    cases hx : loop_body cat_doc_count s x with
    | next s2 =>
      rw [hx] at h
      obtain ⟨hlt, hs2⟩ := loop_body_next hx
      rw [loop_body_double_of_lt hlt, ← hs2]
      simpa using ih h
    | leave r =>
      rw [hx] at h
      simp at h
    | undefined =>
      rw [hx] at h
      simp at h

theorem do_threshold_estimation_double_walk {cat_doc_count : Nat}
    {bit_string : class_d_list} (threshold : ℚ) (hpos : 0 < cat_doc_count)
    (hne : bit_string ≠ []) :
    do_threshold_estimation_double cat_doc_count bit_string threshold =
      (walk_double cat_doc_count bit_string.reverse
        (initial_state cat_doc_count threshold)).map
        (fun r => (double_value.finite r.threshold,
          interpolated_BEP_double cat_doc_count r)) := by
  unfold do_threshold_estimation_double
  cases hrev : bit_string.reverse with
  | nil => exact absurd (List.reverse_eq_nil_iff.mp hrev) hne
  | cons x rest =>
    simp only
    rw [if_neg (by omega)]
    cases walk_double cat_doc_count (x :: rest) (initial_state cat_doc_count threshold) <;> rfl

/-! ## The crossover in double precision -/

/-- C3 (amended): under the count invariant, when the walk reaches the bucket
`bit` in the state `s`, after at least one committed bucket, and finds
`next_b > next_c`: the exact signed differences are the absolute values of
precision minus recall before and after the bucket; the doubles
`prev_diff` and `curr_diff` that the code computes are within `3 / 2 ^ 53` of
them; the threshold becomes the score of `bit`, with `(next_b, next_c)`
committed, exactly when the computed `curr_diff` is smaller than the computed
`prev_diff`, and otherwise the score of the previous bucket, with `(b, c)`
kept. So the bucket `bit` is taken when the exact difference after it is
smaller by more than `3 / 2 ^ 52`, the previous one when the exact difference
before `bit` is smaller by at least `3 / 2 ^ 52`, and the committed point has
an absolute difference of at most the smaller of the two plus `3 / 2 ^ 52`. -/
theorem C3_crossover_compares_rounded_differences (cat_doc_count : Nat)
    (bit_string : class_d_list) (threshold : ℚ)
    (pre post : List (ℚ × class_d_list_entry)) (bit : ℚ × class_d_list_entry)
    (s : walk_state)
    (hpos : 0 < cat_doc_count) (hr : cat_doc_count < UINT_RANGE)
    (hsum : sum_first bit_string = cat_doc_count)
    (hds : bit_string.reverse = pre ++ bit :: post) (hne : pre ≠ [])
    (hs : state_after cat_doc_count pre (initial_state cat_doc_count threshold) = some s)
    (hx : uint_sub s.c bit.2.first < uint_add s.b bit.2.second) :
    prev_diff cat_doc_count s =
      |get_precision (uint_sub cat_doc_count s.c) s.b
        - get_recall (uint_sub cat_doc_count s.c) s.c| ∧
    curr_diff cat_doc_count s bit =
      |get_precision (uint_sub cat_doc_count (uint_sub s.c bit.2.first))
          (uint_add s.b bit.2.second)
        - get_recall (uint_sub cat_doc_count (uint_sub s.c bit.2.first))
          (uint_sub s.c bit.2.first)| ∧
    |prev_diff_double cat_doc_count s - prev_diff cat_doc_count s| ≤ 3 / 2 ^ 53 ∧
    |curr_diff_double cat_doc_count s bit - curr_diff cat_doc_count s bit| ≤ 3 / 2 ^ 53 ∧
    ∃ p r, pre.getLast? = some p ∧
      r = (if curr_diff_double cat_doc_count s bit < prev_diff_double cat_doc_count s then
            { threshold := bit.1, b := uint_add s.b bit.2.second,
              c := uint_sub s.c bit.2.first, stop := .crossover_curr }
          else { threshold := p.1, b := s.b, c := s.c, stop := .crossover_prev }) ∧
      walk_double cat_doc_count bit_string.reverse
        (initial_state cat_doc_count threshold) = some r ∧
      do_threshold_estimation_double cat_doc_count bit_string threshold =
        some (.finite r.threshold, interpolated_BEP_double cat_doc_count r) ∧
      (curr_diff cat_doc_count s bit + 3 / 2 ^ 52 < prev_diff cat_doc_count s →
        r.stop = .crossover_curr) ∧
      (prev_diff cat_doc_count s + 3 / 2 ^ 52 ≤ curr_diff cat_doc_count s bit →
        r.stop = .crossover_prev) ∧
      |get_precision (uint_sub cat_doc_count r.c) r.b
        - get_recall (uint_sub cat_doc_count r.c) r.c| ≤
        min (prev_diff cat_doc_count s) (curr_diff cat_doc_count s bit) + 3 / 2 ^ 52 := by
  have hbs : bit_string ≠ [] := by
    rintro rfl
    simp at hds
  have hsum2 : sum_first pre + (bit.2.first + sum_first post) = cat_doc_count := by
    have := congrArg sum_first hds
    simp only [sum_first_reverse, sum_first_append, sum_first_cons] at this
    omega
  -- the state before `bit`
  obtain ⟨hc, _, _⟩ := state_after_counters pre _ s hs
    (by simp only [initial_state]; omega) (by simpa [initial_state] using hr)
    (by simp [initial_state, UINT_RANGE])
  simp only [initial_state] at hc
  obtain ⟨hprev, hbc⟩ := state_after_prev hs hne
  have hsc : s.c ≤ cat_doc_count := by omega
  have ha : uint_sub cat_doc_count s.c = cat_doc_count - s.c := uint_sub_of_le hsc hr
  have hnc : uint_sub s.c bit.2.first = s.c - bit.2.first :=
    uint_sub_of_le (by omega) (by omega)
  have ha1 : uint_sub cat_doc_count (uint_sub s.c bit.2.first)
      = cat_doc_count - (s.c - bit.2.first) := by
    rw [hnc]; exact uint_sub_of_le (by omega) hr
  -- signs of the two exact differences
  have hp0 : 0 ≤ prev_diff cat_doc_count s := by
    unfold prev_diff
    rw [get_recall_eq_precision, ha]
    have := get_precision_antitone (cat_doc_count - s.c) (le_of_lt hbc) (by omega)
    linarith
  have hc0 : 0 ≤ curr_diff cat_doc_count s bit := by
    unfold curr_diff
    rw [get_recall_eq_precision, ha1]
    have := get_precision_antitone (cat_doc_count - (s.c - bit.2.first))
      (le_of_lt hx) (by omega)
    linarith
  have habs_prev : prev_diff cat_doc_count s =
      |get_precision (uint_sub cat_doc_count s.c) s.b
        - get_recall (uint_sub cat_doc_count s.c) s.c| := by
    rw [abs_of_nonneg]
    · rfl
    · exact hp0
  have habs_curr : curr_diff cat_doc_count s bit =
      |get_precision (uint_sub cat_doc_count (uint_sub s.c bit.2.first))
          (uint_add s.b bit.2.second)
        - get_recall (uint_sub cat_doc_count (uint_sub s.c bit.2.first))
          (uint_sub s.c bit.2.first)| := by
    rw [abs_sub_comm, abs_of_nonneg]
    · rfl
    · exact hc0
  -- the computed differences
  have hdp := prev_diff_double_close cat_doc_count s
  have hdc := curr_diff_double_close cat_doc_count s bit
  have hdp2 := abs_le.mp hdp
  have hdc2 := abs_le.mp hdc
  refine ⟨habs_prev, habs_curr, hdp, hdc, ?_⟩
  cases hl : pre.getLast? with
  | none => exact absurd (List.getLast?_eq_none_iff.mp hl) hne
  | some p =>
    rw [hl] at hprev
    refine ⟨p, (if curr_diff_double cat_doc_count s bit
            < prev_diff_double cat_doc_count s then
            { threshold := bit.1, b := uint_add s.b bit.2.second,
              c := uint_sub s.c bit.2.first, stop := .crossover_curr }
          else { threshold := p.1, b := s.b, c := s.c, stop := .crossover_prev }),
      rfl, rfl, ?_, ?_, ?_, ?_, ?_⟩
    · rw [hds, walk_double_append hs, walk_double, loop_body_double_crossover hx hprev]
      split_ifs <;> rfl
    · rw [do_threshold_estimation_double_walk threshold hpos hbs, hds,
        walk_double_append hs, walk_double, loop_body_double_crossover hx hprev]
      split_ifs <;> rfl
    · intro hgap
      rw [if_pos]
      linarith [hdp2.1, hdp2.2, hdc2.1, hdc2.2]
    · intro hgap
      rw [if_neg]
      linarith [hdp2.1, hdp2.2, hdc2.1, hdc2.2]
    · split_ifs with hlt
      · simp only
        rw [← habs_curr]
        rcases min_choice (prev_diff cat_doc_count s) (curr_diff cat_doc_count s bit)
          with hmin | hmin
        · rw [hmin]
          linarith [hdp2.1, hdp2.2, hdc2.1, hdc2.2]
        · rw [hmin]
          linarith [hdp2.1, hdp2.2, hdc2.1, hdc2.2]
      · simp only
        rw [← habs_prev]
        rcases min_choice (prev_diff cat_doc_count s) (curr_diff cat_doc_count s bit)
          with hmin | hmin
        · rw [hmin]
          linarith [hdp2.1, hdp2.2, hdc2.1, hdc2.2]
        · rw [hmin]
          linarith [hdp2.1, hdp2.2, hdc2.1, hdc2.2]

theorem C3_crossover_compares_rounded_differences_witness :
    prev_diff 2 ⟨0, 1, some (2, ⟨1, 0⟩), 0⟩ =
      |get_precision (uint_sub 2 1) 0 - get_recall (uint_sub 2 1) 1| ∧
    curr_diff 2 ⟨0, 1, some (2, ⟨1, 0⟩), 0⟩ (1, ⟨1, 3⟩) =
      |get_precision (uint_sub 2 (uint_sub 1 1)) (uint_add 0 3)
        - get_recall (uint_sub 2 (uint_sub 1 1)) (uint_sub 1 1)| ∧
    |prev_diff_double 2 ⟨0, 1, some (2, ⟨1, 0⟩), 0⟩
      - prev_diff 2 ⟨0, 1, some (2, ⟨1, 0⟩), 0⟩| ≤ 3 / 2 ^ 53 ∧
    |curr_diff_double 2 ⟨0, 1, some (2, ⟨1, 0⟩), 0⟩ (1, ⟨1, 3⟩)
      - curr_diff 2 ⟨0, 1, some (2, ⟨1, 0⟩), 0⟩ (1, ⟨1, 3⟩)| ≤ 3 / 2 ^ 53 ∧
    ∃ p r, ([(2, ⟨1, 0⟩)] : List (ℚ × class_d_list_entry)).getLast? = some p ∧
      r = (if curr_diff_double 2 ⟨0, 1, some (2, ⟨1, 0⟩), 0⟩ (1, ⟨1, 3⟩)
              < prev_diff_double 2 ⟨0, 1, some (2, ⟨1, 0⟩), 0⟩ then
            { threshold := 1, b := uint_add 0 3, c := uint_sub 1 1, stop := .crossover_curr }
          else { threshold := p.1, b := 0, c := 1, stop := .crossover_prev }) ∧
      walk_double 2 ([(1, ⟨1, 3⟩), (2, ⟨1, 0⟩)] : class_d_list).reverse
        (initial_state 2 0) = some r ∧
      do_threshold_estimation_double 2 [(1, ⟨1, 3⟩), (2, ⟨1, 0⟩)] 0 =
        some (.finite r.threshold, interpolated_BEP_double 2 r) ∧
      (curr_diff 2 ⟨0, 1, some (2, ⟨1, 0⟩), 0⟩ (1, ⟨1, 3⟩) + 3 / 2 ^ 52
          < prev_diff 2 ⟨0, 1, some (2, ⟨1, 0⟩), 0⟩ →
        r.stop = .crossover_curr) ∧
      (prev_diff 2 ⟨0, 1, some (2, ⟨1, 0⟩), 0⟩ + 3 / 2 ^ 52
          ≤ curr_diff 2 ⟨0, 1, some (2, ⟨1, 0⟩), 0⟩ (1, ⟨1, 3⟩) →
        r.stop = .crossover_prev) ∧
      |get_precision (uint_sub 2 r.c) r.b - get_recall (uint_sub 2 r.c) r.c| ≤
        min (prev_diff 2 ⟨0, 1, some (2, ⟨1, 0⟩), 0⟩)
          (curr_diff 2 ⟨0, 1, some (2, ⟨1, 0⟩), 0⟩ (1, ⟨1, 3⟩)) + 3 / 2 ^ 52 :=
  have hr : (2 : Nat) < UINT_RANGE := by unfold UINT_RANGE; norm_num
  have h10 : uint_sub 1 1 = 0 := uint_sub_of_le (le_refl 1) one_lt_UINT_RANGE
  have h21 : uint_sub 2 1 = 1 := uint_sub_of_le (by omega) hr
  have h00 : uint_add 0 0 = 0 := uint_add_of_lt (by unfold UINT_RANGE; norm_num)
  have h03 : uint_add 0 3 = 3 := uint_add_of_lt (by unfold UINT_RANGE; norm_num)
  C3_crossover_compares_rounded_differences 2 [(1, ⟨1, 3⟩), (2, ⟨1, 0⟩)] 0
    [(2, ⟨1, 0⟩)] [] (1, ⟨1, 3⟩) ⟨0, 1, some (2, ⟨1, 0⟩), 0⟩
    (by decide) hr (by decide) (by simp) (by simp)
    (by
      rw [state_after, loop_body_of_lt]
      · simp only [initial_state, h21, h00, state_after]
      · simp only [initial_state, h21, h00]
        omega)
    (by
      show uint_sub 1 1 < uint_add 0 3
      rw [h10, h03]
      omega)

/-- C3 as stated fails on an exact tie: on the buckets `(10, 1, 1)`,
`(9, 1, 1)`, `(8, 1, 0)` with `cat_doc_count = 3` the walk finds
`next_b = 2 > next_c = 1` at the bucket of 9, after the bucket of 10 was
committed; the exact differences before and after it are both `1 / 6`, but
the doubles are `prev_diff = 3002399751580331 / 2 ^ 54` and
`curr_diff = 3002399751580330 / 2 ^ 54`, so the code takes the bucket of 9 and
commits `(2, 1)`, where the claim keeps the bucket of 10 and `(1, 2)`. -/
theorem C3_counterexample_tie_takes_current :
    map_ordered [(8, ⟨1, 0⟩), (9, ⟨1, 1⟩), (10, ⟨1, 1⟩)] ∧
    sum_first [(8, ⟨1, 0⟩), (9, ⟨1, 1⟩), (10, ⟨1, 1⟩)] = 3 ∧
    ([(8, ⟨1, 0⟩), (9, ⟨1, 1⟩), (10, ⟨1, 1⟩)] : class_d_list).reverse
      = [(10, ⟨1, 1⟩)] ++ (9, ⟨1, 1⟩) :: [(8, ⟨1, 0⟩)] ∧
    state_after 3 [(10, ⟨1, 1⟩)] (initial_state 3 0)
      = some { b := 1, c := 2, prev_bit := some (10, ⟨1, 1⟩), threshold := 0 } ∧
    uint_sub 2 1 < uint_add 1 1 ∧
    prev_diff 3 { b := 1, c := 2, prev_bit := some (10, ⟨1, 1⟩), threshold := 0 } = 1 / 6 ∧
    curr_diff 3 { b := 1, c := 2, prev_bit := some (10, ⟨1, 1⟩), threshold := 0 }
      (9, ⟨1, 1⟩) = 1 / 6 ∧
    prev_diff_double 3 { b := 1, c := 2, prev_bit := some (10, ⟨1, 1⟩), threshold := 0 }
      = 3002399751580331 / 2 ^ 54 ∧
    curr_diff_double 3 { b := 1, c := 2, prev_bit := some (10, ⟨1, 1⟩), threshold := 0 }
      (9, ⟨1, 1⟩) = 3002399751580330 / 2 ^ 54 ∧
    walk_double 3 ([(8, ⟨1, 0⟩), (9, ⟨1, 1⟩), (10, ⟨1, 1⟩)] : class_d_list).reverse
        (initial_state 3 0)
      = some { threshold := 9, b := 2, c := 1, stop := .crossover_curr } ∧
    do_threshold_estimation_double 3 [(8, ⟨1, 0⟩), (9, ⟨1, 1⟩), (10, ⟨1, 1⟩)] 0
      = some (.finite 9, interpolated_BEP_double 3
          { threshold := 9, b := 2, c := 1, stop := .crossover_curr }) := by
  have hr3 : (3 : Nat) < UINT_RANGE := by unfold UINT_RANGE; norm_num
  have hr2 : (2 : Nat) < UINT_RANGE := by unfold UINT_RANGE; norm_num
  have s31 : uint_sub 3 1 = 2 := uint_sub_of_le (by omega) hr3
  have s32 : uint_sub 3 2 = 1 := uint_sub_of_le (by omega) hr3
  have s21 : uint_sub 2 1 = 1 := uint_sub_of_le (by omega) hr2
  have a01 : uint_add 0 1 = 1 := uint_add_of_lt (by unfold UINT_RANGE; norm_num)
  have a11 : uint_add 1 1 = 2 := uint_add_of_lt (by unfold UINT_RANGE; norm_num)
  have hhalf : round_double (1 / 2) = 1 / 2 := by
    rw [round_double_eq (-1) (2 ^ 52) (by norm_num) (by norm_num [abs_of_pos])
      (by norm_num [abs_of_pos]) (by norm_num [abs_of_pos, abs_lt])]
    norm_num
  have hthird : round_double (1 / 3) = 6004799503160661 / 2 ^ 54 := by
    rw [round_double_eq (-2) 6004799503160661 (by norm_num) (by norm_num [abs_of_pos])
      (by norm_num [abs_of_pos]) (by norm_num [abs_of_pos, abs_lt])]
    norm_num
  have htwothirds : round_double (2 / 3) = 6004799503160661 / 2 ^ 53 := by
    rw [round_double_eq (-1) 6004799503160661 (by norm_num) (by norm_num [abs_of_pos])
      (by norm_num [abs_of_pos]) (by norm_num [abs_of_pos, abs_lt])]
    norm_num
  have hprev : round_double (1 / 2 - 6004799503160661 / 2 ^ 54)
      = 3002399751580331 / 2 ^ 54 := by
    rw [round_double_eq (-3) 6004799503160662 (by norm_num) (by norm_num [abs_of_pos])
      (by norm_num [abs_of_pos]) (by norm_num [abs_of_pos, abs_lt])]
    norm_num
  have hcurr : round_double (6004799503160661 / 2 ^ 53 - 1 / 2)
      = 3002399751580330 / 2 ^ 54 := by
    rw [round_double_eq (-3) 6004799503160660 (by norm_num) (by norm_num [abs_of_pos])
      (by norm_num [abs_of_pos]) (by norm_num [abs_of_pos, abs_lt])]
    norm_num
  have hp11 : get_precision 1 1 = 1 / 2 := by norm_num [get_precision]
  have hr12 : get_recall 1 2 = 1 / 3 := by norm_num [get_recall]
  have hr21 : get_recall 2 1 = 2 / 3 := by norm_num [get_recall]
  have hp22 : get_precision 2 2 = 1 / 2 := by norm_num [get_precision]
  have hs : state_after 3 [(10, ⟨1, 1⟩)] (initial_state 3 0)
      = some { b := 1, c := 2, prev_bit := some (10, ⟨1, 1⟩), threshold := 0 } := by
    rw [state_after, loop_body_of_lt]
    · simp only [initial_state, s31, a01, state_after]
    · simp only [initial_state, s31, a01]
      omega
  have hpd : prev_diff_double 3
      { b := 1, c := 2, prev_bit := some (10, ⟨1, 1⟩), threshold := 0 }
      = 3002399751580331 / 2 ^ 54 := by
    unfold prev_diff_double get_precision_double get_recall_double
    simp only [s32, hp11, hr12, hhalf, hthird, hprev]
  have hcd : curr_diff_double 3
      { b := 1, c := 2, prev_bit := some (10, ⟨1, 1⟩), threshold := 0 } (9, ⟨1, 1⟩)
      = 3002399751580330 / 2 ^ 54 := by
    unfold curr_diff_double get_precision_double get_recall_double
    simp only [s21, s31, a11, hp22, hr21, hhalf, htwothirds, hcurr]
  have hx : uint_sub 2 1 < uint_add 1 1 := by
    rw [s21, a11]
    omega
  have hb : loop_body_double 3
      { b := 1, c := 2, prev_bit := some (10, ⟨1, 1⟩), threshold := 0 } (9, ⟨1, 1⟩)
      = .leave { threshold := 9, b := 2, c := 1, stop := .crossover_curr } := by
    rw [@loop_body_double_crossover_curr 3
      { b := 1, c := 2, prev_bit := some (10, ⟨1, 1⟩), threshold := 0 } (9, ⟨1, 1⟩) hx (by
      rw [hpd, hcd]
      norm_num)]
    simp only [s21, a11]
  have hrev : ([(8, ⟨1, 0⟩), (9, ⟨1, 1⟩), (10, ⟨1, 1⟩)] : class_d_list).reverse
      = [(10, ⟨1, 1⟩)] ++ (9, ⟨1, 1⟩) :: [(8, ⟨1, 0⟩)] := by simp
  have hw : walk_double 3
      ([(8, ⟨1, 0⟩), (9, ⟨1, 1⟩), (10, ⟨1, 1⟩)] : class_d_list).reverse (initial_state 3 0)
      = some { threshold := 9, b := 2, c := 1, stop := .crossover_curr } := by
    rw [hrev, walk_double_append hs, walk_double, hb]
  refine ⟨?_, ?_, hrev, hs, hx, ?_, ?_, hpd, hcd, hw, ?_⟩
  · unfold map_ordered; simp; norm_num
  · norm_num [sum_first]
  · unfold prev_diff
    simp only [s32, hp11, hr12]
    norm_num
  · unfold curr_diff
    simp only [s21, s31, a11, hp22, hr21]
    norm_num
  · rw [do_threshold_estimation_double_walk 0 (by norm_num) (by simp), hw]
    rfl

/-! ## The empty target category in double precision -/

/-- A number that is a `double` is the result of an operation that yields it
exactly. -/
theorem double_of_real_of_is_double {x : ℚ} (h : is_double x) :
    double_of_real x = .finite x := by
  obtain ⟨h1, h2⟩ := h
  have h3 := abs_le.mp h2
  unfold double_of_real
  rw [h1, if_neg (by linarith), if_neg (by linarith)]

/-- A finite result of an operation is the exact result rounded. -/
theorem double_of_real_finite {x y : ℚ} (h : double_of_real x = .finite y) :
    y = round_double x := by
  unfold double_of_real at h
  split_ifs at h
  injection h with h
  exact h.symm

/-- With `cat_doc_count = 0` and a non-empty ordered map the threshold is the
double-precision product of 1.5 and the highest key. -/
theorem do_threshold_estimation_double_zero {bit_string : class_d_list} (threshold : ℚ)
    (hne : bit_string ≠ []) (hord : map_ordered bit_string) :
    ∃ top ∈ bit_string, (∀ x ∈ bit_string, x.1 ≤ top.1) ∧
      do_threshold_estimation_double 0 bit_string threshold =
        some (double_of_real (1.5 * top.1), 1) := by
  rcases List.eq_nil_or_concat bit_string with h0 | ⟨p, top, hp⟩
  · exact absurd h0 hne
  · rw [List.concat_eq_append] at hp
    subst hp
    refine ⟨top, by simp, ?_, by simp [do_threshold_estimation_double]⟩
    intro x hx
    unfold map_ordered at hord
    rw [List.pairwise_append] at hord
    rcases List.mem_append.mp hx with h | h
    · exact le_of_lt (hord.2.2 x h top (by simp))
    · simp at h
      rw [h]

/-- C5 (amended): on a non-empty bucket list, with `cat_doc_count = 0`,
`do_threshold_estimation` sets the threshold to the double-precision product
of 1.5 and the highest score `top` of the list, and returns 1, whatever the
counters are. The product is `1.5 * top` rounded to the nearest double: it is
`1.5 * top` itself when that number is a double, and when it is finite it
differs from `1.5 * top` by at most the fraction `2 ^ -53` of it (or
`2 ^ -1075`, for a subnormal product). -/
theorem C5_empty_category_rounded_product (bit_string : class_d_list) (threshold : ℚ)
    (hne : bit_string ≠ []) (hord : map_ordered bit_string) :
    ∃ top ∈ bit_string, (∀ x ∈ bit_string, x.1 ≤ top.1) ∧
      do_threshold_estimation_double 0 bit_string threshold =
        some (double_of_real (1.5 * top.1), 1) ∧
      (is_double (1.5 * top.1) →
        do_threshold_estimation_double 0 bit_string threshold =
          some (.finite (1.5 * top.1), 1)) ∧
      (∀ y, double_of_real (1.5 * top.1) = .finite y →
        y = round_double (1.5 * top.1) ∧
        |y - 1.5 * top.1| ≤ max (|1.5 * top.1| / 2 ^ 53) (1 / 2 ^ 1075)) := by
  obtain ⟨top, htop, hmax, hdo⟩ := do_threshold_estimation_double_zero threshold hne hord
  refine ⟨top, htop, hmax, hdo, ?_, ?_⟩
  · intro hd
    rw [hdo, double_of_real_of_is_double hd]
  · intro y hy
    have hyr := double_of_real_finite hy
    refine ⟨hyr, ?_⟩
    rw [hyr]
    exact round_double_relative _

theorem C5_empty_category_rounded_product_witness :
    ∃ top ∈ ([(1, ⟨0, 1⟩), (2, ⟨3, 4⟩)] : class_d_list),
      (∀ x ∈ ([(1, ⟨0, 1⟩), (2, ⟨3, 4⟩)] : class_d_list), x.1 ≤ top.1) ∧
      do_threshold_estimation_double 0 [(1, ⟨0, 1⟩), (2, ⟨3, 4⟩)] 7 =
        some (double_of_real (1.5 * top.1), 1) ∧
      (is_double (1.5 * top.1) →
        do_threshold_estimation_double 0 [(1, ⟨0, 1⟩), (2, ⟨3, 4⟩)] 7 =
          some (.finite (1.5 * top.1), 1)) ∧
      (∀ y, double_of_real (1.5 * top.1) = .finite y →
        y = round_double (1.5 * top.1) ∧
        |y - 1.5 * top.1| ≤ max (|1.5 * top.1| / 2 ^ 53) (1 / 2 ^ 1075)) :=
  C5_empty_category_rounded_product [(1, ⟨0, 1⟩), (2, ⟨3, 4⟩)] 7 (by simp)
    (by simp [map_ordered])

/-- C5 as stated fails: for the single bucket whose score is the double
nearest to 0.1, `3602879701896397 / 2 ^ 55`, the threshold is set to the
double `5404319552844596 / 2 ^ 55`, which is not 1.5 times the score (that
number, `5404319552844595.5 / 2 ^ 55`, lies half-way between two doubles).
For the single bucket whose score is the largest double the threshold is
`+inf`. -/
theorem C5_counterexample_product_rounds :
    is_double (3602879701896397 / 2 ^ 55) ∧
    do_threshold_estimation_double 0 [(3602879701896397 / 2 ^ 55, ⟨0, 1⟩)] 0 =
      some (.finite (5404319552844596 / 2 ^ 55), 1) ∧
    (5404319552844596 / 2 ^ 55 : ℚ) ≠ 1.5 * (3602879701896397 / 2 ^ 55) ∧
    is_double DBL_MAX ∧
    do_threshold_estimation_double 0 [(DBL_MAX, ⟨0, 1⟩)] 0 = some (.pos_inf, 1) := by
  have hk : round_double (3602879701896397 / 2 ^ 55) = 3602879701896397 / 2 ^ 55 := by
    rw [round_double_eq (-4) 7205759403792794 (by norm_num) (by norm_num [abs_of_pos])
      (by norm_num [abs_of_pos]) (by norm_num [abs_of_pos, abs_lt])]
    norm_num
  have hprod : round_double (1.5 * (3602879701896397 / 2 ^ 55))
      = 5404319552844596 / 2 ^ 55 := by
    rw [round_double_tie (-3) 5404319552844595 (by norm_num) (by norm_num [abs_of_pos])
      (by norm_num [abs_of_pos]) (by norm_num)]
    norm_num
  have hmax : round_double DBL_MAX = DBL_MAX := by
    unfold DBL_MAX
    rw [round_double_eq 1023 (2 ^ 53 - 1) (by norm_num) (by norm_num [abs_of_pos])
      (by norm_num [abs_of_pos]) (by norm_num [abs_of_pos, abs_lt])]
    norm_num
  have hover : round_double (1.5 * DBL_MAX) = 6755399441055743 * 2 ^ 972 := by
    unfold DBL_MAX
    rw [round_double_eq 1024 6755399441055743 (by norm_num) (by norm_num [abs_of_pos])
      (by norm_num [abs_of_pos]) (by norm_num [abs_of_pos, abs_lt])]
    norm_num
  refine ⟨⟨hk, ?_⟩, ?_, by norm_num, ⟨hmax, ?_⟩, ?_⟩
  · unfold DBL_MAX
    rw [abs_of_pos (by norm_num)]
    norm_num
  · have : double_of_real (1.5 * (3602879701896397 / 2 ^ 55))
        = .finite (5404319552844596 / 2 ^ 55) := by
      unfold double_of_real
      rw [hprod, if_neg (by unfold DBL_MAX; norm_num), if_neg (by unfold DBL_MAX; norm_num)]
    simp only [do_threshold_estimation_double, List.reverse_cons, List.reverse_nil,
      List.nil_append, if_true, this]
  · unfold DBL_MAX
    rw [abs_of_pos (by norm_num)]
  · have : double_of_real (1.5 * DBL_MAX) = .pos_inf := by
      unfold double_of_real
      rw [hover, if_pos (by unfold DBL_MAX; norm_num)]
    simp only [do_threshold_estimation_double, List.reverse_cons, List.reverse_nil,
      List.nil_append, if_true, this]

/-! ## Leaving the loop in double precision -/

theorem loop_body_double_leave {cat_doc_count : Nat} {s : walk_state}
    {bit : ℚ × class_d_list_entry} {r : walk_result}
    (h : loop_body_double cat_doc_count s bit = .leave r) :
    (uint_add s.b bit.2.second = uint_sub s.c bit.2.first ∧
      r = { threshold := bit.1, b := uint_add s.b bit.2.second,
            c := uint_sub s.c bit.2.first, stop := .equality }) ∨
    (uint_sub s.c bit.2.first < uint_add s.b bit.2.second ∧
      curr_diff_double cat_doc_count s bit < prev_diff_double cat_doc_count s ∧
      r = { threshold := bit.1, b := uint_add s.b bit.2.second,
            c := uint_sub s.c bit.2.first, stop := .crossover_curr }) ∨
    (uint_sub s.c bit.2.first < uint_add s.b bit.2.second ∧
      ¬ curr_diff_double cat_doc_count s bit < prev_diff_double cat_doc_count s ∧
      ∃ p, s.prev_bit = some p ∧
        r = { threshold := p.1, b := s.b, c := s.c, stop := .crossover_prev }) := by
  rcases Nat.lt_trichotomy (uint_add s.b bit.2.second) (uint_sub s.c bit.2.first)
    with hlt | heq | hgt
  · rw [loop_body_double_of_lt hlt] at h
    cases h
  · rw [loop_body_double_of_eq heq] at h
    left
    injection h with h
    exact ⟨heq, h.symm⟩
  · right
    by_cases hd : curr_diff_double cat_doc_count s bit < prev_diff_double cat_doc_count s
    · rw [loop_body_double_crossover_curr hgt hd] at h
      left
      injection h with h
      exact ⟨hgt, hd, h.symm⟩
    · right
      refine ⟨hgt, hd, ?_⟩
      cases hp : s.prev_bit with
      | none =>
        exfalso
        unfold loop_body_double at h
        simp only at h
        rw [if_pos hgt] at h
        unfold curr_diff_double prev_diff_double at hd
        rw [if_neg hd, hp] at h
        cases h
      | some p =>
        rw [loop_body_double_crossover hgt hp, if_neg hd] at h
        injection h with h
        exact ⟨p, rfl, h.symm⟩

theorem prev_diff_double_initial {cat_doc_count : Nat} (threshold : ℚ)
    (hpos : 0 < cat_doc_count) (hr : cat_doc_count < UINT_RANGE) :
    prev_diff_double cat_doc_count (initial_state cat_doc_count threshold) = 1 := by
  unfold prev_diff_double initial_state get_precision_double get_recall_double
  simp only
  rw [uint_sub_of_le (le_refl _) hr]
  have h1 : get_precision (cat_doc_count - cat_doc_count) 0 = 1 := by
    unfold get_precision
    simp
  have h2 : get_recall (cat_doc_count - cat_doc_count) cat_doc_count = 0 := by
    unfold get_recall
    rw [if_neg (by omega)]
    simp
  rw [h1, h2, round_double_one, round_double_zero, sub_zero, round_double_one]

/-- At the first bucket the exact `curr_diff` stays below 1 by `2 ^ -32` at
least: a precision that is not 0 is at least `1 / 2 ^ 32`. -/
theorem curr_diff_initial_margin {cat_doc_count : Nat} (threshold : ℚ)
    (bit : ℚ × class_d_list_entry)
    (hpos : 0 < cat_doc_count) (hr : cat_doc_count < UINT_RANGE) :
    curr_diff cat_doc_count (initial_state cat_doc_count threshold) bit
      ≤ 1 - 1 / 2 ^ 32 := by
  unfold curr_diff initial_state
  simp only
  have h1 := get_recall_le_one
    (uint_sub cat_doc_count (uint_sub cat_doc_count bit.2.first))
    (uint_sub cat_doc_count bit.2.first)
  have h2 := get_precision_nonneg
    (uint_sub cat_doc_count (uint_sub cat_doc_count bit.2.first))
    (uint_add 0 bit.2.second)
  rcases Nat.eq_zero_or_pos
    (uint_sub cat_doc_count (uint_sub cat_doc_count bit.2.first)) with h0 | h0
  · have hnc : cat_doc_count = uint_sub cat_doc_count bit.2.first :=
      uint_sub_eq_zero hr (uint_sub_lt _ _) h0
    have : get_recall (uint_sub cat_doc_count (uint_sub cat_doc_count bit.2.first))
        (uint_sub cat_doc_count bit.2.first) = 0 := by
      rw [h0, ← hnc]
      unfold get_recall
      rw [if_neg (by omega)]
      simp
    rw [this]
    have : (0 : ℚ) ≤ 1 - 1 / 2 ^ 32 := by norm_num
    linarith
  · have hb := uint_add_lt 0 bit.2.second
    have ha := uint_sub_lt cat_doc_count (uint_sub cat_doc_count bit.2.first)
    have : (1 : ℚ) / 2 ^ 32 ≤ get_precision
        (uint_sub cat_doc_count (uint_sub cat_doc_count bit.2.first))
        (uint_add 0 bit.2.second) := by
      rw [get_precision_of_pos (by omega)]
      have hA : (1 : ℚ) ≤
          ((uint_sub cat_doc_count (uint_sub cat_doc_count bit.2.first) : Nat) : ℚ) := by
        exact_mod_cast h0
      have hB : ((uint_add 0 bit.2.second : Nat) : ℚ) ≤ 2 ^ 32 - 1 := by
        rw [UINT_RANGE_eq] at hb
        have : uint_add 0 bit.2.second ≤ 4294967295 := by omega
        have h3 : ((uint_add 0 bit.2.second : Nat) : ℚ) ≤ 4294967295 := by exact_mod_cast this
        have h4 : (2 : ℚ) ^ 32 - 1 = 4294967295 := by norm_num
        rw [h4]
        exact h3
      rw [div_le_div_iff₀ (by norm_num) (by linarith)]
      nlinarith
    linarith

theorem curr_diff_double_initial_lt_one {cat_doc_count : Nat} (threshold : ℚ)
    (bit : ℚ × class_d_list_entry)
    (hpos : 0 < cat_doc_count) (hr : cat_doc_count < UINT_RANGE) :
    curr_diff_double cat_doc_count (initial_state cat_doc_count threshold) bit < 1 := by
  have h1 := curr_diff_initial_margin threshold bit hpos hr
  have h2 := (abs_le.mp
    (curr_diff_double_close cat_doc_count (initial_state cat_doc_count threshold) bit)).2
  have h3 : (3 : ℚ) / 2 ^ 53 < 1 / 2 ^ 32 := by norm_num
  linarith

/-- The walk in double precision leaves the loop at the bucket at which the
exact walk leaves it. -/
theorem do_threshold_estimation_double_leaves {cat_doc_count : Nat}
    {bit_string : class_d_list}
    (threshold : ℚ) (hpos : 0 < cat_doc_count) (hr : cat_doc_count < UINT_RANGE)
    (hsum : sum_first bit_string = cat_doc_count) :
    ∃ pre bit post s r, bit_string.reverse = pre ++ bit :: post ∧
      state_after cat_doc_count pre (initial_state cat_doc_count threshold) = some s ∧
      s.c = cat_doc_count - sum_first pre ∧
      s.b = sum_second pre % UINT_RANGE ∧
      loop_body_double cat_doc_count s bit = .leave r ∧
      walk_double cat_doc_count bit_string.reverse
        (initial_state cat_doc_count threshold) = some r ∧
      do_threshold_estimation_double cat_doc_count bit_string threshold =
        some (.finite r.threshold, interpolated_BEP_double cat_doc_count r) := by
  obtain ⟨pre, bit, post, s, r0, hds, hs, hc, hb, hx, _, _⟩ :=
    do_threshold_estimation_leaves threshold hpos hr hsum
  have hne : bit_string ≠ [] := by
    rintro rfl
    simp at hds
  have hleave : ∃ r, loop_body_double cat_doc_count s bit = .leave r := by
    rcases loop_body_leave hx with ⟨heq, _⟩ | ⟨hlt, _, _⟩ | ⟨hlt, _, p, hp, _⟩
    · exact ⟨_, loop_body_double_of_eq heq⟩
    · by_cases hpre : pre = []
      · subst hpre
        simp [state_after] at hs
        subst hs
        refine ⟨_, loop_body_double_crossover_curr hlt ?_⟩
        rw [prev_diff_double_initial threshold hpos hr]
        exact curr_diff_double_initial_lt_one threshold bit hpos hr
      · have hprev := (state_after_prev hs hpre).1
        cases hl : pre.getLast? with
        | none => exact absurd (List.getLast?_eq_none_iff.mp hl) hpre
        | some p =>
          rw [hl] at hprev
          rw [loop_body_double_crossover hlt hprev]
          split_ifs
          · exact ⟨_, rfl⟩
          · exact ⟨_, rfl⟩
    · rw [loop_body_double_crossover hlt hp]
      split_ifs
      · exact ⟨_, rfl⟩
      · exact ⟨_, rfl⟩
  obtain ⟨r, hrd⟩ := hleave
  have hw : walk_double cat_doc_count bit_string.reverse
      (initial_state cat_doc_count threshold) = some r := by
    rw [hds, walk_double_append hs, walk_double, hrd]
  refine ⟨pre, bit, post, s, r, hds, hs, hc, hb, hrd, hw, ?_⟩
  rw [do_threshold_estimation_double_walk threshold hpos hne, hw]
  rfl

/-! ## How close the chosen threshold is to the break-even point -/

/-- The exact deviations at the bucket `bit` where the walk stops: the rule
`score >= bit.1` has the deviation `curr_diff`, no bucket from `bit`
downwards has a smaller one, and the bucket just above `bit` has the
deviation `prev_diff`. -/
theorem deviations_at_stop {cat_doc_count : Nat} {bit_string : class_d_list}
    {threshold : ℚ} {pre post : List (ℚ × class_d_list_entry)}
    {bit : ℚ × class_d_list_entry} {s : walk_state}
    (hord : map_ordered bit_string) (hpos : 0 < cat_doc_count)
    (hr : cat_doc_count < UINT_RANGE) (hsum : sum_first bit_string = cat_doc_count)
    (hneg : sum_second bit_string < UINT_RANGE)
    (hds : bit_string.reverse = pre ++ bit :: post)
    (hs : state_after cat_doc_count pre (initial_state cat_doc_count threshold) = some s)
    (hc : s.c = cat_doc_count - sum_first pre)
    (hb : s.b = sum_second pre % UINT_RANGE)
    (hge : uint_sub s.c bit.2.first ≤ uint_add s.b bit.2.second) :
    rule_deviation bit_string bit.1 = curr_diff cat_doc_count s bit ∧
    (∀ x ∈ bit_string, x.1 ≤ bit.1 →
      curr_diff cat_doc_count s bit ≤ rule_deviation bit_string x.1) ∧
    (∀ x, pre.getLast? = some x →
      rule_deviation bit_string x.1 = prev_diff cat_doc_count s) := by
  have hdesc : List.Pairwise (fun a b => b.1 < a.1) (pre ++ bit :: post) := by
    rw [← hds, List.pairwise_reverse]
    exact hord
  have hsum2 : sum_first pre + (bit.2.first + sum_first post) = cat_doc_count := by
    have := congrArg sum_first hds
    simp only [sum_first_reverse, sum_first_append, sum_first_cons] at this
    omega
  have hneg2 : sum_second pre + (bit.2.second + sum_second post) < UINT_RANGE := by
    have := congrArg sum_second hds
    simp only [sum_second_reverse, sum_second_append, sum_second_cons] at this
    omega
  rw [Nat.mod_eq_of_lt (by omega)] at hb
  have hnc : uint_sub s.c bit.2.first = sum_first post := by
    rw [uint_sub_of_le (by omega) (by omega)]
    omega
  have hnb : uint_add s.b bit.2.second = sum_second pre + bit.2.second := by
    rw [hb]
    exact uint_add_of_lt (by omega)
  rw [hnc, hnb] at hge
  have ha1 : uint_sub cat_doc_count (sum_first post) = sum_first pre + bit.2.first := by
    rw [uint_sub_of_le (by omega) hr]
    omega
  have ha0 : uint_sub cat_doc_count s.c = sum_first pre := by
    rw [uint_sub_of_le (by omega) hr]
    omega
  have hsc : s.c = bit.2.first + sum_first post := by omega
  have hpost : sum_first post = cat_doc_count - (sum_first pre + bit.2.first) := by omega
  have hprev_eq : prev_diff cat_doc_count s =
      get_precision (sum_first pre) (sum_second pre)
        - get_recall (sum_first pre) (bit.2.first + sum_first post) := by
    unfold prev_diff
    rw [ha0, hb, hsc]
  have hcurr_eq : curr_diff cat_doc_count s bit =
      get_recall (sum_first pre + bit.2.first) (sum_first post)
        - get_precision (sum_first pre + bit.2.first) (sum_second pre + bit.2.second) := by
    unfold curr_diff
    rw [hnc, hnb, ha1]
  have hdev_bit := rule_deviation_at hord hds
  have hcurr0 : 0 ≤ get_recall (sum_first pre + bit.2.first) (sum_first post)
      - get_precision (sum_first pre + bit.2.first) (sum_second pre + bit.2.second) := by
    have := @get_precision_le_recall (sum_first pre + bit.2.first)
      (sum_second pre + bit.2.second) (sum_first post) hge (by omega)
    linarith
  refine ⟨?_, ?_, ?_⟩
  · rw [hdev_bit, hcurr_eq, abs_sub_comm, abs_of_nonneg hcurr0]
  · -- the buckets from `bit` downwards are not closer to the break-even point
    intro x hxm hle
    have hxds : x ∈ pre ++ bit :: post := by
      rw [← hds]
      simpa using hxm
    rw [hcurr_eq]
    rcases List.mem_append.mp hxds with h | h
    · exfalso
      rw [List.pairwise_append] at hdesc
      have := hdesc.2.2 x h bit (by simp)
      exact absurd (lt_of_lt_of_le this hle) (lt_irrefl _)
    · rcases List.mem_cons.mp h with h | h
      · rw [h, hdev_bit, abs_sub_comm]
        exact le_abs_self _
      · obtain ⟨q1, q2, hq⟩ := List.append_of_mem h
        have hds2 : bit_string.reverse = (pre ++ bit :: q1) ++ x :: q2 := by
          rw [hds, hq]
          simp
        rw [rule_deviation_at hord hds2, abs_sub_comm]
        refine le_trans ?_ (le_abs_self _)
        have hqs : sum_first post = sum_first q1 + (x.2.first + sum_first q2) := by
          rw [hq]
          simp only [sum_first_append, sum_first_cons]
        simp only [sum_first_append, sum_first_cons, sum_second_append, sum_second_cons]
        have e2 : sum_first q2
            = cat_doc_count - (sum_first pre + (bit.2.first + sum_first q1) + x.2.first) := by
          omega
        rw [hpost, e2]
        exact recall_minus_precision_mono hpos (by omega) (by omega) (by omega) (by omega)
  · -- the bucket just above `bit`
    intro x hlast
    have hne : pre ≠ [] := by
      rintro rfl
      simp at hlast
    have hbc := (state_after_prev hs hne).2
    have hp0 : 0 ≤ prev_diff cat_doc_count s := by
      rw [hprev_eq, get_recall_eq_precision]
      have := get_precision_antitone (sum_first pre)
        (show sum_second pre ≤ bit.2.first + sum_first post by omega) (by omega)
      linarith
    obtain ⟨front, hfront⟩ := List.getLast?_eq_some_iff.mp hlast
    have hds2 : bit_string.reverse = front ++ x :: (bit :: post) := by
      rw [hds, hfront]
      simp
    rw [rule_deviation_at hord hds2, ← abs_of_nonneg hp0, hprev_eq, hfront]
    simp only [sum_first_append, sum_first_cons, sum_first_nil, sum_second_append,
      sum_second_cons, sum_second_nil, Nat.add_zero]

/-- C11 (amended): for an ordered bucket list and `cat_doc_count > 0` equal
to the sum of the `first` counters, with the sum of the `second` counters
below `2 ^ 32`: the walk leaves the loop at a bucket `bit`, and the
`|precision - recall|` of the threshold it sets exceeds by at most
`3 / 2 ^ 52` that of the score of `bit`, of the bucket just above `bit`, and
of every bucket below `bit`. -/
theorem C11_threshold_nearly_best_from_previous_bucket_down (cat_doc_count : Nat)
    (bit_string : class_d_list) (threshold : ℚ)
    (hord : map_ordered bit_string) (hpos : 0 < cat_doc_count)
    (hr : cat_doc_count < UINT_RANGE) (hsum : sum_first bit_string = cat_doc_count)
    (hneg : sum_second bit_string < UINT_RANGE) :
    ∃ pre bit post s r, bit_string.reverse = pre ++ bit :: post ∧
      state_after cat_doc_count pre (initial_state cat_doc_count threshold) = some s ∧
      loop_body_double cat_doc_count s bit = .leave r ∧
      do_threshold_estimation_double cat_doc_count bit_string threshold =
        some (.finite r.threshold, interpolated_BEP_double cat_doc_count r) ∧
      ∀ x ∈ bit_string, (x.1 ≤ bit.1 ∨ pre.getLast? = some x) →
        rule_deviation bit_string r.threshold
          ≤ rule_deviation bit_string x.1 + 3 / 2 ^ 52 := by
  obtain ⟨pre, bit, post, s, r, hds, hs, hc, hb, hx, hw, hd⟩ :=
    do_threshold_estimation_double_leaves threshold hpos hr hsum
  refine ⟨pre, bit, post, s, r, hds, hs, hx, hd, ?_⟩
  have heps : (0 : ℚ) ≤ 3 / 2 ^ 52 := by norm_num
  have hdp := abs_le.mp (prev_diff_double_close cat_doc_count s)
  have hdc := abs_le.mp (curr_diff_double_close cat_doc_count s bit)
  rcases loop_body_double_leave hx with ⟨heq, hr1⟩ | ⟨hlt, hcd, hr1⟩ | ⟨hlt, hcd, p, hp, hr1⟩
  · -- equality
    obtain ⟨hbit, hafter, hbefore⟩ :=
      deviations_at_stop hord hpos hr hsum hneg hds hs hc hb (le_of_eq heq.symm)
    have h0 : curr_diff cat_doc_count s bit = 0 := by
      unfold curr_diff
      rw [heq, get_recall_eq_precision, sub_self]
    intro x _ _
    rw [hr1]
    simp only
    rw [hbit, h0]
    have : 0 ≤ rule_deviation bit_string x.1 := by
      unfold rule_deviation
      exact abs_nonneg _
    linarith
  · -- the bucket `bit` is taken
    obtain ⟨hbit, hafter, hbefore⟩ :=
      deviations_at_stop hord hpos hr hsum hneg hds hs hc hb (le_of_lt hlt)
    intro x hxm hcases
    rw [hr1]
    simp only
    rw [hbit]
    rcases hcases with hle | hlast
    · have := hafter x hxm hle
      linarith
    · rw [hbefore x hlast]
      linarith [hdp.1, hdp.2, hdc.1, hdc.2]
  · -- the bucket above `bit` is taken
    obtain ⟨hbit, hafter, hbefore⟩ :=
      deviations_at_stop hord hpos hr hsum hneg hds hs hc hb (le_of_lt hlt)
    have hne : pre ≠ [] := by
      rintro rfl
      simp [state_after] at hs
      subst hs
      simp [initial_state] at hp
    have hlast := (state_after_prev hs hne).1
    rw [hp] at hlast
    intro x hxm hcases
    rw [hr1]
    simp only
    rw [hbefore p hlast.symm]
    rcases hcases with hle | hlast2
    · have := hafter x hxm hle
      linarith [hdp.1, hdp.2, hdc.1, hdc.2]
    · rw [hbefore x hlast2]
      linarith

theorem C11_threshold_nearly_best_from_previous_bucket_down_witness :
    ∃ pre bit post s r,
      ([(3, ⟨1, 1⟩), (5, ⟨1, 0⟩)] : class_d_list).reverse = pre ++ bit :: post ∧
      state_after 2 pre (initial_state 2 0) = some s ∧
      loop_body_double 2 s bit = .leave r ∧
      do_threshold_estimation_double 2 [(3, ⟨1, 1⟩), (5, ⟨1, 0⟩)] 0 =
        some (.finite r.threshold, interpolated_BEP_double 2 r) ∧
      ∀ x ∈ ([(3, ⟨1, 1⟩), (5, ⟨1, 0⟩)] : class_d_list),
        (x.1 ≤ bit.1 ∨ pre.getLast? = some x) →
        rule_deviation [(3, ⟨1, 1⟩), (5, ⟨1, 0⟩)] r.threshold
          ≤ rule_deviation [(3, ⟨1, 1⟩), (5, ⟨1, 0⟩)] x.1 + 3 / 2 ^ 52 :=
  C11_threshold_nearly_best_from_previous_bucket_down 2 [(3, ⟨1, 1⟩), (5, ⟨1, 0⟩)] 0
    (by unfold map_ordered; simp; norm_num) (by decide)
    (by unfold UINT_RANGE; norm_num) (by decide)
    (by unfold UINT_RANGE; simp [sum_second])

/-- C11 (as stated) fails in two ways. On the buckets `(10, 1, 3)`,
`(9, 1, 0)`, `(8, 3, 1)`, `(7, 2, 0)` with `cat_doc_count = 7` the walk leaves
the loop at the bucket of 8 and sets the threshold 9, where
`|precision - recall|` is `4 / 35`; the rule `score >= 10` has `3 / 28`, which
is smaller: the buckets higher up are not compared. On the buckets
`(3, 100000000, 99999999)`, `(2, 0, 2)`, `(1, 100000000, 0)` with
`cat_doc_count = 200000000` the walk leaves the loop at the bucket of 2, where
the doubles `prev_diff` and `curr_diff` are both `11258999 / 2 ^ 52`, and sets
the threshold 3, with `|precision - recall| = 1 / 399999998`; the rule
`score >= 2` has `1 / 400000002`, which is smaller: the comparison is made on
rounded numbers. -/
theorem C11_counterexample_closer_buckets :
    map_ordered [(7, ⟨2, 0⟩), (8, ⟨3, 1⟩), (9, ⟨1, 0⟩), (10, ⟨1, 3⟩)] ∧
    (∀ x ∈ ([(7, ⟨2, 0⟩), (8, ⟨3, 1⟩), (9, ⟨1, 0⟩), (10, ⟨1, 3⟩)] : class_d_list),
      0 < x.2.first + x.2.second) ∧
    sum_first [(7, ⟨2, 0⟩), (8, ⟨3, 1⟩), (9, ⟨1, 0⟩), (10, ⟨1, 3⟩)] = 7 ∧
    do_threshold_estimation_double 7
      [(7, ⟨2, 0⟩), (8, ⟨3, 1⟩), (9, ⟨1, 0⟩), (10, ⟨1, 3⟩)] 0 =
      some (.finite 9, interpolated_BEP_double 7
        { threshold := 9, b := 3, c := 5, stop := .crossover_prev }) ∧
    rule_deviation [(7, ⟨2, 0⟩), (8, ⟨3, 1⟩), (9, ⟨1, 0⟩), (10, ⟨1, 3⟩)] 9 = 4 / 35 ∧
    rule_deviation [(7, ⟨2, 0⟩), (8, ⟨3, 1⟩), (9, ⟨1, 0⟩), (10, ⟨1, 3⟩)] 10 = 3 / 28 ∧
    (3 : ℚ) / 28 < 4 / 35 ∧
    map_ordered [(1, ⟨100000000, 0⟩), (2, ⟨0, 2⟩), (3, ⟨100000000, 99999999⟩)] ∧
    (∀ x ∈ ([(1, ⟨100000000, 0⟩), (2, ⟨0, 2⟩), (3, ⟨100000000, 99999999⟩)]
        : class_d_list), 0 < x.2.first + x.2.second) ∧
    sum_first [(1, ⟨100000000, 0⟩), (2, ⟨0, 2⟩), (3, ⟨100000000, 99999999⟩)]
      = 200000000 ∧
    prev_diff_double 200000000
      { b := 99999999, c := 100000000, prev_bit := some (3, ⟨100000000, 99999999⟩),
        threshold := 0 } = 11258999 / 2 ^ 52 ∧
    curr_diff_double 200000000
      { b := 99999999, c := 100000000, prev_bit := some (3, ⟨100000000, 99999999⟩),
        threshold := 0 } (2, ⟨0, 2⟩) = 11258999 / 2 ^ 52 ∧
    do_threshold_estimation_double 200000000
      [(1, ⟨100000000, 0⟩), (2, ⟨0, 2⟩), (3, ⟨100000000, 99999999⟩)] 0 =
      some (.finite 3, interpolated_BEP_double 200000000
        { threshold := 3, b := 99999999, c := 100000000, stop := .crossover_prev }) ∧
    rule_deviation [(1, ⟨100000000, 0⟩), (2, ⟨0, 2⟩), (3, ⟨100000000, 99999999⟩)] 3
      = 1 / 399999998 ∧
    rule_deviation [(1, ⟨100000000, 0⟩), (2, ⟨0, 2⟩), (3, ⟨100000000, 99999999⟩)] 2
      = 1 / 400000002 ∧
    (1 : ℚ) / 400000002 < 1 / 399999998 := by
  have hr : (7 : Nat) < UINT_RANGE := by unfold UINT_RANGE; norm_num
  have hr6 : (6 : Nat) < UINT_RANGE := by unfold UINT_RANGE; norm_num
  have hr5 : (5 : Nat) < UINT_RANGE := by unfold UINT_RANGE; norm_num
  have a03 : uint_add 0 3 = 3 := uint_add_of_lt (by unfold UINT_RANGE; norm_num)
  have a30 : uint_add 3 0 = 3 := uint_add_of_lt (by unfold UINT_RANGE; norm_num)
  have a31 : uint_add 3 1 = 4 := uint_add_of_lt (by unfold UINT_RANGE; norm_num)
  have s71 : uint_sub 7 1 = 6 := uint_sub_of_le (by omega) hr
  have s61 : uint_sub 6 1 = 5 := uint_sub_of_le (by omega) hr6
  have s53 : uint_sub 5 3 = 2 := uint_sub_of_le (by omega) hr5
  have s75 : uint_sub 7 5 = 2 := uint_sub_of_le (by omega) hr
  have s72 : uint_sub 7 2 = 5 := uint_sub_of_le (by omega) hr
  have hs : state_after 7 [(10, ⟨1, 3⟩), (9, ⟨1, 0⟩)] (initial_state 7 0) =
      some { b := 3, c := 5, prev_bit := some (9, ⟨1, 0⟩), threshold := 0 } := by
    have h1 : uint_add (initial_state 7 0).b
        ((10, ⟨1, 3⟩) : ℚ × class_d_list_entry).2.second
        < uint_sub (initial_state 7 0).c
          ((10, ⟨1, 3⟩) : ℚ × class_d_list_entry).2.first := by
      simp only [initial_state, a03, s71]
      norm_num
    rw [state_after, loop_body_of_lt h1]
    simp only [initial_state, a03, s71]
    rw [state_after, loop_body_of_lt]
    · simp only [a30, s61, state_after]
    · simp only [a30, s61]
      norm_num
  have hb : loop_body_double 7
      { b := 3, c := 5, prev_bit := some (9, ⟨1, 0⟩), threshold := 0 } (8, ⟨3, 1⟩) =
      .leave { threshold := 9, b := 3, c := 5, stop := .crossover_prev } := by
    have hp := abs_le.mp (prev_diff_double_close 7
      { b := 3, c := 5, prev_bit := some (9, ⟨1, 0⟩), threshold := 0 })
    have hc := abs_le.mp (curr_diff_double_close 7
      { b := 3, c := 5, prev_bit := some (9, ⟨1, 0⟩), threshold := 0 } (8, ⟨3, 1⟩))
    have hpe : prev_diff 7
        { b := 3, c := 5, prev_bit := some (9, ⟨1, 0⟩), threshold := 0 } = 4 / 35 := by
      unfold prev_diff
      simp only [s75]
      norm_num [get_precision, get_recall]
    have hce : curr_diff 7
        { b := 3, c := 5, prev_bit := some (9, ⟨1, 0⟩), threshold := 0 } (8, ⟨3, 1⟩)
        = 10 / 63 := by
      unfold curr_diff
      simp only [a31, s53, s72]
      norm_num [get_precision, get_recall]
    rw [hpe] at hp
    rw [hce] at hc
    rw [@loop_body_double_crossover 7
      { b := 3, c := 5, prev_bit := some (9, ⟨1, 0⟩), threshold := 0 }
      (8, ⟨3, 1⟩) (9, ⟨1, 0⟩) (by
      simp only [a31, s53]
      norm_num) rfl]
    rw [if_neg]
    have h3 : (4 : ℚ) / 35 + 3 / 2 ^ 53 < 10 / 63 - 3 / 2 ^ 53 := by norm_num
    linarith [hp.2, hc.1]
  -- the second bucket list
  have hrN : (200000000 : Nat) < UINT_RANGE := by unfold UINT_RANGE; norm_num
  have hrM : (100000000 : Nat) < UINT_RANGE := by unfold UINT_RANGE; norm_num
  have sN1 : uint_sub 200000000 100000000 = 100000000 := uint_sub_of_le (by omega) hrN
  have sN0 : uint_sub 100000000 0 = 100000000 := uint_sub_of_le (by omega) hrM
  have aN0 : uint_add 0 99999999 = 99999999 :=
    uint_add_of_lt (by unfold UINT_RANGE; norm_num)
  have aN2 : uint_add 99999999 2 = 100000001 :=
    uint_add_of_lt (by unfold UINT_RANGE; norm_num)
  have hhalf : round_double (1 / 2) = 1 / 2 := by
    rw [round_double_eq (-1) (2 ^ 52) (by norm_num) (by norm_num [abs_of_pos])
      (by norm_num [abs_of_pos]) (by norm_num [abs_of_pos, abs_lt])]
    norm_num
  have hp1 : round_double (100000000 / 199999999) = 4503599649888494 / 2 ^ 53 := by
    rw [round_double_eq (-1) 4503599649888494 (by norm_num) (by norm_num [abs_of_pos])
      (by norm_num [abs_of_pos]) (by norm_num [abs_of_pos, abs_lt])]
    norm_num
  have hp2 : round_double (100000000 / 200000001) = 9007199209704996 / 2 ^ 54 := by
    rw [round_double_eq (-2) 9007199209704996 (by norm_num) (by norm_num [abs_of_pos])
      (by norm_num [abs_of_pos]) (by norm_num [abs_of_pos, abs_lt])]
    norm_num
  have hd1 : round_double (4503599649888494 / 2 ^ 53 - 1 / 2) = 11258999 / 2 ^ 52 := by
    rw [round_double_eq (-29) 6044629061337088 (by norm_num) (by norm_num [abs_of_pos])
      (by norm_num [abs_of_pos]) (by norm_num [abs_of_pos, abs_lt])]
    norm_num
  have hd2 : round_double (1 / 2 - 9007199209704996 / 2 ^ 54) = 11258999 / 2 ^ 52 := by
    rw [round_double_eq (-29) 6044629061337088 (by norm_num) (by norm_num [abs_of_pos])
      (by norm_num [abs_of_pos]) (by norm_num [abs_of_pos, abs_lt])]
    norm_num
  have gp1 : get_precision 100000000 99999999 = 100000000 / 199999999 := by
    norm_num [get_precision]
  have gr1 : get_recall 100000000 100000000 = 1 / 2 := by norm_num [get_recall]
  have gp2 : get_precision 100000000 100000001 = 100000000 / 200000001 := by
    norm_num [get_precision]
  have hpd : prev_diff_double 200000000
      { b := 99999999, c := 100000000, prev_bit := some (3, ⟨100000000, 99999999⟩),
        threshold := 0 } = 11258999 / 2 ^ 52 := by
    unfold prev_diff_double get_precision_double get_recall_double
    simp only [sN1, gp1, gr1, hp1, hhalf, hd1]
  have hcd : curr_diff_double 200000000
      { b := 99999999, c := 100000000, prev_bit := some (3, ⟨100000000, 99999999⟩),
        threshold := 0 } (2, ⟨0, 2⟩) = 11258999 / 2 ^ 52 := by
    unfold curr_diff_double get_precision_double get_recall_double
    simp only [sN0, sN1, aN2, gp2, gr1, hp2, hhalf, hd2]
  have hs2 : state_after 200000000 [(3, ⟨100000000, 99999999⟩)]
      (initial_state 200000000 0) =
      some { b := 99999999, c := 100000000,
             prev_bit := some (3, ⟨100000000, 99999999⟩), threshold := 0 } := by
    rw [state_after, loop_body_of_lt]
    · simp only [initial_state, sN1, aN0, state_after]
    · simp only [initial_state, sN1, aN0]
      omega
  have hb2 : loop_body_double 200000000
      { b := 99999999, c := 100000000, prev_bit := some (3, ⟨100000000, 99999999⟩),
        threshold := 0 } (2, ⟨0, 2⟩) =
      .leave { threshold := 3, b := 99999999, c := 100000000, stop := .crossover_prev } := by
    rw [@loop_body_double_crossover 200000000
      { b := 99999999, c := 100000000, prev_bit := some (3, ⟨100000000, 99999999⟩),
        threshold := 0 } (2, ⟨0, 2⟩) (3, ⟨100000000, 99999999⟩) (by
      simp only [sN0, aN2]
      norm_num) rfl]
    rw [if_neg]
    rw [hpd, hcd]
    exact lt_irrefl _
  refine ⟨?_, ?_, ?_, ?_, ?_, ?_, by norm_num, ?_, ?_, ?_, hpd, hcd, ?_, ?_, ?_,
    by norm_num⟩
  · unfold map_ordered; simp; norm_num
  · intro x hx
    simp only [List.mem_cons, List.mem_singleton, List.not_mem_nil, or_false] at hx
    rcases hx with rfl | rfl | rfl | rfl <;> norm_num
  · norm_num [sum_first]
  · rw [do_threshold_estimation_double_walk 0 (by norm_num) (by simp)]
    have hrev : ([(7, ⟨2, 0⟩), (8, ⟨3, 1⟩), (9, ⟨1, 0⟩), (10, ⟨1, 3⟩)] : class_d_list).reverse
        = [(10, ⟨1, 3⟩), (9, ⟨1, 0⟩)] ++ [(8, ⟨3, 1⟩), (7, ⟨2, 0⟩)] := by simp
    rw [hrev, walk_double_append hs, walk_double, hb]
    rfl
  · norm_num [rule_deviation, true_positives, false_positives, false_negatives,
      sum_first, sum_second, List.filter, get_precision, get_recall, abs_of_pos]
  · norm_num [rule_deviation, true_positives, false_positives, false_negatives,
      sum_first, sum_second, List.filter, get_precision, get_recall, abs_of_pos]
  · unfold map_ordered; simp; norm_num
  · intro x hx
    simp only [List.mem_cons, List.mem_singleton, List.not_mem_nil, or_false] at hx
    rcases hx with rfl | rfl | rfl <;> norm_num
  · norm_num [sum_first]
  · rw [do_threshold_estimation_double_walk 0 (by norm_num) (by simp)]
    have hrev : ([(1, ⟨100000000, 0⟩), (2, ⟨0, 2⟩), (3, ⟨100000000, 99999999⟩)]
        : class_d_list).reverse
        = [(3, ⟨100000000, 99999999⟩)] ++ [(2, ⟨0, 2⟩), (1, ⟨100000000, 0⟩)] := by simp
    rw [hrev, walk_double_append hs2, walk_double, hb2]
    rfl
  · norm_num [rule_deviation, true_positives, false_positives, false_negatives,
      sum_first, sum_second, List.filter, get_precision, get_recall, abs_of_pos]
  · norm_num [rule_deviation, true_positives, false_positives, false_negatives,
      sum_first, sum_second, List.filter, get_precision, get_recall, abs_of_pos]

/-! ## The empty target category in `estimate_Th` -/

/-- When the list of documents in the target category is empty and some
document has a dot product that is not negative, `estimate_Th` writes the
double-precision product of 1.5 and the highest dot product `m` into the
classifier record and returns 1; `do_threshold_estimation` with
`cat_doc_count = 0` sets the same threshold on the aggregated buckets. -/
theorem estimate_Th_double_empty_category (V : Type)
    (dot_product_sparse_vector : V → V → ℚ)
    (unique_docs : List (V × Option (List String))) (target_cat_name : String)
    (target_cat_classifier : class_classifier V)
    (hnonneg : ∃ doc ∈ unique_docs,
      0 ≤ dot_product_sparse_vector doc.1 target_cat_classifier.second) :
    ∃ m, (∃ doc ∈ unique_docs,
        dot_product_sparse_vector doc.1 target_cat_classifier.second = m) ∧
      (∀ doc ∈ unique_docs,
        dot_product_sparse_vector doc.1 target_cat_classifier.second ≤ m) ∧
      estimate_Th_double dot_product_sparse_vector unique_docs [] target_cat_name
        target_cat_classifier = some (double_of_real (1.5 * m), 1) ∧
      do_threshold_estimation_double 0
        (construct_bits dot_product_sparse_vector target_cat_classifier.second
          target_cat_name unique_docs).1 target_cat_classifier.threshold =
        some (double_of_real (1.5 * m), 1) := by
  obtain ⟨h1, h2, h3⟩ := foldl_max_dot_product dot_product_sparse_vector
    target_cat_classifier.second unique_docs 0
  obtain ⟨d0, hd0, hd0nn⟩ := hnonneg
  -- the maximum computed by the loop is the dot product of a document
  have hscore : ∃ doc ∈ unique_docs,
      dot_product_sparse_vector doc.1 target_cat_classifier.second =
        unique_docs.foldl (fun m doc =>
          let result := dot_product_sparse_vector doc.1 target_cat_classifier.second
          if result > m then result else m) 0 := by
    rcases h3 with h3 | h3
    · refine ⟨d0, hd0, ?_⟩
      have := h2 d0 hd0
      rw [h3] at this ⊢
      exact le_antisymm this hd0nn
    · exact h3
  obtain ⟨hord, hinv⟩ := construct_bits_buckets dot_product_sparse_vector
    target_cat_classifier.second target_cat_name unique_docs
  have hbits : (construct_bits dot_product_sparse_vector target_cat_classifier.second
      target_cat_name unique_docs).1 ≠ [] := by
    have := (hinv (dot_product_sparse_vector d0.1 target_cat_classifier.second) _).mpr
      ⟨⟨d0, hd0, rfl⟩, rfl⟩
    exact List.ne_nil_of_mem this
  obtain ⟨top, htop, hmax, hdo⟩ :=
    do_threshold_estimation_double_zero target_cat_classifier.threshold hbits hord
  obtain ⟨⟨dtop, hdtop, hstop⟩, _⟩ := (hinv top.1 top.2).mp htop
  obtain ⟨dm, hdm, hsm⟩ := hscore
  have hkey : top.1 = unique_docs.foldl (fun m doc =>
      let result := dot_product_sparse_vector doc.1 target_cat_classifier.second
      if result > m then result else m) 0 := by
    apply le_antisymm
    · rw [← hstop]
      exact h2 dtop hdtop
    · rw [← hsm]
      have := (hinv (dot_product_sparse_vector dm.1 target_cat_classifier.second) _).mpr
        ⟨⟨dm, hdm, rfl⟩, rfl⟩
      exact hmax _ this
  refine ⟨_, ⟨dm, hdm, hsm⟩, h2, ?_, ?_⟩
  · simp [estimate_Th_double]
  · rw [hdo, hkey]

/-- C13 (the code at the failing input): for the single document of dot
product `-1`, with an empty list of documents in the target category,
`estimate_Th` writes the threshold 0 and returns 1; `1.5 * max(score)` is
`-1.5`, a double, and that is the threshold `do_threshold_estimation` sets
with `cat_doc_count = 0` on the aggregated bucket `(-1, 0, 1)`. -/
theorem C13_negative_dot_product_writes_zero :
    estimate_Th_double (fun x y : ℚ => x * y) [(-1, none)] [] "X" ⟨7, 1⟩ =
      some (.finite 0, 1) ∧
    construct_bits (fun x y : ℚ => x * y) 1 "X" [(-1, none)] = ([(-1, ⟨0, 1⟩)], 0) ∧
    do_threshold_estimation_double 0 [(-1, ⟨0, 1⟩)] 7 = some (.finite (1.5 * (-1)), 1) ∧
    is_double (1.5 * (-1)) ∧
    (0 : ℚ) ≠ 1.5 * (-1) := by
  have hi : uint_incr 0 = 1 := uint_incr_of_lt one_lt_UINT_RANGE
  have hm : round_double (1.5 * (-1)) = 1.5 * (-1) := by
    rw [round_double_eq 0 (-6755399441055744) (by norm_num) (by norm_num [abs_of_neg])
      (by norm_num [abs_of_neg]) (by norm_num [abs_of_pos, abs_lt])]
    norm_num
  have hd : is_double (1.5 * (-1)) := by
    refine ⟨hm, ?_⟩
    unfold DBL_MAX
    norm_num [abs_of_neg]
  have h0 : double_of_real (1.5 * 0) = .finite 0 := by
    rw [mul_zero]
    exact double_of_real_of_is_double ⟨round_double_zero, by unfold DBL_MAX; norm_num⟩
  refine ⟨?_, ?_, ?_, hd, by norm_num⟩
  · simp only [estimate_Th_double, List.isEmpty_nil, if_true, List.foldl_cons,
      List.foldl_nil]
    rw [if_neg (by norm_num), h0]
  · simp [construct_bits, construct_bits_step, bit_belongs_to_target_cat,
      d_list_update, hi]
  · simp only [do_threshold_estimation_double, List.reverse_cons, List.reverse_nil,
      List.nil_append, if_true, double_of_real_of_is_double hd]

end TcRocchio
